import Mathlib

/-!
Verification of the DAWG builder (`src/main.c`).

The C program builds a trie from a word list, moves end-of-word flags from
nodes to their incoming edges, compresses the trie into a DAWG by bottom-up
hash-consing, flattens the DAWG into a packed array of 32-bit entries, and
can enumerate the packed image back into words.

Modelling conventions, used consistently below:

* A `TrieNode*` tree is modelled by the inductive type `Trie`.  The two
  parallel 26-entry arrays `children[26]` (null = absent) and
  `child_is_terminal[26]` are modelled as a single 26-entry list of pairs
  `(Option Trie × Bool)`; `is_end_of_word` is the `eow` field.  `calloc`
  zero-initialisation becomes `emptyNode`.
* Pointer identity is modelled by structural equality of trees.  The program
  only compares node pointers after `dawg_compress` has canonicalised the
  graph (in the offset maps of `dawg_flatten`), where bottom-up hash-consing
  guarantees that two live pointers are equal exactly when their unfolded
  trees are equal, so the modelling is faithful there.  The `visited` flags
  of the C nodes exist only to avoid re-processing shared pointers; in the
  purely functional model re-processing is idempotent, so they are dropped.
* The signature hash map of the compressor and the node→offset hash maps of
  the flattener are modelled as association lists: a C hash map with full
  `memcmp` equality inside buckets behaves exactly like an association list
  looked up by structural equality.  `offset_map_get` returns `-1` in C when
  a node is absent; that sentinel is modelled by `Option Nat` (`none` = -1).
* The two breadth-first loops of `dawg_flatten` and the recursion of
  `packed_dawg_walk` terminate in C because the node graph is finite and
  acyclic; the model makes this explicit with a fuel parameter and returns
  `none` when fuel runs out.  Reading `data[index]` out of bounds (which the
  C code does on a zero-entry image) is modelled by `List.get?` returning
  `none`, which aborts the walk.
* Letters are alphabet indices 0..25 (`'a'..'z'` minus `'a'`); words are
  `List Nat` of such indices.  `clean_word` guarantees in C that only such
  words reach `trie_insert`; theorems about whole-pipeline behaviour carry
  the corresponding hypothesis `CleanWords`.
-/

set_option autoImplicit false

/-- A trie / DAWG node: 26 child slots, each an optional subtree paired with
the `child_is_terminal` flag of its incoming edge, plus `is_end_of_word`. -/
inductive Trie where
  | mk (slots : List (Option Trie × Bool)) (eow : Bool)

/-- The `children[26]`/`child_is_terminal[26]` arrays of a node. -/
def Trie.slots : Trie → List (Option Trie × Bool)
  | .mk s _ => s

/-- The `is_end_of_word` flag of a node. -/
def Trie.eow : Trie → Bool
  | .mk _ e => e

theorem Trie.eta : ∀ t : Trie, Trie.mk t.slots t.eow = t
  | .mk _ _ => rfl

mutual
/-- Structural (boolean) equality of trees, standing in for C pointer
equality on canonicalised nodes. -/
def trieBEq : Trie → Trie → Bool
  | .mk s1 e1, .mk s2 e2 => slotsBEq s1 s2 && e1 == e2
def slotsBEq : List (Option Trie × Bool) → List (Option Trie × Bool) → Bool
  | [], [] => true
  | (c1, b1) :: r1, (c2, b2) :: r2 => childBEq c1 c2 && b1 == b2 && slotsBEq r1 r2
  | _, _ => false
def childBEq : Option Trie → Option Trie → Bool
  | none, none => true
  | some a, some b => trieBEq a b
  | _, _ => false
end

mutual
theorem trieBEq_iff : ∀ a b : Trie, trieBEq a b = true ↔ a = b
  | .mk s1 e1, .mk s2 e2 => by
    simp only [trieBEq, Bool.and_eq_true, beq_iff_eq, Trie.mk.injEq]
    rw [slotsBEq_iff s1 s2]
theorem slotsBEq_iff : ∀ a b : List (Option Trie × Bool), slotsBEq a b = true ↔ a = b
  | [], [] => by simp [slotsBEq]
  | [], (_, _) :: _ => by simp [slotsBEq]
  | (_, _) :: _, [] => by simp [slotsBEq]
  | (c1, b1) :: r1, (c2, b2) :: r2 => by
    simp only [slotsBEq, Bool.and_eq_true, beq_iff_eq, List.cons.injEq, Prod.mk.injEq]
    rw [childBEq_iff c1 c2, slotsBEq_iff r1 r2]
theorem childBEq_iff : ∀ a b : Option Trie, childBEq a b = true ↔ a = b
  | none, none => by simp [childBEq]
  | none, some _ => by simp [childBEq]
  | some _, none => by simp [childBEq]
  | some a, some b => by
    simp only [childBEq, Option.some.injEq]
    rw [trieBEq_iff a b]
end

instance : DecidableEq Trie := fun a b => decidable_of_iff _ (trieBEq_iff a b)

/-- `trie_create_node`: a fresh `calloc`ed node — all 26 slots empty, all
flags zero. -/
def emptyNode : Trie := .mk (List.replicate 26 (none, false)) false

/-- `trie_insert`: walk the word, creating missing children, and set
`is_end_of_word` on the final node.  (In C only clean words of letters
`'a'..'z'`, i.e. indices < 26, reach this function.) -/
def trie_insert (t : Trie) (w : List Nat) : Trie :=
  match w with
  | [] => .mk t.slots true
  | i :: rest =>
    let s := t.slots.getD i (none, false)
    let child := s.1.getD emptyNode
    .mk (t.slots.set i (some (trie_insert child rest), s.2)) t.eow

/-- Building the trie from a word list, as `trie_load_from_file` does with
the clean lines of the input file. -/
def buildTrie (ws : List (List Nat)) : Trie := ws.foldl trie_insert emptyNode

mutual
/-- `trie_count_nodes`: number of allocations reachable from the node; in
the tree model every subtree occurrence counts once. -/
def trie_count_nodes : Trie → Nat
  | .mk s _ => 1 + countSlots s
def countSlots : List (Option Trie × Bool) → Nat
  | [] => 0
  | (none, _) :: rest => countSlots rest
  | (some c, _) :: rest => trie_count_nodes c + countSlots rest
end

/-- `count_children`: number of non-null child slots. -/
def count_children (t : Trie) : Nat := t.slots.countP (fun s => s.1.isSome)

mutual
/-- `trie_move_eow_to_edges`: copy each child's `is_end_of_word` onto the
parent's `child_is_terminal` flag for that edge, recursively. -/
def trie_move_eow_to_edges : Trie → Trie
  | .mk s e => .mk (moveSlots s) e
def moveSlots : List (Option Trie × Bool) → List (Option Trie × Bool)
  | [] => []
  | (none, b) :: rest => (none, b) :: moveSlots rest
  | (some c, _) :: rest => (some (trie_move_eow_to_edges c), c.eow) :: moveSlots rest
end

mutual
/-- `dawg_print` / `dawg_count_words`: all words encoded by edge-terminal
flags, in depth-first ascending-letter order. -/
def dawg_words : Trie → List (List Nat)
  | .mk s _ => wordsSlots s 0
def wordsSlots : List (Option Trie × Bool) → Nat → List (List Nat)
  | [], _ => []
  | (none, _) :: rest, i => wordsSlots rest (i + 1)
  | (some c, b) :: rest, i =>
    (if b then [[i]] else []) ++ (dawg_words c).map (fun w => i :: w) ++ wordsSlots rest (i + 1)
end

mutual
/-- All subtree occurrences of a tree, the node itself first: the set of
nodes a `visited`-flag traversal such as `dawg_count_nodes` reaches. -/
def subNodes : Trie → List Trie
  | .mk s e => .mk s e :: subNodesSlots s
def subNodesSlots : List (Option Trie × Bool) → List Trie
  | [] => []
  | (none, _) :: rest => subNodesSlots rest
  | (some c, _) :: rest => subNodes c ++ subNodesSlots rest
end

mutual
/-- Height of a tree: longest chain of child edges below the node. -/
def trieHeight : Trie → Nat
  | .mk s _ => heightSlots s
def heightSlots : List (Option Trie × Bool) → Nat
  | [] => 0
  | (none, _) :: rest => heightSlots rest
  | (some c, _) :: rest => max (trieHeight c + 1) (heightSlots rest)
end

/-! ### DAWG compression (`hashmap_find_or_insert`, `dawg_compress_node`, `dawg_compress`) -/

/-- The signature table: signature (the 26 child references plus the 26
terminal flags, exactly the data `memcmp`ed by `hashmap_find_or_insert`)
to canonical node.  New entries are prepended, as in the C bucket lists. -/
abbrev SigMap := List (List (Option Trie × Bool) × Trie)

/-- Lookup by full signature equality, as the `memcmp` pair in
`hashmap_find_or_insert` does. -/
def lookupSig : SigMap → List (Option Trie × Bool) → Option Trie
  | [], _ => none
  | (s, c) :: m, sig => if s = sig then some c else lookupSig m sig

/-- `hashmap_find_or_insert`: return the canonical node for the signature,
inserting the argument as canonical if the signature is new. -/
def hashmap_find_or_insert (m : SigMap) (t : Trie) : Trie × SigMap :=
  match lookupSig m t.slots with
  | some c => (c, m)
  | none => (t, (t.slots, t) :: m)

mutual
/-- `dawg_compress_node`: canonicalise children left to right (ascending
letter), then canonicalise the node itself through the signature table. -/
def dawg_compress_node (t : Trie) (m : SigMap) : Trie × SigMap :=
  match t with
  | .mk s e =>
    match compressSlots s m with
    | (s', m') => hashmap_find_or_insert m' (.mk s' e)
def compressSlots : List (Option Trie × Bool) → SigMap → List (Option Trie × Bool) × SigMap
  | [], m => ([], m)
  | (none, b) :: rest, m =>
    match compressSlots rest m with
    | (r', m') => ((none, b) :: r', m')
  | (some c, b) :: rest, m =>
    match dawg_compress_node c m with
    | (c', m1) =>
      match compressSlots rest m1 with
      | (r', m2) => ((some c', b) :: r', m2)
end

/-- `dawg_compress`: canonicalise the root's children in place; the root
itself is never submitted to the table. -/
def dawg_compress (root : Trie) (m : SigMap) : Trie × SigMap :=
  match compressSlots root.slots m with
  | (s', m') => (.mk s' root.eow, m')

/-! ### Packed entry format (`PACK_*` / `UNPACK_*` macros) -/

/-- Bits 0-4: letter code. -/
def PACK_CHAR (c : Nat) : Nat := c &&& 0x1F

/-- Bit 5: end of word. -/
def PACK_EOW (eow : Bool) : Nat := ((cond eow 1 0) &&& 1) <<< 5

/-- Bit 6: end of node. -/
def PACK_EON (eon : Bool) : Nat := ((cond eon 1 0) &&& 1) <<< 6

/-- Bits 7-31: next pointer, silently truncated to 25 bits. -/
def PACK_NEXT (ptr : Nat) : Nat := (ptr &&& 0x1FFFFFF) <<< 7

/-- One packed 32-bit entry, the or of the four fields, as built in phase 2
of `dawg_flatten`. -/
def mkEntry (c : Nat) (eow eon : Bool) (ptr : Nat) : Nat :=
  PACK_CHAR c ||| PACK_EOW eow ||| PACK_EON eon ||| PACK_NEXT ptr

def UNPACK_CHAR (v : Nat) : Nat := v &&& 0x1F

def UNPACK_EOW (v : Nat) : Nat := (v >>> 5) &&& 1

def UNPACK_EON (v : Nat) : Nat := (v >>> 6) &&& 1

def UNPACK_NEXT (v : Nat) : Nat := (v >>> 7) &&& 0x1FFFFFF

/-! ### Flattening (`dawg_flatten` with its offset maps) -/

/-- The node→offset hash map of the flattener, keyed by node identity
(structural equality of canonicalised trees).  `none` models C's `-1`. -/
abbrev OffMap := List (Trie × Nat)

/-- `offset_map_get`: offset of a node, `none` (C: `-1`) when absent. -/
def offset_map_get : OffMap → Trie → Option Nat
  | [], _ => none
  | (u, off) :: m, t => if u = t then some off else offset_map_get m t

/-- `offset_map_put`: record a node's offset (prepended, like the C bucket
insert). -/
def offset_map_put (om : OffMap) (t : Trie) (off : Nat) : OffMap := (t, off) :: om

/-- Phase 1 inner loop of `dawg_flatten`: scan the dequeued node's children
in ascending letter order; assign each not-yet-assigned child with children
the current size (advancing size by its child count) and collect it for the
queue; assign childless children offset 0. -/
def scanChildren : List (Option Trie × Bool) → OffMap → Nat → OffMap × Nat × List Trie
  | [], om, size => (om, size, [])
  | (none, _) :: rest, om, size => scanChildren rest om size
  | (some c, _) :: rest, om, size =>
    match offset_map_get om c with
    | some _ => scanChildren rest om size
    | none =>
      let cc := count_children c
      if 0 < cc then
        match scanChildren rest (offset_map_put om c size) (size + cc) with
        | (om', size', q') => (om', size', c :: q')
      else
        scanChildren rest (offset_map_put om c 0) size

/-- Phase 1 of `dawg_flatten`: BFS assigning offsets.  Fuel replaces the
C loop's implicit termination on the finite node graph. -/
def phase1 : Nat → List Trie → OffMap → Nat → Option (OffMap × Nat)
  | _, [], om, size => some (om, size)
  | 0, _ :: _, _, _ => none
  | fuel + 1, node :: q, om, size =>
    match scanChildren node.slots om size with
    | (om', size', newQ) => phase1 fuel (q ++ newQ) om' size'

/-- Phase 2 inner loop of `dawg_flatten`: emit one packed entry per child of
the dequeued node into its block, and collect unvisited children with
children for the queue.  Arguments: remaining slots, letter index `i`,
position `slot` in the block, block base offset, the node's child count, the
offset map, the packed array, the visited map, the enqueue accumulator. -/
def writeEntries :
    List (Option Trie × Bool) → Nat → Nat → Nat → Nat → OffMap → List Nat → OffMap →
      List Trie → Option (List Nat × OffMap × List Trie)
  | [], _, _, _, _, _, data, vis, acc => some (data, vis, acc)
  | (none, _) :: rest, i, slot, base, num, om, data, vis, acc =>
    writeEntries rest (i + 1) slot base num om data vis acc
  | (some c, b) :: rest, i, slot, base, num, om, data, vis, acc =>
    match offset_map_get om c with
    | none => none
    | some coff =>
      let entry := mkEntry (i + 1) b (decide (slot = num - 1)) coff
      let data' := data.set (base + slot) entry
      if offset_map_get vis c = none ∧ 0 < count_children c then
        writeEntries rest (i + 1) (slot + 1) base num om data' (offset_map_put vis c 1)
          (acc ++ [c])
      else
        writeEntries rest (i + 1) (slot + 1) base num om data' vis acc

/-- Phase 2 of `dawg_flatten`: BFS again, filling in every node's block. -/
def phase2 : Nat → List Trie → OffMap → OffMap → List Nat → Option (List Nat)
  | _, [], _, _, data => some data
  | 0, _ :: _, _, _, _ => none
  | fuel + 1, node :: q, om, vis, data =>
    match offset_map_get om node with
    | none => none
    | some base =>
      match writeEntries node.slots 0 0 base (count_children node) om data vis [] with
      | none => none
      | some (data', vis', newQ) => phase2 fuel (q ++ newQ) om vis' data'

/-- `dawg_flatten`: the packed image of the (compressed) trie — offsets are
assigned by one BFS, entries are written by a second BFS into a zeroed array
of the assigned size.  The C function cannot fail; `none` only signals the
model's fuel or a `-1` offset lookup, both unreachable (proved below). -/
def dawg_flatten (root : Trie) : Option (List Nat) :=
  let fuel := trie_count_nodes root
  let om0 := offset_map_put [] root 0
  match phase1 fuel [root] om0 (count_children root) with
  | none => none
  | some (om, size) =>
    phase2 fuel [root] om (offset_map_put [] root 1) (List.replicate size 0)

/-! ### The packed walker (`packed_dawg_walk`) -/

/-- `packed_dawg_walk`: enumerate the words of a packed image starting at a
child block index; `pref` is the letters accumulated in `buffer[0..depth)`.
Out-of-bounds reads (possible in C) and fuel exhaustion give `none`; the C
letter `'a' + c - 1` is modelled as the alphabet index `c - 1`. -/
def packed_dawg_walk : Nat → List Nat → Nat → List Nat → Option (List (List Nat))
  | 0, _, _, _ => none
  | fuel + 1, data, index, pref =>
    if index = 0 ∧ 0 < pref.length then some [] else
    match data.get? index with
    | none => none
    | some v =>
      let c := UNPACK_CHAR v
      let eow := UNPACK_EOW v
      let eon := UNPACK_EON v
      let next := UNPACK_NEXT v
      let here := if eow = 1 then [pref ++ [c - 1]] else []
      match (if next ≠ 0 then packed_dawg_walk fuel data next (pref ++ [c - 1]) else some []) with
      | none => none
      | some sub =>
        match (if eon = 1 then some [] else packed_dawg_walk fuel data (index + 1) pref) with
        | none => none
        | some rest => some (here ++ sub ++ rest)

/-! ### The whole pipeline, as composed by `main` -/

/-- The in-memory DAWG `main` builds before flattening: trie construction,
edge-terminal rewrite, compression (with an initially empty table). -/
def buildDawg (ws : List (List Nat)) : Trie :=
  (dawg_compress (trie_move_eow_to_edges (buildTrie ws)) []).1

/-- Words accepted by `clean_word` and non-empty: lowercase letters only. -/
def CleanWords (ws : List (List Nat)) : Prop :=
  ∀ w ∈ ws, w ≠ [] ∧ ∀ c ∈ w, c < 26

/-! ## Basic facts about the packed entry format -/

/-! ### Predicates and invariants used by the proofs -/

/-- Whether the trie stores the word through node-terminal flags (the state
of affairs before `trie_move_eow_to_edges`). -/
def containsN (t : Trie) : List Nat → Bool
  | [] => t.eow
  | i :: w =>
    match (t.slots.getD i (none, false)).1 with
    | none => false
    | some c => containsN c w

/-- Every node reachable from a `trie_create_node`-built tree has the full
26 child slots; all trees the C program manipulates satisfy this. -/
def wfT (t : Trie) : Prop := ∀ u ∈ subNodes t, u.slots.length = 26

/-- Invariant of the signature table: every canonical node stored under a
signature has exactly that signature as its slot list, and is well formed. -/
def GoodSig (m : SigMap) : Prop := ∀ p ∈ m, (p.2).slots = p.1 ∧ wfT p.2

/-- The present children of a slot list, with their letters (starting at
`k`) and edge-terminal flags, in ascending letter order: the edges whose
packed entries make up a child block. -/
def childList : List (Option Trie × Bool) → Nat → List (Nat × Trie × Bool)
  | [], _ => []
  | (none, _) :: rest, k => childList rest (k + 1)
  | (some c, b) :: rest, k => (k, c, b) :: childList rest (k + 1)

def childrenOf (t : Trie) : List (Nat × Trie × Bool) := childList t.slots 0

/-- Invariant of the phase-1 BFS loop of `dawg_flatten`. -/
structure P1Inv (R : Trie) (q : List Trie) (om : OffMap) (size : Nat) : Prop where
  keys_nodup : (om.map Prod.fst).Nodup
  keys_reach : ∀ p ∈ om, p.1 ∈ subNodes R
  root_mem : (R, 0) ∈ om
  leaf_zero : ∀ p ∈ om, count_children p.1 = 0 → p.2 = 0
  blocks_in : ∀ p ∈ om, 0 < count_children p.1 → p.2 + count_children p.1 ≤ size
  blocks_lower : ∀ p ∈ om, 0 < count_children p.1 → p.1 ≠ R → count_children R ≤ p.2
  disj : ∀ p ∈ om, ∀ p' ∈ om, p.1 ≠ p'.1 → 0 < count_children p.1 → 0 < count_children p'.1 →
    p.2 + count_children p.1 ≤ p'.2 ∨ p'.2 + count_children p'.1 ≤ p.2
  size_ge : count_children R ≤ size
  q_assigned : ∀ u ∈ q, ∃ v, (u, v) ∈ om
  q_reach : ∀ u ∈ q, u ∈ subNodes R
  q_nodup : q.Nodup
  closed : ∀ p ∈ om, p.1 ∉ q → ∀ c b, (some c, b) ∈ p.1.slots → ∃ v, (c, v) ∈ om

/-- The child block of node `u` starting at `off` is correctly written in
`data`: one packed entry per child in ascending letter order, end-of-node on
the last, next = the child's assigned offset. -/
def BlockAt (data : List Nat) (om : OffMap) (u : Trie) (off : Nat) : Prop :=
  ∀ j letter c b, (childrenOf u).get? j = some (letter, c, b) →
    ∃ oc, offset_map_get om c = some oc ∧
      data.get? (off + j) = some (mkEntry (letter + 1) b
        (decide (j = (childrenOf u).length - 1)) oc)

/-- Invariant of the phase-2 BFS loop of `dawg_flatten`. -/
structure P2Inv (R : Trie) (om : OffMap) (size : Nat) (q : List Trie) (vis : OffMap)
    (data : List Nat) : Prop where
  data_len : data.length = size
  vis_nodup : (vis.map Prod.fst).Nodup
  vis_reach : ∀ p ∈ vis, p.1 ∈ subNodes R
  root_vis : (R, 1) ∈ vis
  q_vis : ∀ u ∈ q, ∃ v, (u, v) ∈ vis
  q_reach : ∀ u ∈ q, u ∈ subNodes R
  q_nodup : q.Nodup
  filled : ∀ p ∈ vis, p.1 ∉ q → ∀ off, (p.1, off) ∈ om → BlockAt data om p.1 off
  closed : ∀ p ∈ vis, p.1 ∉ q → ∀ c b, (some c, b) ∈ p.1.slots → 0 < count_children c →
    ∃ v, (c, v) ∈ vis

/-- Invariant of one slot as `trie_move_eow_to_edges` leaves it: an absent
child has a clear terminal flag, and a present childless child has its
terminal flag set (its subtree would otherwise encode no word). -/
def edgeOk : Option Trie × Bool → Prop
  | (none, b) => b = false
  | (some c, b) => count_children c = 0 → b = true

/-- All reachable slots satisfy `edgeOk`. -/
def GoodT (t : Trie) : Prop := ∀ u ∈ subNodes t, ∀ p ∈ u.slots, edgeOk p

/-- The signature-table invariant maintained by `dawg_compress`:
entries carry their own signature, well-formed trees, pairwise distinct
signatures, canonical children, and `edgeOk` slots. -/
structure MapInv (m : SigMap) : Prop where
  good : GoodSig m
  keys : (m.map Prod.fst).Nodup
  closed : ∀ p ∈ m, ∀ c b, (some c, b) ∈ (p.2).slots → (c.slots, c) ∈ m
  edges : ∀ p ∈ m, ∀ q ∈ (p.2).slots, edgeOk q

/-- In the trie as built (before the edge rewrite), every terminal flag on
an edge is still clear. -/
def FlagsFalse (t : Trie) : Prop := ∀ u ∈ subNodes t, ∀ p ∈ u.slots, p.2 = false

/-- Pointwise correspondence between a slot list and its compressed form:
same flags, same child presence, children with equal child counts and
equal word lists. -/
def SlotCorr (p q : Option Trie × Bool) : Prop :=
  p.2 = q.2 ∧ ((p.1 = none ∧ q.1 = none) ∨
    ∃ c c', p.1 = some c ∧ q.1 = some c' ∧
      count_children c' = count_children c ∧ dawg_words c' = dawg_words c)

theorem mkEntry_eq_arith (c : Nat) (eow eon : Bool) (ptr : Nat) :
    mkEntry c eow eon ptr =
      c % 32 + 32 * (cond eow 1 0) + 64 * (cond eon 1 0) + 128 * (ptr % 2 ^ 25) := by
  have hA : ∀ x : Nat, x &&& 31 = x % 32 := fun x => by
    have h := Nat.and_pow_two_sub_one_eq_mod x 5
    norm_num at h
    exact h
  have hB : ∀ x : Nat, x &&& 1 = x % 2 := Nat.and_one_is_mod
  have hC : ∀ x : Nat, x &&& 33554431 = x % 33554432 := fun x => by
    have h := Nat.and_pow_two_sub_one_eq_mod x 25
    norm_num at h
    exact h
  have he : (cond eow 1 0 : Nat) % 2 = cond eow 1 0 := by cases eow <;> simp
  have hn : (cond eon 1 0 : Nat) % 2 = cond eon 1 0 := by cases eon <;> simp
  have hm : (33554432 : Nat) = 2 ^ 25 := by norm_num
  unfold mkEntry PACK_CHAR PACK_EOW PACK_EON PACK_NEXT
  rw [show (0x1F : Nat) = 31 from rfl, show (0x1FFFFFF : Nat) = 33554431 from rfl]
  rw [hA, hB, hB, hC]
  rw [Nat.shiftLeft_eq, Nat.shiftLeft_eq, Nat.shiftLeft_eq]
  rw [he, hn, hm]
  have s1 : c % 32 ||| (cond eow 1 0) * 2 ^ 5 = (cond eow 1 0) * 2 ^ 5 + c % 32 := by
    rw [Nat.lor_comm, Nat.mul_comm]
    exact (Nat.mul_add_lt_is_or (by omega) _).symm
  have e1 : (cond eow 1 0 : Nat) * 2 ^ 5 + c % 32 < 2 ^ 6 := by
    cases eow <;> simp <;> omega
  have s2 : c % 32 ||| (cond eow 1 0) * 2 ^ 5 ||| (cond eon 1 0) * 2 ^ 6 =
      (cond eon 1 0) * 2 ^ 6 + ((cond eow 1 0) * 2 ^ 5 + c % 32) := by
    rw [s1, Nat.lor_comm, Nat.mul_comm]
    exact (Nat.mul_add_lt_is_or e1 _).symm
  have e2 : (cond eon 1 0 : Nat) * 2 ^ 6 + ((cond eow 1 0) * 2 ^ 5 + c % 32) < 2 ^ 7 := by
    cases eon <;> cases eow <;> simp <;> omega
  rw [s2, Nat.lor_comm, Nat.mul_comm]
  rw [← Nat.mul_add_lt_is_or e2]
  ring

theorem unpack_char_mkEntry (c : Nat) (eow eon : Bool) (ptr : Nat) (hc : c < 32) :
    UNPACK_CHAR (mkEntry c eow eon ptr) = c := by
  rw [mkEntry_eq_arith]
  unfold UNPACK_CHAR
  have hA : ∀ x : Nat, x &&& 31 = x % 32 := fun x => by
    have h := Nat.and_pow_two_sub_one_eq_mod x 5
    norm_num at h
    exact h
  rw [show (0x1F : Nat) = 31 from rfl, hA]
  cases eow <;> cases eon <;> simp <;> omega

theorem unpack_eow_mkEntry (c : Nat) (eow eon : Bool) (ptr : Nat) :
    UNPACK_EOW (mkEntry c eow eon ptr) = cond eow 1 0 := by
  rw [mkEntry_eq_arith]
  unfold UNPACK_EOW
  rw [Nat.and_one_is_mod, Nat.shiftRight_eq_div_pow]
  cases eow <;> cases eon <;> simp <;> omega

theorem unpack_eon_mkEntry (c : Nat) (eow eon : Bool) (ptr : Nat) :
    UNPACK_EON (mkEntry c eow eon ptr) = cond eon 1 0 := by
  rw [mkEntry_eq_arith]
  unfold UNPACK_EON
  rw [Nat.and_one_is_mod, Nat.shiftRight_eq_div_pow]
  cases eow <;> cases eon <;> simp <;> omega

theorem unpack_next_mkEntry (c : Nat) (eow eon : Bool) (ptr : Nat) :
    UNPACK_NEXT (mkEntry c eow eon ptr) = ptr % 2 ^ 25 := by
  rw [mkEntry_eq_arith]
  unfold UNPACK_NEXT
  have hC : ∀ x : Nat, x &&& 33554431 = x % 33554432 := fun x => by
    have h := Nat.and_pow_two_sub_one_eq_mod x 25
    norm_num at h
    exact h
  rw [show (0x1FFFFFF : Nat) = 33554431 from rfl, hC, Nat.shiftRight_eq_div_pow]
  cases eow <;> cases eon <;> simp <;> omega

/-! ## Claims settled by direct computation -/

/-- C9: for the input word set {ab, ac} the packed image has exactly three
entries, index 0 = (letter 1, eow 0, eon 1, next 1), index 1 = (letter 2,
eow 1, eon 0, next 0), index 2 = (letter 3, eow 1, eon 1, next 0), and the
DAWG has 2 non-root nodes. -/
theorem C9_packed_image_of_ab_ac :
    (dawg_flatten (buildDawg [[0, 1], [0, 2]])).map
        (fun d => d.map (fun v => (UNPACK_CHAR v, UNPACK_EOW v, UNPACK_EON v, UNPACK_NEXT v))) =
      some [(1, 0, 1, 1), (2, 1, 0, 0), (3, 1, 1, 0)] ∧
    (subNodesSlots (buildDawg [[0, 1], [0, 2]]).slots).dedup.length = 2 := by
  constructor
  · rfl
  · rfl

/-- C4 counterexample: the claim says an offset beyond 2^25 makes the build
fail with a diagnostic and is never silently truncated; but the entry
builder used by `dawg_flatten` silently reduces the next offset 2^25 to 0 —
there is no capacity check anywhere in the pipeline. -/
theorem C4_cex_pack_next_truncates_silently :
    UNPACK_NEXT (mkEntry 1 false true (2 ^ 25)) = 0 ∧ (2 ^ 25 : Nat) ≠ 0 := by
  constructor
  · rfl
  · decide

/-- C4 amended: `dawg_flatten` has no capacity check; every packed entry's
next field is the given offset reduced modulo 2^25, silently. -/
theorem C4_amended_next_field_is_mod_2_pow_25 (c : Nat) (eow eon : Bool) (ptr : Nat) :
    UNPACK_NEXT (mkEntry c eow eon ptr) = ptr % 2 ^ 25 :=
  unpack_next_mkEntry c eow eon ptr

/-- C5: the pipeline maps the empty word set to a zero-entry image (the
binary written is 0 bytes), but `packed_dawg_walk` then reads `data[0]` out
of bounds on that image instead of reporting zero words: the walk aborts on
the out-of-bounds read in the model, for every fuel. -/
theorem C5_bug_empty_image_walk_reads_out_of_bounds :
    dawg_flatten (buildDawg []) = some [] ∧
      ∀ fuel, packed_dawg_walk fuel [] 0 [] = none := by
  constructor
  · rfl
  · intro fuel
    cases fuel with
    | zero => rfl
    | succ n => rfl

/-! ## List helpers for the 26-entry slot arrays -/

theorem getD_set_self {α : Type} (l : List α) (i : Nat) (v d : α) (h : i < l.length) :
    (l.set i v).getD i d = v := by
  simp [List.getD_eq_getElem?_getD, List.getElem?_set_self h]

theorem getD_set_ne {α : Type} (l : List α) {i j : Nat} (v d : α) (h : i ≠ j) :
    (l.set i v).getD j d = l.getD j d := by
  simp [List.getD_eq_getElem?_getD, List.getElem?_set_ne h]

theorem getD_of_le {α : Type} (l : List α) {i : Nat} (d : α) (h : l.length ≤ i) :
    l.getD i d = d := by
  simp [List.getD_eq_getElem?_getD, List.getElem?_eq_none h]

theorem set_getD_self {α : Type} (l : List α) {i : Nat} (d : α) (h : i < l.length) :
    l.set i (l.getD i d) = l := by
  apply List.ext_getElem?
  intro n
  by_cases hn : i = n
  · subst hn
    rw [List.getElem?_set_self h, List.getD_eq_getElem?_getD, List.getElem?_eq_getElem h]
    rfl
  · rw [List.getElem?_set_ne hn]

/-! ## Insertion semantics -/

@[simp] theorem slots_mk (s : List (Option Trie × Bool)) (e : Bool) : (Trie.mk s e).slots = s := rfl

@[simp] theorem eow_mk (s : List (Option Trie × Bool)) (e : Bool) : (Trie.mk s e).eow = e := rfl

@[simp] theorem containsN_nil (t : Trie) : containsN t [] = t.eow := rfl

theorem containsN_cons (t : Trie) (i : Nat) (w : List Nat) :
    containsN t (i :: w) =
      match (t.slots.getD i (none, false)).1 with
      | none => false
      | some c => containsN c w := rfl

theorem containsN_emptyNode (w : List Nat) : containsN emptyNode w = false := by
  cases w with
  | nil => rfl
  | cons i r =>
    rw [containsN_cons]
    show (match ((List.replicate 26 ((none : Option Trie), false)).getD i (none, false)).1 with
      | none => false
      | some c => containsN c r) = false
    rcases Nat.lt_or_ge i 26 with h | h
    · rw [List.getD_eq_getElem?_getD, List.getElem?_replicate_of_lt (by simpa using h)]
      rfl
    · rw [getD_of_le _ _ (by simpa using h)]

theorem trie_insert_nil (t : Trie) : trie_insert t [] = Trie.mk t.slots true := rfl

theorem trie_insert_cons (t : Trie) (i : Nat) (rest : List Nat) :
    trie_insert t (i :: rest) =
      Trie.mk
        (t.slots.set i
          (some (trie_insert ((t.slots.getD i (none, false)).1.getD emptyNode) rest),
            (t.slots.getD i (none, false)).2))
        t.eow := rfl

/-! ## Reachable subtrees and well-formedness -/

theorem subNodes_mk (s : List (Option Trie × Bool)) (e : Bool) :
    subNodes (Trie.mk s e) = Trie.mk s e :: subNodesSlots s := by
  rw [subNodes]

theorem mem_subNodes_self (t : Trie) : t ∈ subNodes t := by
  cases t with
  | mk s e => rw [subNodes_mk]; exact List.mem_cons_self _ _

theorem mem_subNodesSlots_iff (s : List (Option Trie × Bool)) (u : Trie) :
    u ∈ subNodesSlots s ↔ ∃ c b, (some c, b) ∈ s ∧ u ∈ subNodes c := by
  induction s with
  | nil => simp [subNodesSlots]
  | cons hd rest ih =>
    match hd with
    | (none, b0) =>
      rw [subNodesSlots, ih]
      constructor
      · rintro ⟨c, b, hm, hu⟩
        exact ⟨c, b, List.mem_cons_of_mem _ hm, hu⟩
      · rintro ⟨c, b, hm, hu⟩
        rcases List.mem_cons.mp hm with h | h
        · cases h
        · exact ⟨c, b, h, hu⟩
    | (some c0, b0) =>
      rw [subNodesSlots]
      constructor
      · intro hu
        rcases List.mem_append.mp hu with h | h
        · exact ⟨c0, b0, List.mem_cons_self _ _, h⟩
        · rcases ih.mp h with ⟨c, b, hm, hu'⟩
          exact ⟨c, b, List.mem_cons_of_mem _ hm, hu'⟩
      · rintro ⟨c, b, hm, hu⟩
        rcases List.mem_cons.mp hm with h | h
        · rw [Prod.mk.injEq] at h
          obtain ⟨h1, _⟩ := h
          cases h1
          exact List.mem_append.mpr (Or.inl hu)
        · exact List.mem_append.mpr (Or.inr (ih.mpr ⟨c, b, h, hu⟩))

mutual
theorem subNodes_trans : ∀ t u v : Trie, u ∈ subNodes t → v ∈ subNodes u → v ∈ subNodes t
  | .mk s e => fun u v hu hv => by
    rw [subNodes_mk] at hu ⊢
    rcases List.mem_cons.mp hu with h | h
    · subst h
      rw [subNodes_mk] at hv
      exact hv
    · exact List.mem_cons_of_mem _ (subNodesSlots_trans s u v h hv)
theorem subNodesSlots_trans :
    ∀ (s : List (Option Trie × Bool)) (u v : Trie),
      u ∈ subNodesSlots s → v ∈ subNodes u → v ∈ subNodesSlots s
  | [] => fun u v hu _ => by rw [subNodesSlots] at hu; cases hu
  | (none, b) :: rest => fun u v hu hv => by
    rw [subNodesSlots] at hu ⊢
    exact subNodesSlots_trans rest u v hu hv
  | (some c, b) :: rest => fun u v hu hv => by
    rw [subNodesSlots] at hu ⊢
    rcases List.mem_append.mp hu with h | h
    · exact List.mem_append.mpr (Or.inl (subNodes_trans c u v h hv))
    · exact List.mem_append.mpr (Or.inr (subNodesSlots_trans rest u v h hv))
end

theorem mem_subNodes_of_child {t c : Trie} {b : Bool} (h : (some c, b) ∈ t.slots) :
    c ∈ subNodes t := by
  cases t with
  | mk s e =>
    rw [subNodes_mk]
    exact List.mem_cons_of_mem _
      ((mem_subNodesSlots_iff s c).mpr ⟨c, b, h, mem_subNodes_self c⟩)

theorem wfT_mk_iff (s : List (Option Trie × Bool)) (e : Bool) :
    wfT (Trie.mk s e) ↔ s.length = 26 ∧ ∀ c b, (some c, b) ∈ s → wfT c := by
  constructor
  · intro h
    refine ⟨h _ (mem_subNodes_self _), ?_⟩
    intro c b hm u hu
    exact h u (subNodes_trans _ c u (mem_subNodes_of_child hm) hu)
  · rintro ⟨hlen, hch⟩ u hu
    rw [subNodes_mk] at hu
    rcases List.mem_cons.mp hu with h | h
    · subst h
      exact hlen
    · rcases (mem_subNodesSlots_iff s u).mp h with ⟨c, b, hm, hu'⟩
      exact hch c b hm u hu'

theorem wfT_slots_length {t : Trie} (h : wfT t) : t.slots.length = 26 :=
  h t (mem_subNodes_self t)

theorem wfT_child {t c : Trie} {b : Bool} (hw : wfT t) (h : (some c, b) ∈ t.slots) : wfT c :=
  fun u hu => hw u (subNodes_trans _ c u (mem_subNodes_of_child h) hu)

theorem wfT_emptyNode : wfT emptyNode := by
  intro u hu
  have : subNodesSlots (List.replicate 26 ((none : Option Trie), false)) = [] := by
    rw [show (26 : Nat) = 25 + 1 from rfl]
    rfl
  rw [emptyNode, subNodes_mk, this] at hu
  rcases List.mem_cons.mp hu with h | h
  · subst h
    rfl
  · cases h

theorem wfT_getD_child {t : Trie} {i : Nat} (hw : wfT t)
    {c : Trie} (h : (t.slots.getD i (none, false)).1 = some c) : wfT c := by
  have hmem : t.slots.getD i (none, false) ∈ t.slots := by
    rcases Nat.lt_or_ge i t.slots.length with hi | hi
    · rw [List.getD_eq_getElem?_getD, List.getElem?_eq_getElem hi]
      exact List.getElem_mem _
    · rw [getD_of_le _ _ hi] at h
      cases h
  have : (some c, (t.slots.getD i (none, false)).2) ∈ t.slots := by
    have hp : t.slots.getD i (none, false) =
        (some c, (t.slots.getD i (none, false)).2) := by
      cases hgd : t.slots.getD i (none, false) with
      | mk f s => rw [hgd] at h; cases h; rfl
    rw [← hp]
    exact hmem
  exact wfT_child hw this

theorem wfT_trie_insert {t : Trie} (hw : wfT t) (w : List Nat) : wfT (trie_insert t w) := by
  induction w generalizing t with
  | nil =>
    rw [trie_insert_nil, wfT_mk_iff]
    exact ⟨wfT_slots_length hw, fun c b hm => wfT_child hw hm⟩
  | cons i rest ih =>
    rw [trie_insert_cons, wfT_mk_iff]
    constructor
    · rw [List.length_set]
      exact wfT_slots_length hw
    · intro c b hm
      rcases List.mem_or_eq_of_mem_set hm with h | h
      · exact wfT_child hw h
      · rw [Prod.mk.injEq] at h
        obtain ⟨h1, _⟩ := h
        have hc : c = trie_insert ((t.slots.getD i (none, false)).1.getD emptyNode) rest := by
          have := h1.symm
          injection this with hval
          exact hval.symm
        subst hc
        apply ih
        cases hslot : (t.slots.getD i (none, false)).1 with
        | none => simpa using wfT_emptyNode
        | some c0 => simpa using wfT_getD_child hw hslot

theorem wfT_buildTrie (ws : List (List Nat)) : wfT (buildTrie ws) := by
  have h : ∀ (l : List (List Nat)) (t : Trie), wfT t → wfT (l.foldl trie_insert t) := by
    intro l
    induction l with
    | nil => intro t ht; exact ht
    | cons w rest ih =>
      intro t ht
      exact ih _ (wfT_trie_insert ht w)
  exact h ws emptyNode wfT_emptyNode

/-- Inserting one word adds exactly that word to the stored set. -/
theorem containsN_trie_insert (w : List Nat) : ∀ (t : Trie), wfT t → (∀ c ∈ w, c < 26) →
    ∀ (w' : List Nat),
    containsN (trie_insert t w) w' = (containsN t w' || decide (w = w')) := by
  induction w with
  | nil =>
    intro t _ _ w'
    cases w' with
    | nil => simp [trie_insert_nil]
    | cons j r => simp [trie_insert_nil, containsN_cons]
  | cons i rest ih =>
    intro t hwf hw w'
    have hlen : i < t.slots.length := by
      rw [wfT_slots_length hwf]
      exact hw i (List.mem_cons_self _ _)
    cases w' with
    | nil => simp [trie_insert_cons]
    | cons j r =>
      rw [trie_insert_cons]
      by_cases hij : i = j
      · subst hij
        rw [containsN_cons]
        simp only [slots_mk]
        rw [getD_set_self _ _ _ _ hlen]
        show containsN (trie_insert ((t.slots.getD i (none, false)).1.getD emptyNode) rest) r = _
        have hwfc : wfT ((t.slots.getD i (none, false)).1.getD emptyNode) := by
          cases hslot : (t.slots.getD i (none, false)).1 with
          | none => simpa using wfT_emptyNode
          | some c0 => simpa using wfT_getD_child hwf hslot
        rw [ih _ hwfc (fun c hc => hw c (List.mem_cons_of_mem _ hc))]
        have hc : containsN t (i :: r) =
            containsN ((t.slots.getD i (none, false)).1.getD emptyNode) r := by
          rw [containsN_cons]
          cases hslot : (t.slots.getD i (none, false)).1 with
          | none => simp [containsN_emptyNode]
          | some c => simp
        rw [hc]
        congr 1
        simp
      · rw [containsN_cons]
        simp only [slots_mk]
        rw [getD_set_ne _ _ _ hij]
        have hne : ¬(i :: rest = j :: r) := by simp [hij]
        simp only [decide_eq_false hne, Bool.or_false]
        rw [containsN_cons]

/-- Insertions of two words commute (unconditionally). -/
theorem trie_insert_comm (a : List Nat) : ∀ (t : Trie) (b : List Nat),
    trie_insert (trie_insert t a) b = trie_insert (trie_insert t b) a := by
  induction a with
  | nil =>
    intro t b
    cases b with
    | nil => rfl
    | cons j rb =>
      rw [trie_insert_nil, trie_insert_cons, trie_insert_cons, trie_insert_nil]
      simp
  | cons i ra ih =>
    intro t b
    cases b with
    | nil =>
      rw [trie_insert_nil, trie_insert_cons, trie_insert_cons, trie_insert_nil]
      simp
    | cons j rb =>
      by_cases hij : i = j
      · subst hij
        by_cases hlen : i < t.slots.length
        · rw [trie_insert_cons t i ra, trie_insert_cons t i rb]
          rw [trie_insert_cons, trie_insert_cons]
          simp only [slots_mk, eow_mk]
          rw [getD_set_self _ _ _ _ hlen, getD_set_self _ _ _ _ hlen]
          simp only [Option.getD_some]
          rw [List.set_set, List.set_set]
          rw [ih]
        · push_neg at hlen
          have hnoop : ∀ (w : List Nat), trie_insert t (i :: w) = Trie.mk t.slots t.eow := by
            intro w
            rw [trie_insert_cons, List.set_eq_of_length_le hlen]
          rw [hnoop ra, hnoop rb]
          have hnoop2 : ∀ (w : List Nat),
              trie_insert (Trie.mk t.slots t.eow) (i :: w) = Trie.mk t.slots t.eow := by
            intro w
            rw [trie_insert_cons]
            simp only [slots_mk, eow_mk]
            rw [List.set_eq_of_length_le hlen]
          rw [hnoop2 rb, hnoop2 ra]
      · rw [trie_insert_cons t i ra, trie_insert_cons t j rb]
        rw [trie_insert_cons, trie_insert_cons]
        simp only [slots_mk, eow_mk]
        rw [getD_set_ne _ _ _ hij, getD_set_ne _ _ _ (Ne.symm hij)]
        rw [List.set_comm _ _ _ (Ne.symm hij)]

/-- Re-inserting a word that is already stored leaves the trie unchanged. -/
theorem trie_insert_of_containsN (w : List Nat) : ∀ (t : Trie),
    containsN t w = true → trie_insert t w = t := by
  induction w with
  | nil =>
    intro t h
    rw [containsN_nil] at h
    rw [trie_insert_nil, ← h, Trie.eta]
  | cons i rest ih =>
    intro t h
    rw [containsN_cons] at h
    cases hslot : (t.slots.getD i (none, false)).1 with
    | none => rw [hslot] at h; cases h
    | some c =>
      rw [hslot] at h
      have hlen : i < t.slots.length := by
        by_contra hge
        push_neg at hge
        rw [getD_of_le _ _ hge] at hslot
        cases hslot
      rw [trie_insert_cons, hslot]
      simp only [Option.getD_some]
      rw [ih c h]
      have : (some c, (t.slots.getD i (none, false)).2) = t.slots.getD i (none, false) := by
        cases hgd : t.slots.getD i (none, false) with
        | mk f s => rw [hgd] at hslot; cases hslot; rfl
      rw [this, set_getD_self _ _ hlen, Trie.eta]

/-- Inserting the same word twice is the same as inserting it once. -/
theorem trie_insert_idem (w : List Nat) : ∀ (t : Trie),
    trie_insert (trie_insert t w) w = trie_insert t w := by
  induction w with
  | nil => intro t; rfl
  | cons i rest ih =>
    intro t
    by_cases hlen : i < t.slots.length
    · rw [trie_insert_cons t, trie_insert_cons]
      simp only [slots_mk, eow_mk]
      rw [getD_set_self _ _ _ _ hlen]
      simp only [Option.getD_some]
      rw [ih, List.set_set]
    · push_neg at hlen
      rw [trie_insert_cons t, List.set_eq_of_length_le hlen]
      rw [trie_insert_cons]
      simp only [slots_mk, eow_mk]
      rw [List.set_eq_of_length_le hlen]

theorem trie_insert_foldl (l : List (List Nat)) : ∀ (t : Trie) (x : List Nat),
    trie_insert (l.foldl trie_insert t) x = l.foldl trie_insert (trie_insert t x) := by
  induction l with
  | nil => intro t x; rfl
  | cons y l ih =>
    intro t x
    show trie_insert (l.foldl trie_insert (trie_insert t y)) x = _
    rw [ih, trie_insert_comm y]
    rfl

/-- Inserting a word that occurs in the build list is a no-op on the
resulting trie. -/
theorem trie_insert_foldl_mem {d : List Nat} (l : List (List Nat)) : ∀ (t : Trie), d ∈ l →
    trie_insert (l.foldl trie_insert t) d = l.foldl trie_insert t := by
  induction l with
  | nil => intro t h; cases h
  | cons w l ih =>
    intro t h
    rcases List.mem_cons.mp h with rfl | hmem
    · show trie_insert (l.foldl trie_insert (trie_insert t d)) d = _
      rw [trie_insert_foldl, trie_insert_idem]
      rfl
    · exact ih _ hmem

theorem buildTrie_perm {W1 W2 : List (List Nat)} (h : W1.Perm W2) :
    buildTrie W1 = buildTrie W2 :=
  h.foldl_eq' (fun x _ y _ z => trie_insert_comm x z y) emptyNode

theorem buildTrie_append_subset {W D : List (List Nat)} (hD : ∀ d ∈ D, d ∈ W) :
    buildTrie (W ++ D) = buildTrie W := by
  unfold buildTrie
  rw [List.foldl_append]
  induction D with
  | nil => rfl
  | cons d D ih =>
    show List.foldl trie_insert (trie_insert (List.foldl trie_insert emptyNode W) d) D = _
    rw [trie_insert_foldl_mem W emptyNode (hD d (List.mem_cons_self _ _))]
    exact ih (fun x hx => hD x (List.mem_cons_of_mem _ hx))

/-- C3: the packed image is a function of the set of input words: any two
orderings of the word list produce identical binaries. -/
theorem C3_order_independence (W1 W2 : List (List Nat)) (h : W1.Perm W2) :
    dawg_flatten (buildDawg W1) = dawg_flatten (buildDawg W2) := by
  unfold buildDawg
  rw [buildTrie_perm h]

theorem C3_order_independence_witness :
    ([[0], [1, 2]] : List (List Nat)).Perm [[1, 2], [0]] ∧
      dawg_flatten (buildDawg [[0], [1, 2]]) = dawg_flatten (buildDawg [[1, 2], [0]]) := by
  have hp : ([[0], [1, 2]] : List (List Nat)).Perm [[1, 2], [0]] := List.Perm.swap _ _ _
  exact ⟨hp, C3_order_independence _ _ hp⟩

/-- C8: re-inserting an already present word leaves the trie unchanged, and
building from a list extended by repetitions of its own words yields the
same binary as building from the original list. -/
theorem C8_idempotence (t : Trie) (w : List Nat) (W D : List (List Nat))
    (hw : containsN t w = true) (hD : ∀ d ∈ D, d ∈ W) :
    trie_insert t w = t ∧
      dawg_flatten (buildDawg (W ++ D)) = dawg_flatten (buildDawg W) := by
  refine ⟨trie_insert_of_containsN w t hw, ?_⟩
  unfold buildDawg
  rw [buildTrie_append_subset hD]

theorem C8_idempotence_witness :
    containsN (buildTrie [[0], [1, 2]]) [1, 2] = true ∧
      (∀ d ∈ [[1, 2]], d ∈ ([[0], [1, 2]] : List (List Nat))) ∧
      (trie_insert (buildTrie [[0], [1, 2]]) [1, 2] = buildTrie [[0], [1, 2]] ∧
        dawg_flatten (buildDawg ([[0], [1, 2]] ++ [[1, 2]])) =
          dawg_flatten (buildDawg [[0], [1, 2]])) :=
  ⟨by decide, by decide,
    C8_idempotence (buildTrie [[0], [1, 2]]) [1, 2] [[0], [1, 2]] [[1, 2]]
      (by decide) (by decide)⟩

/-! ## Edge-terminal rewrite semantics -/

theorem dawg_words_eq_wordsSlots (t : Trie) : dawg_words t = wordsSlots t.slots 0 := by
  cases t with
  | mk s e => rw [dawg_words]; rfl

theorem moveSlots_cons_none (b : Bool) (rest : List (Option Trie × Bool)) :
    moveSlots ((none, b) :: rest) = (none, b) :: moveSlots rest := by
  rw [moveSlots]

theorem moveSlots_cons_some (c : Trie) (b : Bool) (rest : List (Option Trie × Bool)) :
    moveSlots ((some c, b) :: rest) =
      (some (trie_move_eow_to_edges c), c.eow) :: moveSlots rest := by
  rw [moveSlots]

theorem trie_move_eow_to_edges_mk (s : List (Option Trie × Bool)) (e : Bool) :
    trie_move_eow_to_edges (Trie.mk s e) = Trie.mk (moveSlots s) e := by
  rw [trie_move_eow_to_edges]

/-- Words of the rewritten slot list, characterised by the original slots. -/
theorem mem_wordsSlots_moveSlots (s : List (Option Trie × Bool)) :
    ∀ (k : Nat) (w : List Nat),
      w ∈ wordsSlots (moveSlots s) k ↔
        ∃ j c, (s.getD j (none, false)).1 = some c ∧
          ((w = [k + j] ∧ c.eow = true) ∨
            (∃ w', w = (k + j) :: w' ∧ w' ∈ dawg_words (trie_move_eow_to_edges c))) := by
  induction s with
  | nil =>
    intro k w
    rw [moveSlots]
    simp [wordsSlots]
  | cons hd rest ih =>
    intro k w
    match hd with
    | (none, b) =>
      rw [moveSlots_cons_none, wordsSlots]
      rw [ih (k + 1)]
      constructor
      · rintro ⟨j, c, hj, hw⟩
        refine ⟨j + 1, c, by simpa using hj, ?_⟩
        have harith : k + 1 + j = k + (j + 1) := by omega
        rw [harith] at hw
        exact hw
      · rintro ⟨j, c, hj, hw⟩
        cases j with
        | zero => simp at hj
        | succ j' =>
          refine ⟨j', c, by simpa using hj, ?_⟩
          have harith : k + (j' + 1) = k + 1 + j' := by omega
          rw [harith] at hw
          exact hw
    | (some c0, b0) =>
      rw [moveSlots_cons_some, wordsSlots]
      constructor
      · intro hw
        rcases List.mem_append.mp hw with hw1 | hw2
        · rcases List.mem_append.mp hw1 with hw3 | hw4
          · by_cases heow : c0.eow = true
            · rw [if_pos heow] at hw3
              refine ⟨0, c0, by simp, Or.inl ⟨by simpa using hw3, heow⟩⟩
            · rw [if_neg heow] at hw3
              cases hw3
          · rcases List.mem_map.mp hw4 with ⟨w', hw', rfl⟩
            exact ⟨0, c0, by simp, Or.inr ⟨w', by simp, hw'⟩⟩
        · rcases (ih (k + 1) w).mp hw2 with ⟨j, c, hj, hwj⟩
          refine ⟨j + 1, c, by simpa using hj, ?_⟩
          have harith : k + 1 + j = k + (j + 1) := by omega
          rw [harith] at hwj
          exact hwj
      · rintro ⟨j, c, hj, hw⟩
        cases j with
        | zero =>
          simp at hj
          subst hj
          rcases hw with ⟨rfl, heow⟩ | ⟨w', rfl, hw'⟩
          · rw [heow]
            simp
          · apply List.mem_append.mpr (Or.inl _)
            apply List.mem_append.mpr (Or.inr _)
            exact List.mem_map.mpr ⟨w', hw', by simp⟩
        | succ j' =>
          apply List.mem_append.mpr (Or.inr _)
          apply (ih (k + 1) w).mpr
          refine ⟨j', c, by simpa using hj, ?_⟩
          have harith : k + (j' + 1) = k + 1 + j' := by omega
          rw [← harith]
          exact hw

/-- After the rewrite, the stored words are exactly the non-empty words the
node-terminal flags encoded. -/
theorem mem_dawg_words_move (w : List Nat) : ∀ (t : Trie),
    w ∈ dawg_words (trie_move_eow_to_edges t) ↔ w ≠ [] ∧ containsN t w = true := by
  induction w with
  | nil =>
    intro t
    cases t with
    | mk s e =>
      rw [trie_move_eow_to_edges_mk, dawg_words_eq_wordsSlots]
      simp only [slots_mk]
      rw [mem_wordsSlots_moveSlots]
      constructor
      · rintro ⟨j, c, hj, hw⟩
        rcases hw with ⟨h, _⟩ | ⟨w', h, _⟩ <;> cases h
      · rintro ⟨h, _⟩
        exact absurd rfl h
  | cons i w' ih =>
    intro t
    cases t with
    | mk s e =>
      rw [trie_move_eow_to_edges_mk, dawg_words_eq_wordsSlots]
      simp only [slots_mk]
      rw [mem_wordsSlots_moveSlots]
      rw [containsN_cons]
      simp only [slots_mk]
      constructor
      · rintro ⟨j, c, hj, hw⟩
        rcases hw with ⟨hweq, heow⟩ | ⟨w'', hweq, hw''⟩
        · have hji : i = j ∧ w' = [] := by
            constructor
            · injection hweq with h1 _
              omega
            · injection hweq with _ h2
          obtain ⟨rfl, rfl⟩ := hji
          refine ⟨by simp, ?_⟩
          rw [hj]
          simpa using heow
        · have hji : i = j ∧ w' = w'' := by
            constructor
            · injection hweq with h1 _
              omega
            · injection hweq with _ h2
          obtain ⟨rfl, rfl⟩ := hji
          refine ⟨by simp, ?_⟩
          rw [hj]
          rcases (ih c).mp hw'' with ⟨hne, hc⟩
          exact hc
      · rintro ⟨-, hcont⟩
        cases hslot : (s.getD i (none, false)).1 with
        | none => rw [hslot] at hcont; cases hcont
        | some c =>
          rw [hslot] at hcont
          have hcont' : containsN c w' = true := hcont
          cases hw2 : w' with
          | nil =>
            rw [hw2] at hcont'
            refine ⟨i, c, hslot, Or.inl ⟨by simp [hw2], by simpa using hcont'⟩⟩
          | cons a b =>
            refine ⟨i, c, hslot, Or.inr ⟨w', by simp [hw2], ?_⟩⟩
            apply (ih c).mpr
            exact ⟨by simp [hw2], hcont'⟩

/-- Membership in a trie built by folding insertions. -/
theorem containsN_foldl (l : List (List Nat)) : ∀ (t : Trie), wfT t →
    (∀ x ∈ l, ∀ c ∈ x, c < 26) → ∀ (w' : List Nat),
    containsN (l.foldl trie_insert t) w' = (containsN t w' || decide (w' ∈ l)) := by
  induction l with
  | nil => intro t _ _ w'; simp
  | cons x l ih =>
    intro t hwf hcl w'
    show containsN (l.foldl trie_insert (trie_insert t x)) w' = _
    rw [ih (trie_insert t x) (wfT_trie_insert hwf x)
      (fun y hy => hcl y (List.mem_cons_of_mem _ hy))]
    rw [containsN_trie_insert x t hwf (hcl x (List.mem_cons_self _ _))]
    rw [Bool.or_assoc]
    congr 1
    by_cases hx : w' = x
    · subst hx
      simp
    · by_cases hl : w' ∈ l
      · simp [hl, List.mem_cons]
      · have : ¬(w' ∈ x :: l) := by
          rw [List.mem_cons]
          push_neg
          exact ⟨hx, hl⟩
        have hxx : ¬x = w' := fun h => hx h.symm
        simp [hx, hl, this, hxx]

theorem containsN_buildTrie {W : List (List Nat)} (hW : CleanWords W) (w : List Nat) :
    containsN (buildTrie W) w = true ↔ w ∈ W := by
  unfold buildTrie
  rw [containsN_foldl W emptyNode wfT_emptyNode (fun x hx => (hW x hx).2) w]
  rw [containsN_emptyNode]
  simp

/-! ## Compression preserves the stored words -/

theorem lookupSig_mem {m : SigMap} {sig : List (Option Trie × Bool)} {c : Trie}
    (h : lookupSig m sig = some c) : (sig, c) ∈ m := by
  induction m with
  | nil => cases h
  | cons p m ih =>
    match p with
    | (s0, c0) =>
      rw [lookupSig] at h
      by_cases hs : s0 = sig
      · rw [if_pos hs] at h
        injection h with h
        subst h
        subst hs
        exact List.mem_cons_self _ _
      · rw [if_neg hs] at h
        exact List.mem_cons_of_mem _ (ih h)

theorem dawg_compress_node_eq (s : List (Option Trie × Bool)) (e : Bool) (m : SigMap) :
    dawg_compress_node (Trie.mk s e) m =
      hashmap_find_or_insert (compressSlots s m).2 (Trie.mk (compressSlots s m).1 e) := by
  rw [dawg_compress_node]

theorem compressSlots_nil (m : SigMap) : compressSlots [] m = ([], m) := by
  rw [compressSlots]

theorem compressSlots_cons_none (b : Bool) (rest : List (Option Trie × Bool)) (m : SigMap) :
    compressSlots ((none, b) :: rest) m =
      ((none, b) :: (compressSlots rest m).1, (compressSlots rest m).2) := by
  rw [compressSlots]

theorem compressSlots_cons_some (c : Trie) (b : Bool) (rest : List (Option Trie × Bool))
    (m : SigMap) :
    compressSlots ((some c, b) :: rest) m =
      ((some (dawg_compress_node c m).1, b) ::
          (compressSlots rest (dawg_compress_node c m).2).1,
        (compressSlots rest (dawg_compress_node c m).2).2) := by
  rw [compressSlots]

mutual
theorem compressNode_spec : ∀ (t : Trie) (m : SigMap), GoodSig m → wfT t →
    GoodSig (dawg_compress_node t m).2 ∧
    ((dawg_compress_node t m).1).slots = (compressSlots t.slots m).1 ∧
    wfT (dawg_compress_node t m).1 ∧
    dawg_words (dawg_compress_node t m).1 = dawg_words t
  | .mk s e => fun m hm hwf => by
    have hch : ∀ c b, (some c, b) ∈ s → wfT c := fun c b hmem =>
      wfT_child hwf (by simpa using hmem)
    obtain ⟨hm', hmap, hch', hwords⟩ := compressSlots_spec s m hm hch
    rw [dawg_compress_node_eq]
    unfold hashmap_find_or_insert
    simp only [slots_mk]
    cases hlk : lookupSig (compressSlots s m).2 (compressSlots s m).1 with
    | none =>
      refine ⟨?_, by simp, ?_, ?_⟩
      · intro p hp
        rcases List.mem_cons.mp hp with rfl | hp'
        · refine ⟨by simp, ?_⟩
          rw [wfT_mk_iff]
          constructor
          · have := congrArg List.length hmap
            simpa using (this.trans (by simpa using wfT_slots_length hwf))
          · exact fun c b hcb => hch' c b hcb
        · exact hm' p hp'
      · show wfT (Trie.mk (compressSlots s m).1 e)
        rw [wfT_mk_iff]
        constructor
        · have := congrArg List.length hmap
          simpa using (this.trans (by simpa using wfT_slots_length hwf))
        · exact fun c b hcb => hch' c b hcb
      · show dawg_words (Trie.mk (compressSlots s m).1 e) = dawg_words (Trie.mk s e)
        rw [dawg_words_eq_wordsSlots, dawg_words_eq_wordsSlots]
        simp only [slots_mk]
        exact hwords 0
    | some c =>
      obtain ⟨hslots, hwfc⟩ := hm' _ (lookupSig_mem hlk)
      refine ⟨hm', by simpa using hslots, hwfc, ?_⟩
      show dawg_words c = dawg_words (Trie.mk s e)
      rw [dawg_words_eq_wordsSlots c, hslots, dawg_words_eq_wordsSlots]
      simp only [slots_mk]
      exact hwords 0
theorem compressSlots_spec : ∀ (s : List (Option Trie × Bool)) (m : SigMap), GoodSig m →
    (∀ c b, (some c, b) ∈ s → wfT c) →
    GoodSig (compressSlots s m).2 ∧
    ((compressSlots s m).1).map (fun p => (p.1.isSome, p.2)) =
      s.map (fun p => (p.1.isSome, p.2)) ∧
    (∀ c b, (some c, b) ∈ (compressSlots s m).1 → wfT c) ∧
    (∀ k, wordsSlots (compressSlots s m).1 k = wordsSlots s k)
  | [] => fun m hm _ => by
    rw [compressSlots_nil]
    exact ⟨hm, rfl, fun c b h => absurd h (by simp), fun k => rfl⟩
  | (none, b) :: rest => fun m hm hch => by
    obtain ⟨hm', hmap, hch', hwords⟩ := compressSlots_spec rest m hm
      (fun c bb hmem => hch c bb (List.mem_cons_of_mem _ hmem))
    rw [compressSlots_cons_none]
    refine ⟨hm', by simpa using hmap, ?_, ?_⟩
    · intro c bb hmem
      rcases List.mem_cons.mp hmem with h | h
      · cases h
      · exact hch' c bb h
    · intro k
      rw [wordsSlots, wordsSlots]
      exact hwords (k + 1)
  | (some c, b) :: rest => fun m hm hch => by
    have hwfc : wfT c := hch c b (List.mem_cons_self _ _)
    obtain ⟨hm1, hcslots, hwfc', hcwords⟩ := compressNode_spec c m hm hwfc
    obtain ⟨hm2, hmap, hch', hwords⟩ := compressSlots_spec rest (dawg_compress_node c m).2 hm1
      (fun cc bb hmem => hch cc bb (List.mem_cons_of_mem _ hmem))
    rw [compressSlots_cons_some]
    refine ⟨hm2, by simpa using hmap, ?_, ?_⟩
    · intro cc bb hmem
      rcases List.mem_cons.mp hmem with h | h
      · rw [Prod.mk.injEq] at h
        obtain ⟨h1, _⟩ := h
        have : cc = (dawg_compress_node c m).1 := by
          injection h1.symm with hv
          exact hv.symm
        subst this
        exact hwfc'
      · exact hch' cc bb h
    · intro k
      rw [wordsSlots, wordsSlots]
      rw [hcwords, hwords (k + 1)]
end

/-- Compression of the root: root keeps its own slots structure and flag;
its children are canonicalised in place; words are preserved. -/
theorem dawg_compress_spec (t : Trie) (m : SigMap) (hm : GoodSig m) (hwf : wfT t) :
    wfT (dawg_compress t m).1 ∧
    dawg_words (dawg_compress t m).1 = dawg_words t ∧
    ((dawg_compress t m).1).slots.map (fun p => (p.1.isSome, p.2)) =
      t.slots.map (fun p => (p.1.isSome, p.2)) ∧
    ((dawg_compress t m).1).eow = t.eow ∧
    GoodSig (dawg_compress t m).2 := by
  have hch : ∀ c b, (some c, b) ∈ t.slots → wfT c := fun c b hmem => wfT_child hwf hmem
  obtain ⟨hm', hmap, hch', hwords⟩ := compressSlots_spec t.slots m hm hch
  unfold dawg_compress
  refine ⟨?_, ?_, by simpa using hmap, by simp, hm'⟩
  · rw [wfT_mk_iff]
    constructor
    · have := congrArg List.length hmap
      simpa using (this.trans (by simpa using wfT_slots_length hwf))
    · exact fun c b hcb => hch' c b hcb
  · rw [dawg_words_eq_wordsSlots, dawg_words_eq_wordsSlots]
    simp only [slots_mk]
    exact hwords 0

theorem moveSlots_length : ∀ s : List (Option Trie × Bool), (moveSlots s).length = s.length
  | [] => by rw [moveSlots]
  | (none, b) :: rest => by
    rw [moveSlots_cons_none]
    simpa using moveSlots_length rest
  | (some c, b) :: rest => by
    rw [moveSlots_cons_some]
    simpa using moveSlots_length rest

theorem mem_moveSlots {s : List (Option Trie × Bool)} {c' : Trie} {b' : Bool}
    (h : (some c', b') ∈ moveSlots s) :
    ∃ c b, (some c, b) ∈ s ∧ c' = trie_move_eow_to_edges c := by
  induction s with
  | nil => rw [moveSlots] at h; cases h
  | cons hd rest ih =>
    match hd with
    | (none, b0) =>
      rw [moveSlots_cons_none] at h
      rcases List.mem_cons.mp h with h1 | h1
      · cases h1
      · rcases ih h1 with ⟨c, b, hm, hc⟩
        exact ⟨c, b, List.mem_cons_of_mem _ hm, hc⟩
    | (some c0, b0) =>
      rw [moveSlots_cons_some] at h
      rcases List.mem_cons.mp h with h1 | h1
      · rw [Prod.mk.injEq] at h1
        obtain ⟨h2, _⟩ := h1
        have : c' = trie_move_eow_to_edges c0 := by
          injection h2 with hv
        exact ⟨c0, b0, List.mem_cons_self _ _, this⟩
      · rcases ih h1 with ⟨c, b, hm, hc⟩
        exact ⟨c, b, List.mem_cons_of_mem _ hm, hc⟩

theorem sizeOf_lt_of_mem_slots {s : List (Option Trie × Bool)} {c : Trie} {b : Bool}
    (h : (some c, b) ∈ s) : sizeOf c < sizeOf s := by
  induction s with
  | nil => cases h
  | cons hd rest ih =>
    rcases List.mem_cons.mp h with h1 | h1
    · subst h1
      simp
      omega
    · have := ih h1
      simp
      omega

theorem wfT_moveEow : ∀ t : Trie, wfT t → wfT (trie_move_eow_to_edges t)
  | .mk s e => fun hwf => by
    rw [trie_move_eow_to_edges_mk, wfT_mk_iff]
    constructor
    · rw [moveSlots_length]
      simpa using wfT_slots_length hwf
    · intro c' b' hmem
      rcases mem_moveSlots hmem with ⟨c, b, hm, rfl⟩
      exact wfT_moveEow c (wfT_child hwf (by simpa using hm))
termination_by t => sizeOf t
decreasing_by
  simp_wf
  have := sizeOf_lt_of_mem_slots hm
  omega

theorem wfT_buildDawg (W : List (List Nat)) : wfT (buildDawg W) :=
  (dawg_compress_spec _ [] (fun p hp => absurd hp (by simp))
    (wfT_moveEow _ (wfT_buildTrie W))).1

/-- The words of the in-memory DAWG are exactly the input word set. -/
theorem mem_dawg_words_buildDawg {W : List (List Nat)} (hW : CleanWords W) (w : List Nat) :
    w ∈ dawg_words (buildDawg W) ↔ w ∈ W := by
  unfold buildDawg
  rw [(dawg_compress_spec _ [] (fun p hp => absurd hp (by simp))
    (wfT_moveEow _ (wfT_buildTrie W))).2.1]
  rw [mem_dawg_words_move, containsN_buildTrie hW]
  constructor
  · rintro ⟨_, h⟩
    exact h
  · intro h
    exact ⟨(hW w h).1, h⟩

/-! ## Offset map lemmas -/

theorem offset_map_get_mem {om : OffMap} {t : Trie} {v : Nat}
    (h : offset_map_get om t = some v) : (t, v) ∈ om := by
  induction om with
  | nil => cases h
  | cons p om ih =>
    match p with
    | (u, off) =>
      rw [offset_map_get] at h
      by_cases hu : u = t
      · rw [if_pos hu] at h
        injection h with h
        subst h
        subst hu
        exact List.mem_cons_self _ _
      · rw [if_neg hu] at h
        exact List.mem_cons_of_mem _ (ih h)

theorem offset_map_get_eq_of_mem {om : OffMap} {t : Trie} {v : Nat}
    (hmem : (t, v) ∈ om) (hnd : (om.map Prod.fst).Nodup) :
    offset_map_get om t = some v := by
  induction om with
  | nil => cases hmem
  | cons p om ih =>
    match p with
    | (u, off) =>
      rw [offset_map_get]
      rcases List.mem_cons.mp hmem with h | h
      · rw [Prod.mk.injEq] at h
        obtain ⟨h1, h2⟩ := h
        rw [if_pos h1.symm, h2]
      · by_cases hu : u = t
        · exfalso
          subst hu
          rw [List.map_cons] at hnd
          have := (List.nodup_cons.mp hnd).1
          exact this (by simpa using List.mem_map_of_mem Prod.fst h)
        · rw [if_neg hu]
          exact ih h (by
            rw [List.map_cons] at hnd
            exact (List.nodup_cons.mp hnd).2)

theorem offset_map_get_none_iff {om : OffMap} {t : Trie} :
    offset_map_get om t = none ↔ ∀ p ∈ om, p.1 ≠ t := by
  induction om with
  | nil => simp [offset_map_get]
  | cons p om ih =>
    match p with
    | (u, off) =>
      rw [offset_map_get]
      by_cases hu : u = t
      · rw [if_pos hu]
        simp [hu]
      · rw [if_neg hu]
        rw [ih]
        constructor
        · intro h p hp
          rcases List.mem_cons.mp hp with rfl | hp'
          · exact hu
          · exact h p hp'
        · intro h p hp
          exact h p (List.mem_cons_of_mem _ hp)

theorem offset_map_get_isSome_of_mem {om : OffMap} {t : Trie} {v : Nat}
    (hmem : (t, v) ∈ om) : ∃ v', offset_map_get om t = some v' := by
  cases h : offset_map_get om t with
  | some v' => exact ⟨v', rfl⟩
  | none =>
    exact absurd rfl (offset_map_get_none_iff.mp h (t, v) hmem)

/-! ## Size facts about reachable subtrees -/

mutual
theorem sizeOf_le_of_mem_subNodes : ∀ (t : Trie) (u : Trie), u ∈ subNodes t → sizeOf u ≤ sizeOf t
  | .mk s e => fun u hu => by
    rw [subNodes_mk] at hu
    rcases List.mem_cons.mp hu with h | h
    · subst h
      exact Nat.le_refl _
    · have := sizeOf_lt_of_mem_subNodesSlots s u h
      simp
      omega
theorem sizeOf_lt_of_mem_subNodesSlots :
    ∀ (s : List (Option Trie × Bool)) (u : Trie), u ∈ subNodesSlots s → sizeOf u < sizeOf s
  | [] => fun u hu => by rw [subNodesSlots] at hu; cases hu
  | (none, b) :: rest => fun u hu => by
    rw [subNodesSlots] at hu
    have := sizeOf_lt_of_mem_subNodesSlots rest u hu
    simp
    omega
  | (some c, b) :: rest => fun u hu => by
    rw [subNodesSlots] at hu
    rcases List.mem_append.mp hu with h | h
    · have := sizeOf_le_of_mem_subNodes c u h
      simp
      omega
    · have := sizeOf_lt_of_mem_subNodesSlots rest u h
      simp
      omega
end

/-- A child of any node reachable from `R` is never `R` itself (the node
graph is acyclic). -/
theorem child_ne_root {R u c : Trie} {b : Bool} (hu : u ∈ subNodes R)
    (hc : (some c, b) ∈ u.slots) : c ≠ R := by
  intro hcontr
  have h1 : sizeOf u ≤ sizeOf R := sizeOf_le_of_mem_subNodes R u hu
  have h2 : sizeOf c < sizeOf u := by
    cases u with
    | mk s e =>
      have hmem : c ∈ subNodesSlots s := by
        rw [mem_subNodesSlots_iff]
        exact ⟨c, b, by simpa using hc, mem_subNodes_self c⟩
      have := sizeOf_lt_of_mem_subNodesSlots s c hmem
      simp
      omega
  rw [hcontr] at h2
  omega

theorem wfT_of_mem_subNodes {R u : Trie} (hR : wfT R) (hu : u ∈ subNodes R) : wfT u :=
  fun v hv => hR v (subNodes_trans _ u v hu hv)

mutual
theorem length_subNodes : ∀ t : Trie, (subNodes t).length = trie_count_nodes t
  | .mk s e => by
    rw [subNodes_mk, trie_count_nodes]
    simp [length_subNodesSlots s]
    omega
theorem length_subNodesSlots : ∀ s : List (Option Trie × Bool),
    (subNodesSlots s).length = countSlots s
  | [] => by rw [subNodesSlots, countSlots]; rfl
  | (none, b) :: rest => by
    rw [subNodesSlots, countSlots]
    exact length_subNodesSlots rest
  | (some c, b) :: rest => by
    rw [subNodesSlots, countSlots]
    simp [length_subNodes c, length_subNodesSlots rest]
end

theorem dedup_subNodes_le_count (t : Trie) :
    (subNodes t).dedup.length ≤ trie_count_nodes t := by
  calc (subNodes t).dedup.length ≤ (subNodes t).length := (subNodes t).dedup_sublist.length_le
  _ = trie_count_nodes t := length_subNodes t

/-- A node whose slot list contains a subtree has at least one child. -/
theorem count_children_pos_of_subNodesSlots {t : Trie} {u : Trie}
    (h : u ∈ subNodesSlots t.slots) : 0 < count_children t := by
  rcases (mem_subNodesSlots_iff _ _).mp h with ⟨c, b, hm, _⟩
  unfold count_children
  rw [List.countP_pos_iff]
  exact ⟨(some c, b), hm, by simp⟩

/-! ## The child list of a node (letters, subtrees, terminal flags) -/

theorem childList_length : ∀ (s : List (Option Trie × Bool)) (k : Nat),
    (childList s k).length = s.countP (fun p => p.1.isSome)
  | [], _ => by rw [childList]; rfl
  | (none, b) :: rest, k => by
    rw [childList]
    rw [childList_length rest (k + 1)]
    simp
  | (some c, b) :: rest, k => by
    rw [childList]
    simp only [List.length_cons]
    rw [childList_length rest (k + 1)]
    simp

theorem length_childrenOf (t : Trie) : (childrenOf t).length = count_children t := by
  unfold childrenOf count_children
  exact childList_length t.slots 0

theorem mem_childList : ∀ (s : List (Option Trie × Bool)) (k : Nat) (i : Nat) (c : Trie)
    (b : Bool), (i, c, b) ∈ childList s k → (some c, b) ∈ s ∧ k ≤ i ∧ i < k + s.length
  | [], _, _, _, _ => fun h => by rw [childList] at h; cases h
  | (none, b0) :: rest, k, i, c, b => fun h => by
    rw [childList] at h
    obtain ⟨hm, hk, hl⟩ := mem_childList rest (k + 1) i c b h
    exact ⟨List.mem_cons_of_mem _ hm, by omega, by simpa [Nat.add_comm] using by omega⟩
  | (some c0, b0) :: rest, k, i, c, b => fun h => by
    rw [childList] at h
    rcases List.mem_cons.mp h with h1 | h1
    · rw [Prod.mk.injEq] at h1
      obtain ⟨h2, h3⟩ := h1
      rw [Prod.mk.injEq] at h3
      obtain ⟨h4, h5⟩ := h3
      subst h2
      subst h4
      subst h5
      refine ⟨List.mem_cons_self _ _, Nat.le_refl _, by simp⟩
    · obtain ⟨hm, hk, hl⟩ := mem_childList rest (k + 1) i c b h1
      refine ⟨List.mem_cons_of_mem _ hm, by omega, ?_⟩
      simp only [List.length_cons]
      omega

theorem childList_letters_lt {s : List (Option Trie × Bool)} {k i : Nat} {c : Trie} {b : Bool}
    (h : (i, c, b) ∈ childList s k) : i < k + s.length :=
  (mem_childList s k i c b h).2.2

/-- Letters in a child list are strictly increasing. -/
theorem childList_pairwise : ∀ (s : List (Option Trie × Bool)) (k : Nat),
    (childList s k).Pairwise (fun a b => a.1 < b.1)
  | [], _ => by rw [childList]; exact List.Pairwise.nil
  | (none, b0) :: rest, k => by
    rw [childList]
    exact childList_pairwise rest (k + 1)
  | (some c0, b0) :: rest, k => by
    rw [childList]
    refine List.Pairwise.cons ?_ (childList_pairwise rest (k + 1))
    intro a ha
    have := (mem_childList rest (k + 1) a.1 a.2.1 a.2.2 (by simpa using ha)).2.1
    simpa using by omega

/-- The words of a node, expressed through its child list. -/
theorem wordsSlots_eq_childList : ∀ (s : List (Option Trie × Bool)) (k : Nat),
    wordsSlots s k = (childList s k).flatMap
      (fun e => (if e.2.2 then [[e.1]] else []) ++ (dawg_words e.2.1).map (fun w => e.1 :: w))
  | [], _ => by rw [wordsSlots, childList]; rfl
  | (none, b0) :: rest, k => by
    rw [wordsSlots, childList]
    exact wordsSlots_eq_childList rest (k + 1)
  | (some c0, b0) :: rest, k => by
    rw [wordsSlots, childList, List.flatMap_cons]
    rw [wordsSlots_eq_childList rest (k + 1)]

theorem dawg_words_eq_childrenOf (t : Trie) :
    dawg_words t = (childrenOf t).flatMap
      (fun e => (if e.2.2 then [[e.1]] else []) ++ (dawg_words e.2.1).map (fun w => e.1 :: w)) := by
  rw [dawg_words_eq_wordsSlots]
  exact wordsSlots_eq_childList t.slots 0

theorem dawg_words_of_no_children {t : Trie} (h : count_children t = 0) :
    dawg_words t = [] := by
  rw [dawg_words_eq_childrenOf]
  have : (childrenOf t).length = 0 := by rw [length_childrenOf, h]
  rw [List.length_eq_zero.mp this]
  rfl

/-- Each member of a node's child list is a child slot of the node. -/
theorem childrenOf_mem_slots {t : Trie} {i : Nat} {c : Trie} {b : Bool}
    (h : (i, c, b) ∈ childrenOf t) : (some c, b) ∈ t.slots :=
  (mem_childList t.slots 0 i c b h).1

/-! ## Phase 1 of the flattener: offset assignment -/

theorem scanChildren_nil (om : OffMap) (size : Nat) :
    scanChildren [] om size = (om, size, []) := by
  rw [scanChildren]

theorem scanChildren_cons_none (b : Bool) (rest : List (Option Trie × Bool)) (om : OffMap)
    (size : Nat) : scanChildren ((none, b) :: rest) om size = scanChildren rest om size := by
  rw [scanChildren]

/-- One big specification of the phase-1 inner scan: how the offset map, the
running size and the enqueue list evolve over one node's child slots. -/
theorem scanChildren_spec (R : Trie) : ∀ (s : List (Option Trie × Bool)) (om : OffMap)
    (size : Nat),
    (∀ c b, (some c, b) ∈ s → c ∈ subNodes R ∧ c ≠ R) →
    (∀ p ∈ om, 0 < count_children p.1 → p.2 + count_children p.1 ≤ size) →
    (∀ p ∈ om, ∀ p' ∈ om, p.1 ≠ p'.1 → 0 < count_children p.1 → 0 < count_children p'.1 →
      p.2 + count_children p.1 ≤ p'.2 ∨ p'.2 + count_children p'.1 ≤ p.2) →
    ∀ om' size' newQ, scanChildren s om size = (om', size', newQ) →
    (∀ p ∈ om, p ∈ om') ∧
    ((om.map Prod.fst).Nodup → (om'.map Prod.fst).Nodup) ∧
    (∀ p ∈ om', p ∈ om ∨ (offset_map_get om p.1 = none ∧ p.1 ∈ subNodes R ∧ p.1 ≠ R ∧
      (count_children p.1 = 0 → p.2 = 0) ∧ (0 < count_children p.1 → size ≤ p.2))) ∧
    size ≤ size' ∧
    (∀ p ∈ om', 0 < count_children p.1 → p.2 + count_children p.1 ≤ size') ∧
    (∀ p ∈ om', ∀ p' ∈ om', p.1 ≠ p'.1 → 0 < count_children p.1 → 0 < count_children p'.1 →
      p.2 + count_children p.1 ≤ p'.2 ∨ p'.2 + count_children p'.1 ≤ p.2) ∧
    (∀ c b, (some c, b) ∈ s → ∃ v, (c, v) ∈ om') ∧
    newQ.Nodup ∧
    (∀ u ∈ newQ, (∃ v, (u, v) ∈ om') ∧ 0 < count_children u ∧ offset_map_get om u = none) ∧
    (∀ p ∈ om', p ∉ om → 0 < count_children p.1 → p.1 ∈ newQ) ∧
    om.length + newQ.length ≤ om'.length := by
  intro s
  induction s with
  | nil =>
    intro om size _ hblocks hdisj om' size' newQ hrun
    rw [scanChildren_nil] at hrun
    rw [Prod.mk.injEq, Prod.mk.injEq] at hrun
    obtain ⟨rfl, rfl, rfl⟩ := hrun
    refine ⟨fun p hp => hp, fun h => h, fun p hp => Or.inl hp, Nat.le_refl _, hblocks, hdisj,
      fun c b h => absurd h (by simp), List.nodup_nil, fun u hu => absurd hu (by simp),
      fun p hp hnot => absurd hp hnot, by simp⟩
  | cons hd rest ih =>
    match hd with
    | (none, b0) =>
      intro om size hreach hblocks hdisj om' size' newQ hrun
      rw [scanChildren_cons_none] at hrun
      obtain ⟨h1, h2, h3, h4, h5, h6, h7, h8, h9, h9b, h10⟩ :=
        ih om size (fun c b hm => hreach c b (List.mem_cons_of_mem _ hm)) hblocks hdisj
          om' size' newQ hrun
      refine ⟨h1, h2, h3, h4, h5, h6, ?_, h8, h9, h9b, h10⟩
      intro c b hm
      rcases List.mem_cons.mp hm with hx | hx
      · cases hx
      · exact h7 c b hx
    | (some c0, b0) =>
      intro om size hreach hblocks hdisj om' size' newQ hrun
      rw [scanChildren] at hrun
      cases hget : offset_map_get om c0 with
      | some v =>
        rw [hget] at hrun
        simp only at hrun
        obtain ⟨h1, h2, h3, h4, h5, h6, h7, h8, h9, h9b, h10⟩ :=
          ih om size (fun c b hm => hreach c b (List.mem_cons_of_mem _ hm)) hblocks hdisj
            om' size' newQ hrun
        refine ⟨h1, h2, h3, h4, h5, h6, ?_, h8, h9, h9b, h10⟩
        intro c b hm
        rcases List.mem_cons.mp hm with hx | hx
        · rw [Prod.mk.injEq] at hx
          obtain ⟨hxc, _⟩ := hx
          have : c = c0 := Option.some.inj hxc
          subst this
          exact ⟨v, h1 _ (offset_map_get_mem hget)⟩
        · exact h7 c b hx
      | none =>
        rw [hget] at hrun
        simp only at hrun
        have hc0 : c0 ∈ subNodes R ∧ c0 ≠ R := hreach c0 b0 (List.mem_cons_self _ _)
        have hfresh : ∀ p ∈ om, p.1 ≠ c0 := offset_map_get_none_iff.mp hget
        by_cases hcc : 0 < count_children c0
        · rw [if_pos hcc] at hrun
          set om1 : OffMap := offset_map_put om c0 size with hom1
          have hb1 : ∀ p ∈ om1, 0 < count_children p.1 → p.2 + count_children p.1 ≤
              size + count_children c0 := by
            intro p hp hpc
            rcases List.mem_cons.mp hp with rfl | hp'
            · simp
            · have := hblocks p hp' hpc
              omega
          have hd1 : ∀ p ∈ om1, ∀ p' ∈ om1, p.1 ≠ p'.1 → 0 < count_children p.1 →
              0 < count_children p'.1 →
              p.2 + count_children p.1 ≤ p'.2 ∨ p'.2 + count_children p'.1 ≤ p.2 := by
            intro p hp p' hp' hne hpc hpc'
            rcases List.mem_cons.mp hp with rfl | hp2
            · rcases List.mem_cons.mp hp' with rfl | hp'2
              · exact absurd rfl hne
              · exact Or.inr (by simpa using hblocks p' hp'2 hpc')
            · rcases List.mem_cons.mp hp' with rfl | hp'2
              · exact Or.inl (by simpa using hblocks p hp2 hpc)
              · exact hdisj p hp2 p' hp'2 hne hpc hpc'
          obtain ⟨⟨om2, size2, q2⟩, hrest⟩ :
              ∃ r, scanChildren rest om1 (size + count_children c0) = r := ⟨_, rfl⟩
          rw [hrest] at hrun
          simp only at hrun
          rw [Prod.mk.injEq, Prod.mk.injEq] at hrun
          obtain ⟨rfl, rfl, rfl⟩ := hrun
          obtain ⟨h1, h2, h3, h4, h5, h6, h7, h8, h9, h9b, h10⟩ :=
            ih om1 (size + count_children c0)
              (fun c b hm => hreach c b (List.mem_cons_of_mem _ hm)) hb1 hd1
              om2 size2 q2 hrest
          have hmemc0 : (c0, size) ∈ om2 := h1 _ (List.mem_cons_self _ _)
          refine ⟨?_, ?_, ?_, by omega, h5, h6, ?_, ?_, ?_, ?_, ?_⟩
          · intro p hp
            exact h1 p (List.mem_cons_of_mem _ hp)
          · intro hnd
            apply h2
            rw [hom1, offset_map_put, List.map_cons, List.nodup_cons]
            refine ⟨?_, hnd⟩
            intro hcontr
            rcases List.mem_map.mp hcontr with ⟨p, hp, hpc⟩
            exact hfresh p hp hpc
          · intro p hp
            rcases h3 p hp with hin | ⟨hget2, hRa, hRb, hza, hzb⟩
            · rcases List.mem_cons.mp hin with rfl | hin'
              · exact Or.inr ⟨hget, hc0.1, hc0.2,
                  fun h0 => absurd h0 (Nat.pos_iff_ne_zero.mp hcc), fun _ => Nat.le_refl _⟩
              · exact Or.inl hin'
            · refine Or.inr ⟨?_, hRa, hRb, hza, fun h => by have := hzb h; omega⟩
              rw [offset_map_get_none_iff]
              intro p' hp'
              have := offset_map_get_none_iff.mp hget2
              exact this p' (List.mem_cons_of_mem _ hp')
          · intro c b hm
            rcases List.mem_cons.mp hm with hx | hx
            · rw [Prod.mk.injEq] at hx
              obtain ⟨hxc, _⟩ := hx
              have : c = c0 := Option.some.inj hxc
              subst this
              exact ⟨size, hmemc0⟩
            · exact h7 c b hx
          · rw [List.nodup_cons]
            refine ⟨?_, h8⟩
            intro hcontr
            obtain ⟨_, _, hgn⟩ := h9 c0 hcontr
            rw [offset_map_get_none_iff] at hgn
            exact hgn _ (List.mem_cons_self _ _) rfl
          · intro u hu
            rcases List.mem_cons.mp hu with rfl | hu'
            · exact ⟨⟨size, hmemc0⟩, hcc, hget⟩
            · obtain ⟨hv, hcu, hgn⟩ := h9 u hu'
              refine ⟨hv, hcu, ?_⟩
              rw [offset_map_get_none_iff] at hgn ⊢
              intro p hp
              exact hgn p (List.mem_cons_of_mem _ hp)
          · intro p hp hnot hcc2
            by_cases hpo : p ∈ om1
            · rcases List.mem_cons.mp hpo with rfl | hpo'
              · exact List.mem_cons_self _ _
              · exact absurd hpo' hnot
            · exact List.mem_cons_of_mem _ (h9b p hp hpo hcc2)
          · have : om1.length = om.length + 1 := by simp [hom1, offset_map_put]
            simp only [List.length_cons]
            omega
        · rw [if_neg hcc] at hrun
          set om1 : OffMap := offset_map_put om c0 0 with hom1
          have hb1 : ∀ p ∈ om1, 0 < count_children p.1 → p.2 + count_children p.1 ≤ size := by
            intro p hp hpc
            rcases List.mem_cons.mp hp with rfl | hp'
            · exact absurd hpc hcc
            · exact hblocks p hp' hpc
          have hd1 : ∀ p ∈ om1, ∀ p' ∈ om1, p.1 ≠ p'.1 → 0 < count_children p.1 →
              0 < count_children p'.1 →
              p.2 + count_children p.1 ≤ p'.2 ∨ p'.2 + count_children p'.1 ≤ p.2 := by
            intro p hp p' hp' hne hpc hpc'
            rcases List.mem_cons.mp hp with rfl | hp2
            · exact absurd hpc hcc
            · rcases List.mem_cons.mp hp' with rfl | hp'2
              · exact absurd hpc' hcc
              · exact hdisj p hp2 p' hp'2 hne hpc hpc'
          obtain ⟨h1, h2, h3, h4, h5, h6, h7, h8, h9, h9b, h10⟩ :=
            ih om1 size (fun c b hm => hreach c b (List.mem_cons_of_mem _ hm)) hb1 hd1
              om' size' newQ hrun
          have hmemc0 : (c0, 0) ∈ om' := h1 _ (List.mem_cons_self _ _)
          refine ⟨?_, ?_, ?_, h4, h5, h6, ?_, h8, ?_, ?_, ?_⟩
          · intro p hp
            exact h1 p (List.mem_cons_of_mem _ hp)
          · intro hnd
            apply h2
            rw [hom1, offset_map_put, List.map_cons, List.nodup_cons]
            refine ⟨?_, hnd⟩
            intro hcontr
            rcases List.mem_map.mp hcontr with ⟨p, hp, hpc⟩
            exact hfresh p hp hpc
          · intro p hp
            rcases h3 p hp with hin | ⟨hget2, hRa, hRb, hza, hzb⟩
            · rcases List.mem_cons.mp hin with rfl | hin'
              · exact Or.inr ⟨hget, hc0.1, hc0.2, fun _ => rfl, fun h => absurd h hcc⟩
              · exact Or.inl hin'
            · refine Or.inr ⟨?_, hRa, hRb, hza, hzb⟩
              rw [offset_map_get_none_iff]
              intro p' hp'
              have := offset_map_get_none_iff.mp hget2
              exact this p' (List.mem_cons_of_mem _ hp')
          · intro c b hm
            rcases List.mem_cons.mp hm with hx | hx
            · rw [Prod.mk.injEq] at hx
              obtain ⟨hxc, _⟩ := hx
              have : c = c0 := Option.some.inj hxc
              subst this
              exact ⟨0, hmemc0⟩
            · exact h7 c b hx
          · intro u hu
            obtain ⟨hv, hcu, hgn⟩ := h9 u hu
            refine ⟨hv, hcu, ?_⟩
            rw [offset_map_get_none_iff] at hgn ⊢
            intro p hp
            exact hgn p (List.mem_cons_of_mem _ hp)
          · intro p hp hnot hcc2
            by_cases hpo : p ∈ om1
            · rcases List.mem_cons.mp hpo with rfl | hpo'
              · exact absurd hcc2 hcc
              · exact absurd hpo' hnot
            · exact h9b p hp hpo hcc2
          · have : om1.length = om.length + 1 := by simp [hom1, offset_map_put]
            omega

theorem no_child_of_count_zero {u : Trie} (h : count_children u = 0) {c : Trie} {b : Bool}
    (hm : (some c, b) ∈ u.slots) : False := by
  unfold count_children at h
  rw [List.countP_eq_zero] at h
  exact absurd (by simp : ((some c, b) : Option Trie × Bool).1.isSome = true) (by
    simpa using h _ hm)

theorem length_le_dedup_of_nodup {α : Type} [DecidableEq α] {l l' : List α}
    (hnd : l.Nodup) (hsub : ∀ x ∈ l, x ∈ l') : l.length ≤ l'.dedup.length := by
  have h1 : l.toFinset.card = l.length := by
    rw [List.card_toFinset, List.dedup_eq_self.mpr hnd]
  have h2 : l.toFinset ⊆ l'.toFinset := by
    intro x hx
    rw [List.mem_toFinset] at hx ⊢
    exact hsub x hx
  have h3 : l'.toFinset.card = l'.dedup.length := List.card_toFinset l'
  have := Finset.card_le_card h2
  omega

theorem phase1_nil (fuel : Nat) (om : OffMap) (size : Nat) :
    phase1 fuel [] om size = some (om, size) := by
  cases fuel <;> rw [phase1]

theorem phase1_cons (fuel : Nat) (node : Trie) (q : List Trie) (om : OffMap) (size : Nat) :
    phase1 (fuel + 1) (node :: q) om size =
      phase1 fuel (q ++ (scanChildren node.slots om size).2.2)
        (scanChildren node.slots om size).1 (scanChildren node.slots om size).2.1 := by
  rw [phase1]

/-- The phase-1 BFS terminates within the fuel bound and establishes the
offset-assignment invariant with an empty queue. -/
theorem phase1_sound (R : Trie) : ∀ (fuel : Nat) (q : List Trie) (om : OffMap) (size : Nat),
    P1Inv R q om size →
    (subNodes R).dedup.length + q.length ≤ fuel + om.length →
    ∃ om' size', phase1 fuel q om size = some (om', size') ∧ P1Inv R [] om' size' ∧
      size ≤ size' := by
  intro fuel
  induction fuel with
  | zero =>
    intro q om size inv hfuel
    cases q with
    | nil =>
      exact ⟨om, size, phase1_nil 0 om size, inv, Nat.le_refl _⟩
    | cons node q' =>
      exfalso
      have hlen : om.length ≤ (subNodes R).dedup.length := by
        have := length_le_dedup_of_nodup inv.keys_nodup (fun x hx => by
          rcases List.mem_map.mp hx with ⟨p, hp, rfl⟩
          exact inv.keys_reach p hp)
        simpa using this
      simp only [List.length_cons] at hfuel
      omega
  | succ fuel ih =>
    intro q om size inv hfuel
    cases q with
    | nil =>
      exact ⟨om, size, phase1_nil _ om size, inv, Nat.le_refl _⟩
    | cons node q' =>
      have hnode_reach : node ∈ subNodes R := inv.q_reach node (List.mem_cons_self _ _)
      have hscan := scanChildren_spec R node.slots om size
        (fun c b hm => ⟨subNodes_trans R node c hnode_reach (mem_subNodes_of_child hm),
          child_ne_root hnode_reach hm⟩)
        inv.blocks_in inv.disj
      obtain ⟨⟨om1, size1, newQ⟩, hrest⟩ : ∃ r, scanChildren node.slots om size = r := ⟨_, rfl⟩
      obtain ⟨h1, h2, h3, h4, h5, h6, h7, h8, h9, h9b, h10⟩ := hscan om1 size1 newQ hrest
      have hkeys1 : ∀ p ∈ om1, p.1 ∈ subNodes R := by
        intro p hp
        rcases h3 p hp with hin | ⟨_, hRa, _, _, _⟩
        · exact inv.keys_reach p hin
        · exact hRa
      have inv1 : P1Inv R (q' ++ newQ) om1 size1 := by
        refine ⟨h2 inv.keys_nodup, hkeys1, h1 _ inv.root_mem, ?_, h5, ?_, h6, ?_, ?_, ?_, ?_, ?_⟩
        · intro p hp hz
          rcases h3 p hp with hin | ⟨_, _, _, hza, _⟩
          · exact inv.leaf_zero p hin hz
          · exact hza hz
        · intro p hp hpc hpr
          rcases h3 p hp with hin | ⟨_, _, _, _, hzb⟩
          · exact inv.blocks_lower p hin hpc hpr
          · exact Nat.le_trans inv.size_ge (hzb hpc)
        · exact Nat.le_trans inv.size_ge h4
        · intro u hu
          rcases List.mem_append.mp hu with hq | hnq
          · obtain ⟨v, hv⟩ := inv.q_assigned u (List.mem_cons_of_mem _ hq)
            exact ⟨v, h1 _ hv⟩
          · exact (h9 u hnq).1
        · intro u hu
          rcases List.mem_append.mp hu with hq | hnq
          · exact inv.q_reach u (List.mem_cons_of_mem _ hq)
          · obtain ⟨⟨v, hv⟩, _, _⟩ := h9 u hnq
            exact hkeys1 (u, v) hv
        · rw [List.nodup_append]
          refine ⟨(List.nodup_cons.mp inv.q_nodup).2, h8, ?_⟩
          intro u hu hu'
          obtain ⟨v, hv⟩ := inv.q_assigned u (List.mem_cons_of_mem _ hu)
          obtain ⟨_, _, hgn⟩ := h9 u hu'
          rw [offset_map_get_none_iff] at hgn
          exact hgn (u, v) hv rfl
        · intro p hp hnotq c b hcb
          by_cases hpom : p ∈ om
          · by_cases hpnode : p.1 = node
            · have := h7 c b (by rw [← hpnode]; exact hcb)
              exact this
            · have hnot : p.1 ∉ node :: q' := by
                intro hcontr
                rcases List.mem_cons.mp hcontr with h | h
                · exact hpnode h
                · exact hnotq (List.mem_append.mpr (Or.inl h))
              obtain ⟨v, hv⟩ := inv.closed p hpom hnot c b hcb
              exact ⟨v, h1 _ hv⟩
          · by_cases hcc : 0 < count_children p.1
            · exact absurd (h9b p hp hpom hcc) (fun h => hnotq (List.mem_append.mpr (Or.inr h)))
            · exfalso
              have : count_children p.1 = 0 := by omega
              exact no_child_of_count_zero this hcb
      have hfuel1 : (subNodes R).dedup.length + (q' ++ newQ).length ≤ fuel + om1.length := by
        rw [List.length_append]
        simp only [List.length_cons] at hfuel
        omega
      obtain ⟨om', size', hrun, hinv', hsz⟩ := ih (q' ++ newQ) om1 size1 inv1 hfuel1
      refine ⟨om', size', ?_, hinv', Nat.le_trans h4 hsz⟩
      rw [phase1_cons, hrest]
      exact hrun

/-- Completeness of a closed offset map: every reachable node is assigned. -/
theorem closed_complete : ∀ (t : Trie) (om : OffMap),
    (∀ p ∈ om, ∀ c b, (some c, b) ∈ p.1.slots → ∃ v, (c, v) ∈ om) →
    (∃ v, (t, v) ∈ om) → ∀ u ∈ subNodes t, ∃ v, (u, v) ∈ om
  | .mk s e => fun om hcl ht u hu => by
    rw [subNodes_mk] at hu
    rcases List.mem_cons.mp hu with rfl | hu'
    · exact ht
    · rcases (mem_subNodesSlots_iff s u).mp hu' with ⟨c, b, hm, hu''⟩
      obtain ⟨v, hv⟩ := ht
      obtain ⟨vc, hvc⟩ := hcl _ hv c b (by simpa using hm)
      exact closed_complete c om hcl ⟨vc, hvc⟩ u hu''
termination_by t => sizeOf t
decreasing_by
  simp_wf
  have := sizeOf_lt_of_mem_slots hm
  omega

/-! ## Phase 2 of the flattener: entry emission -/

theorem writeEntries_nil (i slot base num : Nat) (om : OffMap) (data : List Nat)
    (vis : OffMap) (acc : List Trie) :
    writeEntries [] i slot base num om data vis acc = some (data, vis, acc) := by
  rw [writeEntries]

theorem writeEntries_cons_none (b : Bool) (rest : List (Option Trie × Bool))
    (i slot base num : Nat) (om : OffMap) (data : List Nat) (vis : OffMap) (acc : List Trie) :
    writeEntries ((none, b) :: rest) i slot base num om data vis acc =
      writeEntries rest (i + 1) slot base num om data vis acc := by
  rw [writeEntries]

theorem childList_cons_none (b : Bool) (rest : List (Option Trie × Bool)) (k : Nat) :
    childList ((none, b) :: rest) k = childList rest (k + 1) := by
  rw [childList]

theorem childList_cons_some (c : Trie) (b : Bool) (rest : List (Option Trie × Bool)) (k : Nat) :
    childList ((some c, b) :: rest) k = (k, c, b) :: childList rest (k + 1) := by
  rw [childList]

/-- Specification of the phase-2 inner loop: the packed entries it writes,
the data outside the written range it leaves alone, and how the visited map
and enqueue list evolve. -/
theorem writeEntries_spec : ∀ (s : List (Option Trie × Bool)) (i slot base num : Nat)
    (om : OffMap) (data : List Nat) (vis : OffMap) (acc : List Trie),
    (∀ c b, (some c, b) ∈ s → ∃ oc, offset_map_get om c = some oc) →
    base + slot + (childList s i).length ≤ data.length →
    ∃ data' vis' newQ,
      writeEntries s i slot base num om data vis acc = some (data', vis', acc ++ newQ) ∧
      data'.length = data.length ∧
      (∀ k, k < base + slot → data'.get? k = data.get? k) ∧
      (∀ k, base + slot + (childList s i).length ≤ k → data'.get? k = data.get? k) ∧
      (∀ j letter c b, (childList s i).get? j = some (letter, c, b) →
        ∃ oc, offset_map_get om c = some oc ∧
          data'.get? (base + slot + j) =
            some (mkEntry (letter + 1) b (decide (slot + j = num - 1)) oc)) ∧
      (∀ p ∈ vis, p ∈ vis') ∧
      ((vis.map Prod.fst).Nodup → (vis'.map Prod.fst).Nodup) ∧
      (∀ p ∈ vis', p ∈ vis ∨ (p.1 ∈ newQ ∧ ∃ b, (some p.1, b) ∈ s)) ∧
      newQ.Nodup ∧
      (∀ u ∈ newQ, (∃ v, (u, v) ∈ vis') ∧ 0 < count_children u ∧
        offset_map_get vis u = none ∧ ∃ b, (some u, b) ∈ s) ∧
      (∀ c b, (some c, b) ∈ s → 0 < count_children c → ∃ v, (c, v) ∈ vis') ∧
      vis.length + newQ.length ≤ vis'.length := by
  intro s
  induction s with
  | nil =>
    intro i slot base num om data vis acc _ _
    refine ⟨data, vis, [], by rw [writeEntries_nil, List.append_nil], rfl,
      fun k _ => rfl, fun k _ => rfl, ?_, fun p hp => hp, fun h => h, fun p hp => Or.inl hp,
      List.nodup_nil, fun u hu => absurd hu (by simp), ?_, by simp⟩
    · intro j letter c b h
      rw [childList] at h
      simp at h
    · intro c b h
      exact absurd h (by simp)
  | cons hd rest ih =>
    match hd with
    | (none, b0) =>
      intro i slot base num om data vis acc hom hroom
      rw [childList_cons_none] at hroom
      obtain ⟨data', vis', newQ, hrun, hlen, hlow, hhigh, hentries, hvold, hvnd, hvnew, hqnd,
        hqspec, hcov, hvlen⟩ :=
        ih (i + 1) slot base num om data vis acc
          (fun c b hm => hom c b (List.mem_cons_of_mem _ hm)) hroom
      refine ⟨data', vis', newQ, ?_, hlen, hlow, ?_, ?_, hvold, hvnd, ?_, hqnd, ?_, ?_, hvlen⟩
      · rw [writeEntries_cons_none]
        exact hrun
      · intro k hk
        rw [childList_cons_none] at hk
        exact hhigh k hk
      · intro j letter c b h
        rw [childList_cons_none] at h
        exact hentries j letter c b h
      · intro p hp
        rcases hvnew p hp with h | ⟨h1, bb, h2⟩
        · exact Or.inl h
        · exact Or.inr ⟨h1, bb, List.mem_cons_of_mem _ h2⟩
      · intro u hu
        obtain ⟨hv, hcc, hgn, bb, hmem⟩ := hqspec u hu
        exact ⟨hv, hcc, hgn, bb, List.mem_cons_of_mem _ hmem⟩
      · intro c b hm hcc
        rcases List.mem_cons.mp hm with h | h
        · cases h
        · exact hcov c b h hcc
    | (some c0, b0) =>
      intro i slot base num om data vis acc hom hroom
      obtain ⟨coff, hcoff⟩ := hom c0 b0 (List.mem_cons_self _ _)
      rw [childList_cons_some] at hroom
      simp only [List.length_cons] at hroom
      have hslotlen : base + slot < data.length := by omega
      set entry := mkEntry (i + 1) b0 (decide (slot = num - 1)) coff with hentry
      set data1 := data.set (base + slot) entry with hdata1
      have hd1len : data1.length = data.length := by rw [hdata1, List.length_set]
      have hroom1 : base + (slot + 1) + (childList rest (i + 1)).length ≤ data1.length := by
        rw [hd1len]
        omega
      have hget1 : data1.get? (base + slot) = some entry := by
        rw [hdata1]
        exact List.get?_set_eq_of_lt _ hslotlen
      have hget1' : ∀ k, k ≠ base + slot → data1.get? k = data.get? k := by
        intro k hk
        rw [hdata1]
        exact List.get?_set_ne _ _ (fun h => hk h.symm)
      by_cases hcond : offset_map_get vis c0 = none ∧ 0 < count_children c0
      · obtain ⟨data', vis', newQ, hrun, hlen, hlow, hhigh, hentries, hvold, hvnd, hvnew, hqnd,
          hqspec, hcov, hvlen⟩ :=
          ih (i + 1) (slot + 1) base num om data1 (offset_map_put vis c0 1) (acc ++ [c0])
            (fun c b hm => hom c b (List.mem_cons_of_mem _ hm)) hroom1
        have hfresh : ∀ p ∈ vis, p.1 ≠ c0 := offset_map_get_none_iff.mp hcond.1
        refine ⟨data', vis', c0 :: newQ, ?_, by omega, ?_, ?_, ?_, ?_, ?_, ?_, ?_, ?_, ?_, ?_⟩
        · rw [writeEntries, hcoff]
          simp only [if_pos hcond]
          rw [← hentry, ← hdata1]
          rw [hrun, List.append_cons, List.append_assoc]
          simp
        · intro k hk
          rw [hlow k (by omega), hget1' k (by omega)]
        · intro k hk
          rw [childList_cons_some] at hk
          simp only [List.length_cons] at hk
          rw [hhigh k (by omega), hget1' k (by omega)]
        · intro j letter c b h
          rw [childList_cons_some] at h
          cases j with
          | zero =>
            rw [List.get?_cons_zero] at h
            injection h with h1
            obtain ⟨rfl, rfl, rfl⟩ : letter = i ∧ c = c0 ∧ b = b0 := by
              rw [Prod.mk.injEq, Prod.mk.injEq] at h1
              exact ⟨h1.1.symm, h1.2.1.symm, h1.2.2.symm⟩
            refine ⟨coff, hcoff, ?_⟩
            have : data'.get? (base + slot + 0) = data1.get? (base + slot) := by
              rw [Nat.add_zero]
              exact hlow (base + slot) (by omega)
            rw [this, hget1, hentry]
            simp
          | succ j' =>
            rw [List.get?_cons_succ] at h
            obtain ⟨oc, hoc, hda⟩ := hentries j' letter c b h
            refine ⟨oc, hoc, ?_⟩
            have harith : base + slot + (j' + 1) = base + (slot + 1) + j' := by omega
            have harith2 : slot + (j' + 1) = slot + 1 + j' := by omega
            rw [harith, harith2]
            exact hda
        · intro p hp
          exact hvold p (List.mem_cons_of_mem _ hp)
        · intro hnd
          apply hvnd
          rw [offset_map_put, List.map_cons, List.nodup_cons]
          refine ⟨?_, hnd⟩
          intro hcontr
          rcases List.mem_map.mp hcontr with ⟨p, hp, hpc⟩
          exact hfresh p hp hpc
        · intro p hp
          rcases hvnew p hp with h | ⟨h1, bb, h2⟩
          · rcases List.mem_cons.mp h with rfl | h'
            · exact Or.inr ⟨List.mem_cons_self _ _, b0, List.mem_cons_self _ _⟩
            · exact Or.inl h'
          · exact Or.inr ⟨List.mem_cons_of_mem _ h1, bb, List.mem_cons_of_mem _ h2⟩
        · rw [List.nodup_cons]
          refine ⟨?_, hqnd⟩
          intro hcontr
          obtain ⟨_, _, hgn, _⟩ := hqspec c0 hcontr
          rw [offset_map_get_none_iff] at hgn
          exact hgn (c0, 1) (List.mem_cons_self _ _) rfl
        · intro u hu
          rcases List.mem_cons.mp hu with rfl | hu'
          · refine ⟨⟨1, hvold _ (List.mem_cons_self _ _)⟩, hcond.2, hcond.1,
              b0, List.mem_cons_self _ _⟩
          · obtain ⟨hv, hcc, hgn, bb, hmem⟩ := hqspec u hu'
            refine ⟨hv, hcc, ?_, bb, List.mem_cons_of_mem _ hmem⟩
            rw [offset_map_get_none_iff] at hgn ⊢
            intro p hp
            exact hgn p (List.mem_cons_of_mem _ hp)
        · intro c b hm hcc
          rcases List.mem_cons.mp hm with h | h
          · rw [Prod.mk.injEq] at h
            obtain ⟨h1, _⟩ := h
            have : c = c0 := Option.some.inj h1
            subst this
            exact ⟨1, hvold _ (List.mem_cons_self _ _)⟩
          · exact hcov c b h hcc
        · have : (offset_map_put vis c0 1).length = vis.length + 1 := by
            simp [offset_map_put]
          simp only [List.length_cons]
          omega
      · obtain ⟨data', vis', newQ, hrun, hlen, hlow, hhigh, hentries, hvold, hvnd, hvnew, hqnd,
          hqspec, hcov, hvlen⟩ :=
          ih (i + 1) (slot + 1) base num om data1 vis acc
            (fun c b hm => hom c b (List.mem_cons_of_mem _ hm)) hroom1
        refine ⟨data', vis', newQ, ?_, by omega, ?_, ?_, ?_, hvold, hvnd, ?_, hqnd, ?_, ?_,
          hvlen⟩
        · rw [writeEntries, hcoff]
          simp only [if_neg hcond]
          rw [← hentry, ← hdata1]
          exact hrun
        · intro k hk
          rw [hlow k (by omega), hget1' k (by omega)]
        · intro k hk
          rw [childList_cons_some] at hk
          simp only [List.length_cons] at hk
          rw [hhigh k (by omega), hget1' k (by omega)]
        · intro j letter c b h
          rw [childList_cons_some] at h
          cases j with
          | zero =>
            rw [List.get?_cons_zero] at h
            injection h with h1
            obtain ⟨rfl, rfl, rfl⟩ : letter = i ∧ c = c0 ∧ b = b0 := by
              rw [Prod.mk.injEq, Prod.mk.injEq] at h1
              exact ⟨h1.1.symm, h1.2.1.symm, h1.2.2.symm⟩
            refine ⟨coff, hcoff, ?_⟩
            have : data'.get? (base + slot + 0) = data1.get? (base + slot) := by
              rw [Nat.add_zero]
              exact hlow (base + slot) (by omega)
            rw [this, hget1, hentry]
            simp
          | succ j' =>
            rw [List.get?_cons_succ] at h
            obtain ⟨oc, hoc, hda⟩ := hentries j' letter c b h
            refine ⟨oc, hoc, ?_⟩
            have harith : base + slot + (j' + 1) = base + (slot + 1) + j' := by omega
            have harith2 : slot + (j' + 1) = slot + 1 + j' := by omega
            rw [harith, harith2]
            exact hda
        · intro p hp
          rcases hvnew p hp with h | ⟨h1, bb, h2⟩
          · exact Or.inl h
          · exact Or.inr ⟨h1, bb, List.mem_cons_of_mem _ h2⟩
        · intro u hu
          obtain ⟨hv, hcc, hgn, bb, hmem⟩ := hqspec u hu
          exact ⟨hv, hcc, hgn, bb, List.mem_cons_of_mem _ hmem⟩
        · intro c b hm hcc
          rcases List.mem_cons.mp hm with h | h
          · rw [Prod.mk.injEq] at h
            obtain ⟨h1, _⟩ := h
            have hcc0 : c = c0 := Option.some.inj h1
            subst hcc0
            rw [not_and_or] at hcond
            rcases hcond with h2 | h2
            · cases hvv : offset_map_get vis c with
              | none => exact absurd hvv h2
              | some v => exact ⟨v, hvold _ (offset_map_get_mem hvv)⟩
            · exact absurd hcc h2
          · exact hcov c b h hcc

theorem offset_unique {om : OffMap} (hnd : (om.map Prod.fst).Nodup) {t : Trie} {a b : Nat}
    (ha : (t, a) ∈ om) (hb : (t, b) ∈ om) : a = b := by
  have h1 := offset_map_get_eq_of_mem ha hnd
  have h2 := offset_map_get_eq_of_mem hb hnd
  rw [h1] at h2
  exact Option.some.inj h2

theorem count_children_pos_of_sub {c u : Trie} (hu : u ∈ subNodes c)
    (hcc : 0 < count_children u) : 0 < count_children c := by
  cases c with
  | mk s e =>
    rw [subNodes_mk] at hu
    rcases List.mem_cons.mp hu with rfl | hu'
    · exact hcc
    · exact count_children_pos_of_subNodesSlots (t := Trie.mk s e) (by simpa using hu')

/-- Completeness of a visited map closed under children with children. -/
theorem closed_complete_cc : ∀ (t : Trie) (vis : OffMap),
    (∀ p ∈ vis, ∀ c b, (some c, b) ∈ p.1.slots → 0 < count_children c → ∃ v, (c, v) ∈ vis) →
    (∃ v, (t, v) ∈ vis) → ∀ u ∈ subNodes t, 0 < count_children u → ∃ v, (u, v) ∈ vis
  | .mk s e => fun vis hcl ht u hu hcc => by
    rw [subNodes_mk] at hu
    rcases List.mem_cons.mp hu with rfl | hu'
    · exact ht
    · rcases (mem_subNodesSlots_iff s u).mp hu' with ⟨c, b, hm, hu''⟩
      obtain ⟨v, hv⟩ := ht
      have hccc : 0 < count_children c := count_children_pos_of_sub hu'' hcc
      obtain ⟨vc, hvc⟩ := hcl _ hv c b (by simpa using hm) hccc
      exact closed_complete_cc c vis hcl ⟨vc, hvc⟩ u hu'' hcc
termination_by t => sizeOf t
decreasing_by
  simp_wf
  have := sizeOf_lt_of_mem_slots hm
  omega

theorem phase2_nil (fuel : Nat) (om vis : OffMap) (data : List Nat) :
    phase2 fuel [] om vis data = some data := by
  cases fuel <;> rw [phase2]

/-- The phase-2 BFS terminates and fills every reachable node's block. -/
theorem phase2_sound (R : Trie) (om : OffMap) (size : Nat) (p1 : P1Inv R [] om size) :
    ∀ (fuel : Nat) (q : List Trie) (vis : OffMap) (data : List Nat),
    P2Inv R om size q vis data →
    (subNodes R).dedup.length + q.length ≤ fuel + vis.length →
    ∃ data', phase2 fuel q om vis data = some data' ∧ data'.length = size ∧
      (∀ u ∈ subNodes R, 0 < count_children u → ∀ off, (u, off) ∈ om →
        BlockAt data' om u off) := by
  have hcomp : ∀ u ∈ subNodes R, ∃ v, (u, v) ∈ om :=
    closed_complete R om (fun p hp c b hcb => p1.closed p hp (by simp) c b hcb)
      ⟨0, p1.root_mem⟩
  intro fuel
  induction fuel with
  | zero =>
    intro q vis data inv hfuel
    cases q with
    | nil =>
      refine ⟨data, phase2_nil 0 om vis data, inv.data_len, ?_⟩
      intro u hu hcc off hoff
      obtain ⟨v1, hv1⟩ := closed_complete_cc R vis
        (fun p hp => inv.closed p hp (by simp)) ⟨1, inv.root_vis⟩ u hu hcc
      exact inv.filled (u, v1) hv1 (by simp) off hoff
    | cons node q' =>
      exfalso
      have hlen : vis.length ≤ (subNodes R).dedup.length := by
        have := length_le_dedup_of_nodup inv.vis_nodup (fun x hx => by
          rcases List.mem_map.mp hx with ⟨p, hp, rfl⟩
          exact inv.vis_reach p hp)
        simpa using this
      simp only [List.length_cons] at hfuel
      omega
  | succ fuel ih =>
    intro q vis data inv hfuel
    cases q with
    | nil =>
      refine ⟨data, phase2_nil _ om vis data, inv.data_len, ?_⟩
      intro u hu hcc off hoff
      obtain ⟨v1, hv1⟩ := closed_complete_cc R vis
        (fun p hp => inv.closed p hp (by simp)) ⟨1, inv.root_vis⟩ u hu hcc
      exact inv.filled (u, v1) hv1 (by simp) off hoff
    | cons node q' =>
      have hnode_reach : node ∈ subNodes R := inv.q_reach node (List.mem_cons_self _ _)
      obtain ⟨base, hbase⟩ := hcomp node hnode_reach
      have hgetbase : offset_map_get om node = some base :=
        offset_map_get_eq_of_mem hbase p1.keys_nodup
      have hchildcl : (childList node.slots 0).length = count_children node := by
        rw [childList_length]
        rfl
      have hroom : base + 0 + (childList node.slots 0).length ≤ data.length := by
        rw [hchildcl, inv.data_len]
        by_cases hcc : 0 < count_children node
        · have := p1.blocks_in (node, base) hbase hcc
          simpa using this
        · have h0 : count_children node = 0 := by omega
          have := p1.leaf_zero (node, base) hbase h0
          simp at this
          omega
      have hom_children : ∀ c b, (some c, b) ∈ node.slots →
          ∃ oc, offset_map_get om c = some oc := by
        intro c b hcb
        obtain ⟨oc, hoc⟩ := hcomp c
          (subNodes_trans R node c hnode_reach (mem_subNodes_of_child hcb))
        exact ⟨oc, offset_map_get_eq_of_mem hoc p1.keys_nodup⟩
      obtain ⟨data1, vis1, newQ, hwrun, hlen1, hlow, hhigh, hentries, hvold, hvnd, hvnew,
        hqnd, hqspec, hcov, hvlen⟩ :=
        writeEntries_spec node.slots 0 0 base (count_children node) om data vis []
          hom_children hroom
      rw [List.nil_append] at hwrun
      have hrun_eq : phase2 (fuel + 1) (node :: q') om vis data =
          phase2 fuel (q' ++ newQ) om vis1 data1 := by
        rw [phase2, hgetbase]
        simp only
        rw [hwrun]
      have hvreach1 : ∀ p ∈ vis1, p.1 ∈ subNodes R := by
        intro p hp
        rcases hvnew p hp with h | ⟨_, bb, h2⟩
        · exact inv.vis_reach p h
        · exact subNodes_trans R node p.1 hnode_reach (mem_subNodes_of_child h2)
      have inv1 : P2Inv R om size (q' ++ newQ) vis1 data1 := by
        refine ⟨by rw [hlen1]; exact inv.data_len, hvnd inv.vis_nodup, hvreach1,
          hvold _ inv.root_vis, ?_, ?_, ?_, ?_, ?_⟩
        · intro u hu
          rcases List.mem_append.mp hu with hq | hnq
          · obtain ⟨v, hv⟩ := inv.q_vis u (List.mem_cons_of_mem _ hq)
            exact ⟨v, hvold _ hv⟩
          · exact (hqspec u hnq).1
        · intro u hu
          rcases List.mem_append.mp hu with hq | hnq
          · exact inv.q_reach u (List.mem_cons_of_mem _ hq)
          · obtain ⟨⟨v, hv⟩, _, _, _⟩ := hqspec u hnq
            exact hvreach1 (u, v) hv
        · rw [List.nodup_append]
          refine ⟨(List.nodup_cons.mp inv.q_nodup).2, hqnd, ?_⟩
          intro u hu hu'
          obtain ⟨v, hv⟩ := inv.q_vis u (List.mem_cons_of_mem _ hu)
          obtain ⟨_, _, hgn, _⟩ := hqspec u hu'
          rw [offset_map_get_none_iff] at hgn
          exact hgn (u, v) hv rfl
        · intro p hp hnotq off hoff
          by_cases hpnode : p.1 = node
          · have hoffb : off = base := by
              rw [hpnode] at hoff
              exact offset_unique p1.keys_nodup hoff hbase
            rw [hpnode, hoffb]
            intro j letter c b hj
            obtain ⟨oc, hoc, hda⟩ := hentries j letter c b hj
            refine ⟨oc, hoc, ?_⟩
            have e1 : base + 0 + j = base + j := by omega
            rw [e1] at hda
            rw [hda]
            have e3 : (childrenOf node).length = count_children node := length_childrenOf node
            rw [e3]
            have e2 : (0 : Nat) + j = j := by omega
            rw [e2]
          · have hpold : p ∈ vis := by
              rcases hvnew p hp with h | ⟨h1, _⟩
              · exact h
              · exact absurd (List.mem_append.mpr (Or.inr h1)) hnotq
            have hnotq' : p.1 ∉ node :: q' := by
              intro hcontr
              rcases List.mem_cons.mp hcontr with h | h
              · exact hpnode h
              · exact hnotq (List.mem_append.mpr (Or.inl h))
            have hfill := inv.filled p hpold hnotq' off hoff
            intro j letter c b hj
            obtain ⟨oc, hoc, hda⟩ := hfill j letter c b hj
            refine ⟨oc, hoc, ?_⟩
            have hjlen : j < (childrenOf p.1).length := by
              by_contra hge
              push_neg at hge
              rw [List.get?_eq_none.mpr hge] at hj
              cases hj
            have hlencc : (childrenOf p.1).length = count_children p.1 := length_childrenOf _
            have hccp : 0 < count_children p.1 := by omega
            rcases Nat.lt_or_ge (off + j) base with hsplit | hsplit
            · rw [hlow (off + j) (by omega), hda]
            · have hdisj := p1.disj (p.1, off) hoff (node, base) hbase hpnode hccp
              by_cases hccn : 0 < count_children node
              · rcases hdisj hccn with h | h
                · exfalso
                  simp only at h
                  omega
                · simp only at h
                  rw [hhigh (off + j) (by rw [hchildcl]; omega), hda]
              · have hcc0 : count_children node = 0 := by omega
                rw [hhigh (off + j) (by rw [hchildcl, hcc0]; omega), hda]
        · intro p hp hnotq c b hcb hccc
          by_cases hpnode : p.1 = node
          · obtain ⟨v, hv⟩ := hcov c b (by rw [← hpnode]; exact hcb) hccc
            exact ⟨v, hv⟩
          · rcases hvnew p hp with hpold | ⟨h1, _⟩
            · have hnotq' : p.1 ∉ node :: q' := by
                intro hcontr
                rcases List.mem_cons.mp hcontr with h | h
                · exact hpnode h
                · exact hnotq (List.mem_append.mpr (Or.inl h))
              obtain ⟨v, hv⟩ := inv.closed p hpold hnotq' c b hcb hccc
              exact ⟨v, hvold _ hv⟩
            · exact absurd (List.mem_append.mpr (Or.inr h1)) hnotq
      have hfuel1 : (subNodes R).dedup.length + (q' ++ newQ).length ≤ fuel + vis1.length := by
        rw [List.length_append]
        simp only [List.length_cons] at hfuel
        omega
      obtain ⟨data', hrun', hlen', hblocks⟩ := ih (q' ++ newQ) vis1 data1 inv1 hfuel1
      exact ⟨data', by rw [hrun_eq]; exact hrun', hlen', hblocks⟩

/-- Flattening always succeeds and produces a correctly laid out image:
every reachable node with children owns a block of packed entries at its
assigned offset. -/
theorem dawg_flatten_sound (R : Trie) :
    ∃ om size data,
      phase1 (trie_count_nodes R) [R] (offset_map_put [] R 0) (count_children R) =
        some (om, size) ∧
      dawg_flatten R = some data ∧ data.length = size ∧ P1Inv R [] om size ∧
      (∀ u ∈ subNodes R, 0 < count_children u → ∀ off, (u, off) ∈ om →
        BlockAt data om u off) := by
  have hN := dedup_subNodes_le_count R
  have hNpos : 1 ≤ trie_count_nodes R := by
    cases R with
    | mk s e =>
      rw [trie_count_nodes]
      omega
  have inv0 : P1Inv R [R] (offset_map_put [] R 0) (count_children R) := by
    refine ⟨?_, ?_, ?_, ?_, ?_, ?_, ?_, Nat.le_refl _, ?_, ?_, ?_, ?_⟩
    · simp [offset_map_put]
    · intro p hp
      rcases List.mem_cons.mp hp with rfl | h
      · exact mem_subNodes_self _
      · cases h
    · exact List.mem_cons_self _ _
    · intro p hp hz
      rcases List.mem_cons.mp hp with rfl | h
      · rfl
      · cases h
    · intro p hp hc
      rcases List.mem_cons.mp hp with rfl | h
      · simp
      · cases h
    · intro p hp hc hne
      rcases List.mem_cons.mp hp with rfl | h
      · exact absurd rfl hne
      · cases h
    · intro p hp p' hp' hne hc hc'
      rcases List.mem_cons.mp hp with rfl | h
      · rcases List.mem_cons.mp hp' with rfl | h'
        · exact absurd rfl hne
        · cases h'
      · cases h
    · intro u hu
      rcases List.mem_cons.mp hu with rfl | h
      · exact ⟨0, List.mem_cons_self _ _⟩
      · cases h
    · intro u hu
      rcases List.mem_cons.mp hu with rfl | h
      · exact mem_subNodes_self _
      · cases h
    · exact List.nodup_singleton R
    · intro p hp hnot c b hcb
      rcases List.mem_cons.mp hp with rfl | h
      · exact absurd (List.mem_cons_self _ _) hnot
      · cases h
  have hfuel0 : (subNodes R).dedup.length + [R].length ≤
      trie_count_nodes R + (offset_map_put [] R 0).length := by
    simp [offset_map_put]
    omega
  obtain ⟨om, size, hrun1, p1, hszge⟩ :=
    phase1_sound R (trie_count_nodes R) [R] (offset_map_put [] R 0) (count_children R)
      inv0 hfuel0
  have inv2 : P2Inv R om size [R] (offset_map_put [] R 1) (List.replicate size 0) := by
    refine ⟨by simp, by simp [offset_map_put], ?_, List.mem_cons_self _ _, ?_, ?_,
      List.nodup_singleton R, ?_, ?_⟩
    · intro p hp
      rcases List.mem_cons.mp hp with rfl | h
      · exact mem_subNodes_self _
      · cases h
    · intro u hu
      rcases List.mem_cons.mp hu with rfl | h
      · exact ⟨1, List.mem_cons_self _ _⟩
      · cases h
    · intro u hu
      rcases List.mem_cons.mp hu with rfl | h
      · exact mem_subNodes_self _
      · cases h
    · intro p hp hnot off hoff
      rcases List.mem_cons.mp hp with rfl | h
      · exact absurd (List.mem_cons_self _ _) hnot
      · cases h
    · intro p hp hnot c b hcb hcc
      rcases List.mem_cons.mp hp with rfl | h
      · exact absurd (List.mem_cons_self _ _) hnot
      · cases h
  have hfuel2 : (subNodes R).dedup.length + [R].length ≤
      trie_count_nodes R + (offset_map_put [] R 1).length := by
    simp [offset_map_put]
    omega
  obtain ⟨data, hrun2, hdlen, hblocks⟩ :=
    phase2_sound R om size p1 (trie_count_nodes R) [R] (offset_map_put [] R 1)
      (List.replicate size 0) inv2 hfuel2
  refine ⟨om, size, data, hrun1, ?_, hdlen, p1, hblocks⟩
  simp only [dawg_flatten]
  rw [hrun1]
  exact hrun2

/-! ## Correctness of the packed walker on flattened images -/

mutual
theorem trieHeight_child : ∀ (u c : Trie) (b : Bool), (some c, b) ∈ u.slots →
    trieHeight c < trieHeight u
  | .mk s e => fun c b hm => by
    rw [trieHeight]
    exact heightSlots_child s c b (by simpa using hm)
theorem heightSlots_child : ∀ (s : List (Option Trie × Bool)) (c : Trie) (b : Bool),
    (some c, b) ∈ s → trieHeight c < heightSlots s
  | [] => fun c b hm => by cases hm
  | (none, b0) :: rest => fun c b hm => by
    rw [heightSlots]
    rcases List.mem_cons.mp hm with h | h
    · cases h
    · exact heightSlots_child rest c b h
  | (some c0, b0) :: rest => fun c b hm => by
    rw [heightSlots]
    rcases List.mem_cons.mp hm with h | h
    · rw [Prod.mk.injEq] at h
      obtain ⟨h1, _⟩ := h
      have : c = c0 := Option.some.inj h1
      subst this
      omega
    · have := heightSlots_child rest c b h
      omega
end

theorem count_children_le_26 {u : Trie} (hwf : wfT u) : count_children u ≤ 26 := by
  unfold count_children
  calc u.slots.countP _ ≤ u.slots.length := List.countP_le_length _
  _ = 26 := wfT_slots_length hwf

theorem walk_step (f : Nat) (data : List Nat) (index : Nat) (pref : List Nat) (v : Nat)
    (hguard : ¬(index = 0 ∧ 0 < pref.length)) (hv : data.get? index = some v) :
    packed_dawg_walk (f + 1) data index pref =
      match (if UNPACK_NEXT v ≠ 0 then
          packed_dawg_walk f data (UNPACK_NEXT v) (pref ++ [UNPACK_CHAR v - 1])
        else some []) with
      | none => none
      | some sub =>
        match (if UNPACK_EON v = 1 then some [] else packed_dawg_walk f data (index + 1) pref)
          with
        | none => none
        | some rest =>
          some ((if UNPACK_EOW v = 1 then [pref ++ [UNPACK_CHAR v - 1]] else []) ++ sub ++ rest)
      := by
  rw [packed_dawg_walk, if_neg hguard, hv]

/-- Walking a correctly laid out image from the `j`-th entry of the block of
a reachable node enumerates exactly the words below the remaining edges of
that node, each prefixed by the path so far. -/
theorem walk_block (R : Trie) (om : OffMap) (size : Nat) (data : List Nat)
    (p1 : P1Inv R [] om size) (hdlen : data.length = size) (hcap : size ≤ 2 ^ 25)
    (hwf : wfT R)
    (hblocks : ∀ u ∈ subNodes R, 0 < count_children u → ∀ off, (u, off) ∈ om →
      BlockAt data om u off) :
    ∀ (fuel : Nat) (h : Nat) (u : Trie), trieHeight u ≤ h → u ∈ subNodes R →
    0 < count_children u →
    ∀ off, (u, off) ∈ om →
    ∀ j, j < (childrenOf u).length →
    ∀ (pref : List Nat),
      27 * h + ((childrenOf u).length - j) ≤ fuel →
      (off = 0 → pref = []) →
      packed_dawg_walk fuel data (off + j) pref =
        some ((((childrenOf u).drop j).flatMap
          (fun e => (if e.2.2 then [[e.1]] else []) ++ (dawg_words e.2.1).map
            (fun w => e.1 :: w))).map (fun w => pref ++ w)) := by
  intro fuel
  induction fuel using Nat.strong_induction_on with
  | _ fuel IH =>
  intro h u hh hu hcc off hoff j hj pref hfuel hpref0
  have hlen : (childrenOf u).length = count_children u := length_childrenOf u
  cases fuel with
  | zero => omega
  | succ f =>
  have hguard : ¬(off + j = 0 ∧ 0 < pref.length) := by
    rintro ⟨hz, hp⟩
    have hoffz : off = 0 := by omega
    rw [hpref0 hoffz] at hp
    simp at hp
  obtain ⟨⟨letter, c, b⟩, hget⟩ : ∃ e, (childrenOf u).get? j = some e := by
    cases hg : (childrenOf u).get? j with
    | none =>
      rw [List.get?_eq_none] at hg
      omega
    | some e => exact ⟨e, rfl⟩
  have hmem : (letter, c, b) ∈ childrenOf u := List.get?_mem hget
  have hcslot : (some c, b) ∈ u.slots := childrenOf_mem_slots hmem
  have hwfu : wfT u := wfT_of_mem_subNodes hwf hu
  have hletter : letter < 26 := by
    have := (mem_childList u.slots 0 letter c b hmem).2.2
    rw [wfT_slots_length hwfu] at this
    omega
  obtain ⟨oc, hoc, hdata⟩ := hblocks u hu hcc off hoff j letter c b hget
  have hocmem : (c, oc) ∈ om := offset_map_get_mem hoc
  have hcreach : c ∈ subNodes R :=
    subNodes_trans R u c hu (mem_subNodes_of_child hcslot)
  have hcneR : c ≠ R := child_ne_root hu hcslot
  have hoclt : oc < 2 ^ 25 := by
    by_cases hccc : 0 < count_children c
    · have := p1.blocks_in (c, oc) hocmem hccc
      simp only at this
      omega
    · have h0 : count_children c = 0 := by omega
      have := p1.leaf_zero (c, oc) hocmem h0
      simp only at this
      omega
  have hccR : 0 < count_children R := by
    by_cases huR : u = R
    · rw [← huR]
      exact hcc
    · apply count_children_pos_of_subNodesSlots (u := u)
      cases hR : R with
      | mk s e =>
        have := hu
        rw [hR, subNodes_mk] at this
        rcases List.mem_cons.mp this with h' | h'
        · exact absurd (by rw [hR]; exact h') huR
        · simpa [hR] using h'
  rw [walk_step f data (off + j) pref _ hguard hdata]
  rw [unpack_char_mkEntry _ _ _ _ (by omega), unpack_eow_mkEntry, unpack_eon_mkEntry,
    unpack_next_mkEntry]
  rw [Nat.mod_eq_of_lt hoclt]
  have hdrop : (childrenOf u).drop j = (letter, c, b) :: (childrenOf u).drop (j + 1) := by
    have := List.get?_eq_get hj
    rw [hget] at this
    rw [List.drop_eq_get_cons hj]
    rw [← Option.some.inj this]
  have hsub : (if oc ≠ 0 then packed_dawg_walk f data oc (pref ++ [letter + 1 - 1])
      else some []) = some ((dawg_words c).map (fun w => (pref ++ [letter]) :: [] |>.head!)) ∨
      True := Or.inr trivial
  clear hsub
  by_cases hccc : 0 < count_children c
  · have hocpos : 0 < oc := by
      have := p1.blocks_lower (c, oc) hocmem hccc hcneR
      simp only at this
      omega
    have hsubrun : packed_dawg_walk f data oc (pref ++ [letter]) =
        some ((dawg_words c).map (fun w => (pref ++ [letter]) ++ w)) := by
      have hchild_h : trieHeight c ≤ h - 1 := by
        have h1 : trieHeight c < trieHeight u := trieHeight_child u c b hcslot
        omega
      have hlenc : (childrenOf c).length = count_children c := length_childrenOf c
      have hccle : count_children c ≤ 26 := count_children_le_26 (wfT_of_mem_subNodes hwf hcreach)
      have hhge1 : 1 ≤ h := by
        have h1 := trieHeight_child u c b hcslot
        omega
      have happ := IH f (by omega) (h - 1) c hchild_h hcreach hccc oc hocmem 0
        (by omega) (pref ++ [letter])
        (by omega)
        (fun h0 => absurd h0 (by omega))
      rw [Nat.add_zero] at happ
      rw [happ, List.drop_zero]
      rw [← dawg_words_eq_childrenOf]
    have hne : oc ≠ 0 := by omega
    rw [if_pos hne]
    have harith : letter + 1 - 1 = letter := by omega
    rw [harith, hsubrun]
    by_cases hlast : j = (childrenOf u).length - 1
    · have heon : decide (j = (childrenOf u).length - 1) = true := decide_eq_true hlast
      rw [heon]
      simp only [cond_true, if_pos rfl]
      have hdropnil : (childrenOf u).drop (j + 1) = [] := by
        apply List.drop_eq_nil_of_le
        omega
      rw [hdrop, hdropnil]
      simp only [List.flatMap_cons, List.flatMap_nil, List.append_nil, List.map_append]
      cases b <;> simp [List.map_map, Function.comp]
    · have heon : decide (j = (childrenOf u).length - 1) = false := decide_eq_false hlast
      rw [heon]
      simp only [cond_false]
      rw [if_neg (by simp)]
      have hrestrun : packed_dawg_walk f data (off + j + 1) pref =
          some ((((childrenOf u).drop (j + 1)).flatMap
            (fun e => (if e.2.2 then [[e.1]] else []) ++ (dawg_words e.2.1).map
              (fun w => e.1 :: w))).map (fun w => pref ++ w)) := by
        have := IH f (by omega) h u hh hu hcc off hoff (j + 1) (by omega) pref
          (by omega) hpref0
        exact this
      rw [hrestrun]
      rw [hdrop]
      simp only [List.flatMap_cons, List.map_append]
      cases b <;> simp [List.map_map, Function.comp]
  · have hoczero : oc = 0 := by
      have h0 : count_children c = 0 := by omega
      have := p1.leaf_zero (c, oc) hocmem h0
      simpa using this
    rw [hoczero]
    rw [if_neg (by simp)]
    have hwordsc : dawg_words c = [] := dawg_words_of_no_children (by omega)
    by_cases hlast : j = (childrenOf u).length - 1
    · have heon : decide (j = (childrenOf u).length - 1) = true := decide_eq_true hlast
      rw [heon]
      simp only [cond_true, if_pos rfl]
      have hdropnil : (childrenOf u).drop (j + 1) = [] := by
        apply List.drop_eq_nil_of_le
        omega
      rw [hdrop, hdropnil]
      simp only [List.flatMap_cons, List.flatMap_nil, List.append_nil, List.map_append]
      rw [hwordsc]
      cases b <;> simp [List.map_map, Function.comp]
    · have heon : decide (j = (childrenOf u).length - 1) = false := decide_eq_false hlast
      rw [heon]
      simp only [cond_false]
      rw [if_neg (by simp)]
      have hrestrun : packed_dawg_walk f data (off + j + 1) pref =
          some ((((childrenOf u).drop (j + 1)).flatMap
            (fun e => (if e.2.2 then [[e.1]] else []) ++ (dawg_words e.2.1).map
              (fun w => e.1 :: w))).map (fun w => pref ++ w)) := by
        have := IH f (by omega) h u hh hu hcc off hoff (j + 1) (by omega) pref
          (by omega) hpref0
        exact this
      rw [hrestrun]
      rw [hdrop]
      simp only [List.flatMap_cons, List.map_append]
      rw [hwordsc]
      cases b <;> simp [List.map_map, Function.comp]

theorem count_children_buildDawg_pos {W : List (List Nat)} (hW : CleanWords W)
    (hne : W ≠ []) : 0 < count_children (buildDawg W) := by
  obtain ⟨w, hw⟩ : ∃ w, w ∈ W := by
    cases W with
    | nil => exact absurd rfl hne
    | cons a l => exact ⟨a, List.mem_cons_self _ _⟩
  have hmem : w ∈ dawg_words (buildDawg W) := (mem_dawg_words_buildDawg hW w).mpr hw
  by_contra hz
  push_neg at hz
  have : count_children (buildDawg W) = 0 := by omega
  rw [dawg_words_of_no_children this] at hmem
  cases hmem

/-- C1 (amended): for every non-empty set of clean words whose packed image
fits the 25-bit next field, enumerating the flattened image yields exactly
the input word set. -/
theorem C1_round_trip_amended (W : List (List Nat)) (hW : CleanWords W) (hne : W ≠ [])
    (data : List Nat) (hdata : dawg_flatten (buildDawg W) = some data)
    (hcap : data.length ≤ 2 ^ 25) :
    ∃ out, packed_dawg_walk (27 * trieHeight (buildDawg W) + 27) data 0 [] = some out ∧
      ∀ w, w ∈ out ↔ w ∈ W := by
  obtain ⟨om, size, data0, hrun1, hflat, hdlen, p1, hblocks⟩ := dawg_flatten_sound (buildDawg W)
  rw [hdata] at hflat
  have hd0 : data0 = data := (Option.some.inj hflat).symm
  subst data0
  have hwf : wfT (buildDawg W) := wfT_buildDawg W
  have hccR : 0 < count_children (buildDawg W) := count_children_buildDawg_pos hW hne
  have hlenc : (childrenOf (buildDawg W)).length = count_children (buildDawg W) :=
    length_childrenOf _
  have hccle : count_children (buildDawg W) ≤ 26 := count_children_le_26 hwf
  have hwalk := walk_block (buildDawg W) om size data p1 hdlen (by omega) hwf hblocks
    (27 * trieHeight (buildDawg W) + 27) (trieHeight (buildDawg W)) (buildDawg W)
    (Nat.le_refl _) (mem_subNodes_self _) hccR 0 p1.root_mem 0 (by omega) []
    (by omega) (fun _ => rfl)
  refine ⟨dawg_words (buildDawg W), ?_, fun w => (mem_dawg_words_buildDawg hW w)⟩
  have h00 : (0 : Nat) + 0 = 0 := rfl
  rw [← h00]
  rw [hwalk, List.drop_zero, ← dawg_words_eq_childrenOf]
  simp

/-- C1 counterexample: for the empty word set the claim fails — the packed
image is empty and the walker aborts on an out-of-bounds read instead of
enumerating the (empty) set. -/
theorem C1_cex_empty_set :
    dawg_flatten (buildDawg []) = some [] ∧
      packed_dawg_walk (27 * trieHeight (buildDawg []) + 27) [] 0 [] = none := by
  constructor
  · rfl
  · rfl

/-- Witness for the amended C1 at the concrete word set {ab, ac}. -/
theorem C1_round_trip_amended_witness :
    ∃ out, packed_dawg_walk (27 * trieHeight (buildDawg [[0, 1], [0, 2]]) + 27)
        [mkEntry 1 false true 1, mkEntry 2 true false 0, mkEntry 3 true true 0] 0 [] =
        some out ∧ ∀ w, w ∈ out ↔ w ∈ [[0, 1], [0, 2]] :=
  C1_round_trip_amended [[0, 1], [0, 2]] (by unfold CleanWords; decide) (by decide)
    [mkEntry 1 false true 1, mkEntry 2 true false 0, mkEntry 3 true true 0] (by rfl) (by decide)

/-- C2: in the packed image, every reachable child block has strictly
ascending letter codes, end-of-node exactly on its last entry, and a zero
next field exactly for childless targets (given the image is within the
25-bit capacity). -/
theorem C2_block_invariants (W : List (List Nat)) :
    ∃ om size data,
      phase1 (trie_count_nodes (buildDawg W)) [buildDawg W]
          (offset_map_put [] (buildDawg W) 0) (count_children (buildDawg W)) =
        some (om, size) ∧
      dawg_flatten (buildDawg W) = some data ∧
      (size ≤ 2 ^ 25 →
        ∀ u ∈ subNodes (buildDawg W), 0 < count_children u → ∀ off, (u, off) ∈ om →
          (∀ j1 j2 e1 e2, (childrenOf u).get? j1 = some e1 →
            (childrenOf u).get? j2 = some e2 → j1 < j2 →
            UNPACK_CHAR (data.getD (off + j1) 0) < UNPACK_CHAR (data.getD (off + j2) 0)) ∧
          (∀ j, j < (childrenOf u).length →
            (UNPACK_EON (data.getD (off + j) 0) = 1 ↔ j = (childrenOf u).length - 1)) ∧
          (∀ j e, (childrenOf u).get? j = some e →
            (UNPACK_NEXT (data.getD (off + j) 0) = 0 ↔ count_children e.2.1 = 0))) := by
  obtain ⟨om, size, data, hrun1, hflat, hdlen, p1, hblocks⟩ := dawg_flatten_sound (buildDawg W)
  have hwfR : wfT (buildDawg W) := wfT_buildDawg W
  refine ⟨om, size, data, hrun1, hflat, ?_⟩
  intro hcap u hu hcc off hoff
  have hwfu : wfT u := wfT_of_mem_subNodes hwfR hu
  have hentry : ∀ j e, (childrenOf u).get? j = some e →
      ∃ oc, (e.2.1, oc) ∈ om ∧ data.getD (off + j) 0 =
        mkEntry (e.1 + 1) e.2.2 (decide (j = (childrenOf u).length - 1)) oc ∧
        e.1 < 26 ∧ oc < 2 ^ 25 ∧ (count_children e.2.1 = 0 → oc = 0) ∧
        (0 < count_children e.2.1 → 0 < oc) := by
    intro j e hj
    obtain ⟨letter, c, b⟩ := e
    obtain ⟨oc, hoc, hdataj⟩ := hblocks u hu hcc off hoff j letter c b hj
    have hocmem : (c, oc) ∈ om := offset_map_get_mem hoc
    have hmem : (letter, c, b) ∈ childrenOf u := List.get?_mem hj
    have hcslot : (some c, b) ∈ u.slots := childrenOf_mem_slots hmem
    have hletter : letter < 26 := by
      have := (mem_childList u.slots 0 letter c b hmem).2.2
      rw [wfT_slots_length hwfu] at this
      omega
    have hoclt : oc < 2 ^ 25 := by
      by_cases hccc : 0 < count_children c
      · have := p1.blocks_in (c, oc) hocmem hccc
        simp only at this
        omega
      · have h0 : count_children c = 0 := by omega
        have := p1.leaf_zero (c, oc) hocmem h0
        simp only at this
        omega
    refine ⟨oc, hocmem, ?_, hletter, hoclt, ?_, ?_⟩
    · rw [List.getD_eq_getElem?_getD, ← List.get?_eq_getElem?, hdataj]
      rfl
    · intro h0
      have := p1.leaf_zero (c, oc) hocmem h0
      simpa using this
    · intro hccc
      have hcneR : c ≠ buildDawg W := child_ne_root hu hcslot
      have := p1.blocks_lower (c, oc) hocmem hccc hcneR
      simp only at this
      have hccR : 0 < count_children (buildDawg W) := count_children_pos_of_sub hu hcc
      omega
  refine ⟨?_, ?_, ?_⟩
  · intro j1 j2 e1 e2 hj1 hj2 hlt
    obtain ⟨oc1, hm1, hd1, hl1, hx1, hy1, hz1⟩ := hentry j1 e1 hj1
    obtain ⟨oc2, hm2, hd2, hl2, hx2, hy2, hz2⟩ := hentry j2 e2 hj2
    rw [hd1, hd2]
    rw [unpack_char_mkEntry _ _ _ _ (by omega), unpack_char_mkEntry _ _ _ _ (by omega)]
    obtain ⟨hjl1, hget1⟩ := List.get?_eq_some.mp hj1
    obtain ⟨hjl2, hget2⟩ := List.get?_eq_some.mp hj2
    have hpw : ((childrenOf u).get ⟨j1, hjl1⟩).1 < ((childrenOf u).get ⟨j2, hjl2⟩).1 :=
      List.pairwise_iff_get.mp (childList_pairwise u.slots 0) ⟨j1, hjl1⟩ ⟨j2, hjl2⟩ hlt
    rw [hget1, hget2] at hpw
    omega
  · intro j hjlen
    obtain ⟨e, hj⟩ : ∃ e, (childrenOf u).get? j = some e := by
      cases hg : (childrenOf u).get? j with
      | none =>
        rw [List.get?_eq_none] at hg
        omega
      | some e => exact ⟨e, rfl⟩
    obtain ⟨oc, hm1, hd, hl, hx, hy, hz⟩ := hentry j e hj
    rw [hd, unpack_eon_mkEntry]
    constructor
    · intro h1
      by_contra hne
      rw [decide_eq_false hne] at h1
      simp at h1
    · intro h1
      rw [decide_eq_true h1]
      rfl
  · intro j e hj
    obtain ⟨oc, hm1, hd, hl, hoclt, hzero, hpos⟩ := hentry j e hj
    rw [hd, unpack_next_mkEntry, Nat.mod_eq_of_lt hoclt]
    constructor
    · intro h0
      by_contra hccne
      have hpc := hpos (Nat.pos_of_ne_zero hccne)
      omega
    · intro h0
      exact hzero h0

/-! ### Size bounds for compression: the table only receives strict subtrees -/

theorem trie_sizeOf_eq : ∀ t : Trie, sizeOf t = 2 + sizeOf t.slots
  | .mk s e => by cases e <;> simp [Trie.mk.sizeOf_spec]  <;> omega

mutual
/-- Every canonical node returned by `dawg_compress_node` is no larger than
the node compressed, and every table entry is old or bounded by it. -/
theorem compressNode_size : ∀ (t : Trie) (m : SigMap), GoodSig m → wfT t →
    sizeOf (dawg_compress_node t m).1 ≤ sizeOf t ∧
    (∀ sig c, (sig, c) ∈ (dawg_compress_node t m).2 → (sig, c) ∈ m ∨ sizeOf c ≤ sizeOf t)
  | .mk s e => fun m hm hwf => by
    have hch : ∀ c b, (some c, b) ∈ s → wfT c := fun c b hmem =>
      wfT_child hwf (by simpa using hmem)
    obtain ⟨hsz, hnew⟩ := compressSlots_size s m hm hch
    obtain ⟨hm', hmap, hch', hwords⟩ := compressSlots_spec s m hm hch
    rw [dawg_compress_node_eq]
    unfold hashmap_find_or_insert
    simp only [slots_mk]
    cases hlk : lookupSig (compressSlots s m).2 (compressSlots s m).1 with
    | none =>
      constructor
      · simp only [Trie.mk.sizeOf_spec]
        omega
      · intro sig c hmem
        rcases List.mem_cons.mp hmem with h1 | h1
        · right
          rw [Prod.mk.injEq] at h1
          have hc : c = Trie.mk (compressSlots s m).1 e := h1.2
          rw [hc]
          simp only [Trie.mk.sizeOf_spec]
          omega
        · rcases hnew sig c h1 with h2 | h2
          · exact Or.inl h2
          · right
            simp only [Trie.mk.sizeOf_spec]
            omega
    | some c0 =>
      have hc0 : ((compressSlots s m).1, c0) ∈ (compressSlots s m).2 := lookupSig_mem hlk
      have hc0s : c0.slots = (compressSlots s m).1 := (hm' _ hc0).1
      have hc0sz : sizeOf c0 = 2 + sizeOf (compressSlots s m).1 := by
        rw [trie_sizeOf_eq c0, hc0s]
      have he1 : sizeOf e = 1 := by cases e <;> rfl
      constructor
      · simp only [Trie.mk.sizeOf_spec]
        omega
      · intro sig c hmem
        rcases hnew sig c hmem with h2 | h2
        · exact Or.inl h2
        · right
          simp only [Trie.mk.sizeOf_spec]
          omega

/-- Table entries created while compressing a slot list are strictly smaller
than the list. -/
theorem compressSlots_size : ∀ (s : List (Option Trie × Bool)) (m : SigMap), GoodSig m →
    (∀ c b, (some c, b) ∈ s → wfT c) →
    sizeOf (compressSlots s m).1 ≤ sizeOf s ∧
    (∀ sig c, (sig, c) ∈ (compressSlots s m).2 → (sig, c) ∈ m ∨ 1 + sizeOf c ≤ sizeOf s)
  | [], m => fun _ _ => by
    rw [compressSlots_nil]
    exact ⟨Nat.le_refl _, fun sig c h => Or.inl h⟩
  | (none, b) :: rest, m => fun hm hch => by
    rw [compressSlots_cons_none]
    obtain ⟨h1, h2⟩ := compressSlots_size rest m hm
      (fun c b2 hmem => hch c b2 (List.mem_cons_of_mem _ hmem))
    constructor
    · simp only [List.cons.sizeOf_spec]
      omega
    · intro sig c hmem
      rcases h2 sig c hmem with h | h
      · exact Or.inl h
      · right
        simp only [List.cons.sizeOf_spec]
        omega
  | (some ch, b) :: rest, m => fun hm hch => by
    rw [compressSlots_cons_some]
    have hwfch : wfT ch := hch ch b (List.mem_cons_self _ _)
    obtain ⟨hA1, hA2⟩ := compressNode_size ch m hm hwfch
    have hmA : GoodSig (dawg_compress_node ch m).2 := (compressNode_spec ch m hm hwfch).1
    obtain ⟨hB1, hB2⟩ := compressSlots_size rest (dawg_compress_node ch m).2 hmA
      (fun c b2 hmem => hch c b2 (List.mem_cons_of_mem _ hmem))
    constructor
    · simp only [List.cons.sizeOf_spec, Prod.mk.sizeOf_spec, Option.some.sizeOf_spec]
      omega
    · intro sig c hmem
      rcases hB2 sig c hmem with h | h
      · rcases hA2 sig c h with h' | h'
        · exact Or.inl h'
        · right
          simp only [List.cons.sizeOf_spec, Prod.mk.sizeOf_spec, Option.some.sizeOf_spec]
          omega
      · right
        simp only [List.cons.sizeOf_spec, Prod.mk.sizeOf_spec, Option.some.sizeOf_spec]
        omega
end

/-- C7: compression never replaces the root.  The compressed root is the
original root rebuilt in place — same end-of-word flag, slots obtained by
rewiring its children — and is never inserted into the equivalence table:
every table entry is a strictly smaller tree than the root.  Consequently
index 0 of the packed image is the first entry of the root's child block. -/
theorem C7_root_never_replaced (W : List (List Nat)) :
    (dawg_compress (trie_move_eow_to_edges (buildTrie W)) []).1 =
      Trie.mk (compressSlots (trie_move_eow_to_edges (buildTrie W)).slots []).1
        (trie_move_eow_to_edges (buildTrie W)).eow ∧
    (dawg_compress (trie_move_eow_to_edges (buildTrie W)) []).2 =
      (compressSlots (trie_move_eow_to_edges (buildTrie W)).slots []).2 ∧
    (∀ sig c, (sig, c) ∈ (dawg_compress (trie_move_eow_to_edges (buildTrie W)) []).2 →
      sizeOf c < sizeOf (trie_move_eow_to_edges (buildTrie W))) ∧
    (∀ data letter c b, dawg_flatten (buildDawg W) = some data →
      (childrenOf (buildDawg W)).get? 0 = some (letter, c, b) →
      ∃ oc, data.get? 0 = some (mkEntry (letter + 1) b
        (decide (0 = (childrenOf (buildDawg W)).length - 1)) oc)) := by
  have hwf : wfT (trie_move_eow_to_edges (buildTrie W)) :=
    wfT_moveEow _ (wfT_buildTrie W)
  have hgood : GoodSig ([] : SigMap) := fun p hp => absurd hp (List.not_mem_nil p)
  have hch : ∀ c b, (some c, b) ∈ (trie_move_eow_to_edges (buildTrie W)).slots → wfT c :=
    fun c b h => wfT_child hwf h
  obtain ⟨⟨s', m'⟩, hsm⟩ :
      ∃ p, compressSlots (trie_move_eow_to_edges (buildTrie W)).slots [] = p := ⟨_, rfl⟩
  refine ⟨?_, ?_, ?_, ?_⟩
  · unfold dawg_compress
    rw [hsm]
  · unfold dawg_compress
    rw [hsm]
  · intro sig c hmem
    obtain ⟨hsz, hnew⟩ :=
      compressSlots_size (trie_move_eow_to_edges (buildTrie W)).slots [] hgood hch
    have hmem' : (sig, c) ∈ (compressSlots (trie_move_eow_to_edges (buildTrie W)).slots []).2 := by
      unfold dawg_compress at hmem
      rw [hsm] at hmem ⊢
      exact hmem
    rcases hnew sig c hmem' with h | h
    · exact absurd h (List.not_mem_nil _)
    · rw [trie_sizeOf_eq (trie_move_eow_to_edges (buildTrie W))]
      omega
  · intro data letter c b hdata hj0
    obtain ⟨om, size, data0, hrun1, hflat, hdlen0, p1, hblocks⟩ :=
      dawg_flatten_sound (buildDawg W)
    rw [hdata] at hflat
    have hd0 : data0 = data := (Option.some.inj hflat).symm
    subst data0
    have hlen0 : 0 < (childrenOf (buildDawg W)).length := (List.get?_eq_some.mp hj0).1
    have hcc : 0 < count_children (buildDawg W) := by
      rw [← length_childrenOf]
      exact hlen0
    obtain ⟨oc, hoc, hentry⟩ :=
      hblocks (buildDawg W) (mem_subNodes_self _) hcc 0 p1.root_mem 0 letter c b hj0
    exact ⟨oc, by simpa using hentry⟩

/-! ### The root's map entry rides inertly at the tail of every map:
`dawg_flatten` never reads the root's own end-of-word flag -/

theorem sizeOf_child_lt {u c : Trie} {b : Bool} (h : (some c, b) ∈ u.slots) :
    sizeOf c < sizeOf u := by
  have h1 := sizeOf_lt_of_mem_slots h
  rw [trie_sizeOf_eq u]
  omega

theorem sizeOf_lt_mk {s : List (Option Trie × Bool)} {c : Trie} {b : Bool} (e : Bool)
    (h : (some c, b) ∈ s) : sizeOf c < sizeOf (Trie.mk s e) := by
  have h1 := sizeOf_lt_of_mem_slots h
  simp only [Trie.mk.sizeOf_spec]
  omega

theorem offset_map_get_append_small (r : Trie) (k : Nat) (c : Trie)
    (h : sizeOf c < sizeOf r) :
    ∀ M : OffMap, offset_map_get (M ++ [(r, k)]) c = offset_map_get M c
  | [] => by
    simp only [List.nil_append, offset_map_get]
    rw [if_neg (fun he : r = c => by rw [he] at h; omega)]
  | (u, off) :: M => by
    simp only [List.cons_append, offset_map_get]
    have hrec := offset_map_get_append_small r k c h M
    split
    · rfl
    · exact hrec

theorem offset_map_get_append_root (r : Trie) (k : Nat) :
    ∀ M : OffMap, (∀ p ∈ M, sizeOf p.1 < sizeOf r) →
      offset_map_get (M ++ [(r, k)]) r = some k
  | [] => fun _ => by
    simp only [List.nil_append, offset_map_get]
    simp
  | (u, off) :: M => fun hM => by
    have hu : sizeOf u < sizeOf r := hM (u, off) (List.mem_cons_self _ _)
    simp only [List.cons_append, offset_map_get]
    rw [if_neg (fun he : u = r => by rw [he] at hu; omega)]
    exact offset_map_get_append_root r k M (fun p hp => hM p (List.mem_cons_of_mem _ hp))

/-- Every node the phase-1 scan enqueues is a child in the scanned slots. -/
theorem scanChildren_q_mem : ∀ (s : List (Option Trie × Bool)) (om : OffMap) (size : Nat)
    (c : Trie), c ∈ (scanChildren s om size).2.2 → ∃ b, (some c, b) ∈ s
  | [], om, size => fun c hc => by
    rw [scanChildren_nil] at hc
    exact absurd hc (List.not_mem_nil c)
  | (none, b0) :: rest, om, size => fun c hc => by
    rw [scanChildren_cons_none] at hc
    obtain ⟨b, hb⟩ := scanChildren_q_mem rest om size c hc
    exact ⟨b, List.mem_cons_of_mem _ hb⟩
  | (some c0, b0) :: rest, om, size => fun c hc => by
    rw [scanChildren] at hc
    cases hget : offset_map_get om c0 with
    | some v =>
      rw [hget] at hc
      simp only at hc
      obtain ⟨b, hb⟩ := scanChildren_q_mem rest om size c hc
      exact ⟨b, List.mem_cons_of_mem _ hb⟩
    | none =>
      rw [hget] at hc
      simp only at hc
      by_cases hcc : 0 < count_children c0
      · rw [if_pos hcc] at hc
        obtain ⟨⟨om2, size2, q2⟩, hr⟩ : ∃ p,
            scanChildren rest (offset_map_put om c0 size) (size + count_children c0) = p :=
          ⟨_, rfl⟩
        rw [hr] at hc
        simp only at hc
        rcases List.mem_cons.mp hc with rfl | hc2
        · exact ⟨b0, List.mem_cons_self _ _⟩
        · have hc3 : c ∈ (scanChildren rest (offset_map_put om c0 size)
              (size + count_children c0)).2.2 := by rw [hr]; exact hc2
          obtain ⟨b, hb⟩ := scanChildren_q_mem rest _ _ c hc3
          exact ⟨b, List.mem_cons_of_mem _ hb⟩
      · rw [if_neg hcc] at hc
        obtain ⟨b, hb⟩ := scanChildren_q_mem rest _ _ c hc
        exact ⟨b, List.mem_cons_of_mem _ hb⟩

/-- Every entry of the scanned offset map is an old entry or keyed by a
child in the scanned slots. -/
theorem scanChildren_om_mem : ∀ (s : List (Option Trie × Bool)) (om : OffMap) (size : Nat)
    (p : Trie × Nat), p ∈ (scanChildren s om size).1 → p ∈ om ∨ ∃ b, (some p.1, b) ∈ s
  | [], om, size => fun p hp => by
    rw [scanChildren_nil] at hp
    exact Or.inl hp
  | (none, b0) :: rest, om, size => fun p hp => by
    rw [scanChildren_cons_none] at hp
    rcases scanChildren_om_mem rest om size p hp with h | ⟨b, hb⟩
    · exact Or.inl h
    · exact Or.inr ⟨b, List.mem_cons_of_mem _ hb⟩
  | (some c0, b0) :: rest, om, size => fun p hp => by
    rw [scanChildren] at hp
    cases hget : offset_map_get om c0 with
    | some v =>
      rw [hget] at hp
      simp only at hp
      rcases scanChildren_om_mem rest om size p hp with h | ⟨b, hb⟩
      · exact Or.inl h
      · exact Or.inr ⟨b, List.mem_cons_of_mem _ hb⟩
    | none =>
      rw [hget] at hp
      simp only at hp
      by_cases hcc : 0 < count_children c0
      · rw [if_pos hcc] at hp
        obtain ⟨⟨om2, size2, q2⟩, hr⟩ : ∃ x,
            scanChildren rest (offset_map_put om c0 size) (size + count_children c0) = x :=
          ⟨_, rfl⟩
        rw [hr] at hp
        simp only at hp
        have hp2 : p ∈ (scanChildren rest (offset_map_put om c0 size)
            (size + count_children c0)).1 := by rw [hr]; exact hp
        rcases scanChildren_om_mem rest _ _ p hp2 with h | ⟨b, hb⟩
        · rcases List.mem_cons.mp h with h1 | h1
          · subst h1
            exact Or.inr ⟨b0, List.mem_cons_self _ _⟩
          · exact Or.inl h1
        · exact Or.inr ⟨b, List.mem_cons_of_mem _ hb⟩
      · rw [if_neg hcc] at hp
        rcases scanChildren_om_mem rest _ _ p hp with h | ⟨b, hb⟩
        · rcases List.mem_cons.mp h with h1 | h1
          · subst h1
            exact Or.inr ⟨b0, List.mem_cons_self _ _⟩
          · exact Or.inl h1
        · exact Or.inr ⟨b, List.mem_cons_of_mem _ hb⟩

/-- A tail entry keyed by a tree larger than every scanned child is carried
through the phase-1 scan untouched. -/
theorem scanChildren_append (r : Trie) (k : Nat) :
    ∀ (s : List (Option Trie × Bool)) (M : OffMap) (size : Nat)
      (om' : OffMap) (size' : Nat) (q' : List Trie),
    (∀ c b, (some c, b) ∈ s → sizeOf c < sizeOf r) →
    scanChildren s M size = (om', size', q') →
    scanChildren s (M ++ [(r, k)]) size = (om' ++ [(r, k)], size', q')
  | [], M, size => fun om' size' q' _ hrun => by
    rw [scanChildren_nil] at hrun
    rw [Prod.mk.injEq, Prod.mk.injEq] at hrun
    obtain ⟨rfl, rfl, rfl⟩ := hrun
    rw [scanChildren_nil]
  | (none, b0) :: rest, M, size => fun om' size' q' hs hrun => by
    rw [scanChildren_cons_none] at hrun
    rw [scanChildren_cons_none]
    exact scanChildren_append r k rest M size om' size' q'
      (fun c b hm => hs c b (List.mem_cons_of_mem _ hm)) hrun
  | (some c0, b0) :: rest, M, size => fun om' size' q' hs hrun => by
    have hc0 : sizeOf c0 < sizeOf r := hs c0 b0 (List.mem_cons_self _ _)
    rw [scanChildren] at hrun
    rw [scanChildren, offset_map_get_append_small r k c0 hc0 M]
    cases hget : offset_map_get M c0 with
    | some v =>
      rw [hget] at hrun
      simp only at hrun
      simp only
      exact scanChildren_append r k rest M size om' size' q'
        (fun c b hm => hs c b (List.mem_cons_of_mem _ hm)) hrun
    | none =>
      rw [hget] at hrun
      simp only at hrun
      simp only
      by_cases hcc : 0 < count_children c0
      · rw [if_pos hcc] at hrun
        rw [if_pos hcc]
        obtain ⟨⟨om2, size2, q2⟩, hr2⟩ : ∃ x,
            scanChildren rest (offset_map_put M c0 size) (size + count_children c0) = x :=
          ⟨_, rfl⟩
        rw [hr2] at hrun
        simp only at hrun
        rw [Prod.mk.injEq, Prod.mk.injEq] at hrun
        obtain ⟨rfl, rfl, rfl⟩ := hrun
        have hstep : scanChildren rest (offset_map_put M c0 size ++ [(r, k)])
            (size + count_children c0) = (om2 ++ [(r, k)], size2, q2) :=
          scanChildren_append r k rest (offset_map_put M c0 size)
            (size + count_children c0) om2 size2 q2
            (fun c b hm => hs c b (List.mem_cons_of_mem _ hm)) hr2
        have hput : offset_map_put (M ++ [(r, k)]) c0 size =
            offset_map_put M c0 size ++ [(r, k)] := rfl
        rw [hput, hstep]
      · rw [if_neg hcc] at hrun
        rw [if_neg hcc]
        have hput : offset_map_put (M ++ [(r, k)]) c0 0 =
            offset_map_put M c0 0 ++ [(r, k)] := rfl
        rw [hput]
        exact scanChildren_append r k rest (offset_map_put M c0 0) size om' size' q'
          (fun c b hm => hs c b (List.mem_cons_of_mem _ hm)) hrun

theorem phase1_cons0 (node : Trie) (q : List Trie) (om : OffMap) (size : Nat) :
    phase1 0 (node :: q) om size = none := by
  rw [phase1]

/-- A tail entry keyed by a tree larger than every queued node is carried
through the whole phase-1 BFS untouched. -/
theorem phase1_append (r : Trie) (k : Nat) :
    ∀ (fuel : Nat) (q : List Trie) (M : OffMap) (size : Nat),
    (∀ u ∈ q, sizeOf u < sizeOf r) →
    phase1 fuel q (M ++ [(r, k)]) size =
      (phase1 fuel q M size).map (fun p => (p.1 ++ [(r, k)], p.2)) := by
  intro fuel
  induction fuel with
  | zero =>
    intro q M size hq
    cases q with
    | nil => rw [phase1_nil, phase1_nil]; rfl
    | cons u q' => rw [phase1_cons0, phase1_cons0]; rfl
  | succ fuel ih =>
    intro q M size hq
    cases q with
    | nil => rw [phase1_nil, phase1_nil]; rfl
    | cons u q' =>
      have hu : sizeOf u < sizeOf r := hq u (List.mem_cons_self _ _)
      obtain ⟨⟨om1, size1, q1⟩, hr1⟩ : ∃ x, scanChildren u.slots M size = x := ⟨_, rfl⟩
      have hchild : ∀ c b, (some c, b) ∈ u.slots → sizeOf c < sizeOf r :=
        fun c b hm => Nat.lt_trans (sizeOf_child_lt hm) hu
      have hstep := scanChildren_append r k u.slots M size om1 size1 q1 hchild hr1
      rw [phase1_cons, phase1_cons, hr1, hstep]
      simp only
      have hq1 : ∀ v ∈ q1, sizeOf v < sizeOf r := by
        intro v hv
        have hv1 : v ∈ (scanChildren u.slots M size).2.2 := by rw [hr1]; exact hv
        obtain ⟨b, hb⟩ := scanChildren_q_mem u.slots M size v hv1
        exact hchild v b hb
      exact ih (q' ++ q1) om1 size1
        (fun v hv => (List.mem_append.mp hv).elim
          (fun h => hq v (List.mem_cons_of_mem _ h)) (fun h => hq1 v h))

/-- Phase 1 only ever inserts keys bounded like its inputs. -/
theorem phase1_keys (N : Nat) :
    ∀ (fuel : Nat) (q : List Trie) (M : OffMap) (size : Nat) (M' : OffMap) (size' : Nat),
    (∀ u ∈ q, sizeOf u < N) → (∀ p ∈ M, sizeOf p.1 < N) →
    phase1 fuel q M size = some (M', size') → ∀ p ∈ M', sizeOf p.1 < N := by
  intro fuel
  induction fuel with
  | zero =>
    intro q M size M' size' hq hM hrun
    cases q with
    | nil =>
      rw [phase1_nil] at hrun
      have h2 := Option.some.inj hrun
      rw [Prod.mk.injEq] at h2
      obtain ⟨rfl, rfl⟩ := h2
      exact hM
    | cons u q' => rw [phase1_cons0] at hrun; cases hrun
  | succ fuel ih =>
    intro q M size M' size' hq hM hrun
    cases q with
    | nil =>
      rw [phase1_nil] at hrun
      have h2 := Option.some.inj hrun
      rw [Prod.mk.injEq] at h2
      obtain ⟨rfl, rfl⟩ := h2
      exact hM
    | cons u q' =>
      have hu : sizeOf u < N := hq u (List.mem_cons_self _ _)
      obtain ⟨⟨om1, size1, q1⟩, hr1⟩ : ∃ x, scanChildren u.slots M size = x := ⟨_, rfl⟩
      rw [phase1_cons, hr1] at hrun
      simp only at hrun
      have hchild : ∀ c b, (some c, b) ∈ u.slots → sizeOf c < N :=
        fun c b hm => Nat.lt_trans (sizeOf_child_lt hm) hu
      have hM1 : ∀ p ∈ om1, sizeOf p.1 < N := by
        intro p hp
        have hp1 : p ∈ (scanChildren u.slots M size).1 := by rw [hr1]; exact hp
        rcases scanChildren_om_mem u.slots M size p hp1 with h | ⟨b, hb⟩
        · exact hM p h
        · exact hchild p.1 b hb
      have hq1 : ∀ v ∈ q1, sizeOf v < N := by
        intro v hv
        have hv1 : v ∈ (scanChildren u.slots M size).2.2 := by rw [hr1]; exact hv
        obtain ⟨b, hb⟩ := scanChildren_q_mem u.slots M size v hv1
        exact hchild v b hb
      exact ih (q' ++ q1) om1 size1 M' size'
        (fun v hv => (List.mem_append.mp hv).elim
          (fun h => hq v (List.mem_cons_of_mem _ h)) (fun h => hq1 v h)) hM1 hrun

/-- Every node the phase-2 writer enqueues is an old accumulator element or
a child in the written slots. -/
theorem writeEntries_acc_mem :
    ∀ (s : List (Option Trie × Bool)) (i slot base num : Nat) (om : OffMap)
      (data : List Nat) (vis : OffMap) (acc : List Trie) (d : List Nat) (v : OffMap)
      (a : List Trie), writeEntries s i slot base num om data vis acc = some (d, v, a) →
      ∀ c ∈ a, c ∈ acc ∨ ∃ b, (some c, b) ∈ s
  | [], i, slot, base, num, om, data, vis, acc => fun d v a hrun c hc => by
    rw [writeEntries_nil] at hrun
    have h2 := Option.some.inj hrun
    rw [Prod.mk.injEq, Prod.mk.injEq] at h2
    obtain ⟨rfl, rfl, rfl⟩ := h2
    exact Or.inl hc
  | (none, b0) :: rest, i, slot, base, num, om, data, vis, acc => fun d v a hrun c hc => by
    rw [writeEntries_cons_none] at hrun
    rcases writeEntries_acc_mem rest _ _ _ _ _ _ _ _ d v a hrun c hc with h | ⟨b, hb⟩
    · exact Or.inl h
    · exact Or.inr ⟨b, List.mem_cons_of_mem _ hb⟩
  | (some c0, b0) :: rest, i, slot, base, num, om, data, vis, acc => fun d v a hrun c hc => by
    rw [writeEntries] at hrun
    cases hget : offset_map_get om c0 with
    | none => rw [hget] at hrun; cases hrun
    | some coff =>
      rw [hget] at hrun
      simp only at hrun
      by_cases hcond : offset_map_get vis c0 = none ∧ 0 < count_children c0
      · rw [if_pos hcond] at hrun
        rcases writeEntries_acc_mem rest _ _ _ _ _ _ _ _ d v a hrun c hc with h | ⟨b, hb⟩
        · rcases List.mem_append.mp h with h1 | h1
          · exact Or.inl h1
          · have : c = c0 := by simpa using h1
            subst this
            exact Or.inr ⟨b0, List.mem_cons_self _ _⟩
        · exact Or.inr ⟨b, List.mem_cons_of_mem _ hb⟩
      · rw [if_neg hcond] at hrun
        rcases writeEntries_acc_mem rest _ _ _ _ _ _ _ _ d v a hrun c hc with h | ⟨b, hb⟩
        · exact Or.inl h
        · exact Or.inr ⟨b, List.mem_cons_of_mem _ hb⟩

/-- Tail entries keyed by a tree larger than every written child are carried
through the phase-2 writer untouched, in both the offset map and the
visited map. -/
theorem writeEntries_append (r : Trie) (k j : Nat) :
    ∀ (s : List (Option Trie × Bool)) (i slot base num : Nat) (M : OffMap)
      (data : List Nat) (V : OffMap) (acc : List Trie),
    (∀ c b, (some c, b) ∈ s → sizeOf c < sizeOf r) →
    writeEntries s i slot base num (M ++ [(r, k)]) data (V ++ [(r, j)]) acc =
      (writeEntries s i slot base num M data V acc).map
        (fun p => (p.1, p.2.1 ++ [(r, j)], p.2.2))
  | [], i, slot, base, num, M, data, V, acc => fun _ => by
    rw [writeEntries_nil, writeEntries_nil]
    rfl
  | (none, b0) :: rest, i, slot, base, num, M, data, V, acc => fun hs => by
    rw [writeEntries_cons_none, writeEntries_cons_none]
    exact writeEntries_append r k j rest _ _ _ _ _ _ _ _
      (fun c b hm => hs c b (List.mem_cons_of_mem _ hm))
  | (some c0, b0) :: rest, i, slot, base, num, M, data, V, acc => fun hs => by
    have hc0 : sizeOf c0 < sizeOf r := hs c0 b0 (List.mem_cons_self _ _)
    rw [writeEntries, writeEntries, offset_map_get_append_small r k c0 hc0 M]
    cases hget : offset_map_get M c0 with
    | none => rfl
    | some coff =>
      simp only [offset_map_get_append_small r j c0 hc0 V]
      by_cases hcond : offset_map_get V c0 = none ∧ 0 < count_children c0
      · rw [if_pos hcond, if_pos hcond]
        have hput : offset_map_put (V ++ [(r, j)]) c0 1 =
            offset_map_put V c0 1 ++ [(r, j)] := rfl
        rw [hput]
        exact writeEntries_append r k j rest _ _ _ _ _ _ _ _
          (fun c b hm => hs c b (List.mem_cons_of_mem _ hm))
      · rw [if_neg hcond, if_neg hcond]
        exact writeEntries_append r k j rest _ _ _ _ _ _ _ _
          (fun c b hm => hs c b (List.mem_cons_of_mem _ hm))

theorem phase2_cons0 (node : Trie) (q : List Trie) (om vis : OffMap) (data : List Nat) :
    phase2 0 (node :: q) om vis data = none := by
  rw [phase2]

theorem phase2_cons (fuel : Nat) (node : Trie) (q : List Trie) (om vis : OffMap)
    (data : List Nat) :
    phase2 (fuel + 1) (node :: q) om vis data =
      match offset_map_get om node with
      | none => none
      | some base =>
        match writeEntries node.slots 0 0 base (count_children node) om data vis [] with
        | none => none
        | some (data', vis', newQ) => phase2 fuel (q ++ newQ) om vis' data' := by
  rw [phase2]

/-- Tail entries keyed by a tree larger than every queued node are invisible
to the whole phase-2 BFS. -/
theorem phase2_append (r : Trie) (k j : Nat) :
    ∀ (fuel : Nat) (q : List Trie) (M V : OffMap) (data : List Nat),
    (∀ u ∈ q, sizeOf u < sizeOf r) →
    phase2 fuel q (M ++ [(r, k)]) (V ++ [(r, j)]) data = phase2 fuel q M V data := by
  intro fuel
  induction fuel with
  | zero =>
    intro q M V data hq
    cases q with
    | nil => rw [phase2_nil, phase2_nil]
    | cons u q' => rw [phase2_cons0, phase2_cons0]
  | succ fuel ih =>
    intro q M V data hq
    cases q with
    | nil => rw [phase2_nil, phase2_nil]
    | cons u q' =>
      have hu : sizeOf u < sizeOf r := hq u (List.mem_cons_self _ _)
      have hchild : ∀ c b, (some c, b) ∈ u.slots → sizeOf c < sizeOf r :=
        fun c b hm => Nat.lt_trans (sizeOf_child_lt hm) hu
      rw [phase2_cons, phase2_cons, offset_map_get_append_small r k u hu M]
      cases hget : offset_map_get M u with
      | none => rfl
      | some base =>
        simp only
        rw [writeEntries_append r k j u.slots 0 0 base (count_children u) M data V [] hchild]
        cases hw : writeEntries u.slots 0 0 base (count_children u) M data V [] with
        | none => rfl
        | some p =>
          obtain ⟨d1, v1, a1⟩ := p
          simp only [Option.map_some]
          have ha1 : ∀ c ∈ a1, sizeOf c < sizeOf r := by
            intro c hc
            rcases writeEntries_acc_mem u.slots 0 0 base (count_children u) M data V []
                d1 v1 a1 hw c hc with h | ⟨b, hb⟩
            · exact absurd h (List.not_mem_nil c)
            · exact hchild c b hb
          exact ih (q' ++ a1) M v1 d1
            (fun v hv => (List.mem_append.mp hv).elim
              (fun h => hq v (List.mem_cons_of_mem _ h)) (fun h => ha1 v h))

/-- `dawg_flatten` on `Trie.mk s e` reduces to an expression that does not
mention `e`: the root's own end-of-word flag never reaches the image. -/
theorem dawg_flatten_mk_steps (s : List (Option Trie × Bool)) (e : Bool)
    (M1 : OffMap) (size1 : Nat) (q1 : List Trie)
    (h1 : scanChildren s [] (List.countP (fun x => x.1.isSome) s) = (M1, size1, q1)) :
    dawg_flatten (Trie.mk s e) =
      match phase1 (countSlots s) q1 M1 size1 with
      | none => none
      | some (M2, size2) =>
        match writeEntries s 0 0 0 (List.countP (fun x => x.1.isSome) s) M2
            (List.replicate size2 0) [] [] with
        | none => none
        | some (d1, v1, a1) => phase2 (countSlots s) a1 M2 v1 d1 := by
  have hcc : count_children (Trie.mk s e) = List.countP (fun x => x.1.isSome) s := rfl
  have hfuel : trie_count_nodes (Trie.mk s e) = countSlots s + 1 := by
    rw [trie_count_nodes]
    omega
  have hchild : ∀ c b, (some c, b) ∈ s → sizeOf c < sizeOf (Trie.mk s e) :=
    fun c b hm => sizeOf_lt_mk e hm
  have hq1 : ∀ u ∈ q1, sizeOf u < sizeOf (Trie.mk s e) := by
    intro u hu
    have hu1 : u ∈ (scanChildren s [] (List.countP (fun x => x.1.isSome) s)).2.2 := by
      rw [h1]; exact hu
    obtain ⟨b, hb⟩ := scanChildren_q_mem s _ _ u hu1
    exact hchild u b hb
  simp only [dawg_flatten]
  rw [hfuel, hcc]
  have hom0 : offset_map_put [] (Trie.mk s e) 0 = [] ++ [(Trie.mk s e, 0)] := rfl
  rw [hom0]
  have hscan : scanChildren (Trie.mk s e).slots ([] ++ [(Trie.mk s e, 0)])
      (List.countP (fun x => x.1.isSome) s) = (M1 ++ [(Trie.mk s e, 0)], size1, q1) := by
    rw [slots_mk]
    exact scanChildren_append (Trie.mk s e) 0 s [] _ M1 size1 q1 hchild h1
  rw [phase1_cons, hscan]
  simp only [List.nil_append]
  rw [phase1_append (Trie.mk s e) 0 (countSlots s) q1 M1 size1 hq1]
  cases hp : phase1 (countSlots s) q1 M1 size1 with
  | none => rfl
  | some p =>
    obtain ⟨M2, size2⟩ := p
    have hM1keys : ∀ p ∈ M1, sizeOf p.1 < sizeOf (Trie.mk s e) := by
      intro p hp1
      have hp2 : p ∈ (scanChildren s [] (List.countP (fun x => x.1.isSome) s)).1 := by
        rw [h1]; exact hp1
      rcases scanChildren_om_mem s _ _ p hp2 with h | ⟨b, hb⟩
      · exact absurd h (List.not_mem_nil p)
      · exact hchild p.1 b hb
    have hM2keys : ∀ p ∈ M2, sizeOf p.1 < sizeOf (Trie.mk s e) :=
      phase1_keys (sizeOf (Trie.mk s e)) (countSlots s) q1 M1 size1 M2 size2 hq1 hM1keys hp
    show phase2 (countSlots s + 1) [Trie.mk s e] (M2 ++ [(Trie.mk s e, 0)])
        ([] ++ [(Trie.mk s e, 1)]) (List.replicate size2 0) =
      match writeEntries s 0 0 0 (List.countP (fun x => x.1.isSome) s) M2
          (List.replicate size2 0) [] [] with
      | none => none
      | some (d1, v1, a1) => phase2 (countSlots s) a1 M2 v1 d1
    rw [phase2_cons, offset_map_get_append_root (Trie.mk s e) 0 M2 hM2keys]
    show (match writeEntries s 0 0 0 (List.countP (fun x => x.1.isSome) s)
          (M2 ++ [(Trie.mk s e, 0)]) (List.replicate size2 0)
          ([] ++ [(Trie.mk s e, 1)]) [] with
      | none => none
      | some (data', vis', newQ) =>
          phase2 (countSlots s) ([] ++ newQ) (M2 ++ [(Trie.mk s e, 0)]) vis' data') =
      match writeEntries s 0 0 0 (List.countP (fun x => x.1.isSome) s) M2
          (List.replicate size2 0) [] [] with
      | none => none
      | some (d1, v1, a1) => phase2 (countSlots s) a1 M2 v1 d1
    rw [writeEntries_append (Trie.mk s e) 0 1 s 0 0 0
      (List.countP (fun x => x.1.isSome) s) M2 (List.replicate size2 0) [] [] hchild]
    cases hw : writeEntries s 0 0 0 (List.countP (fun x => x.1.isSome) s) M2
        (List.replicate size2 0) [] [] with
    | none => rfl
    | some p2 =>
      obtain ⟨d1, v1, a1⟩ := p2
      have ha1 : ∀ c ∈ a1, sizeOf c < sizeOf (Trie.mk s e) := by
        intro c hc
        rcases writeEntries_acc_mem s 0 0 0 (List.countP (fun x => x.1.isSome) s) M2
            (List.replicate size2 0) [] [] d1 v1 a1 hw c hc with h | ⟨b, hb⟩
        · exact absurd h (List.not_mem_nil c)
        · exact hchild c b hb
      show phase2 (countSlots s) a1 (M2 ++ [(Trie.mk s e, 0)]) (v1 ++ [(Trie.mk s e, 1)]) d1 =
        phase2 (countSlots s) a1 M2 v1 d1
      exact phase2_append (Trie.mk s e) 0 1 (countSlots s) a1 M2 v1 d1 ha1

/-- The packed image of a DAWG does not depend on the root's own
end-of-word flag. -/
theorem dawg_flatten_eow_irrelevant (s : List (Option Trie × Bool)) (e1 e2 : Bool) :
    dawg_flatten (Trie.mk s e1) = dawg_flatten (Trie.mk s e2) := by
  obtain ⟨⟨M1, size1, q1⟩, h1⟩ : ∃ x,
      scanChildren s [] (List.countP (fun x => x.1.isSome) s) = x := ⟨_, rfl⟩
  rw [dawg_flatten_mk_steps s e1 M1 size1 q1 h1, dawg_flatten_mk_steps s e2 M1 size1 q1 h1]

theorem dawg_compress_fst (s : List (Option Trie × Bool)) (e : Bool) (m : SigMap) :
    (dawg_compress (Trie.mk s e) m).1 = Trie.mk (compressSlots s m).1 e := by
  unfold dawg_compress
  simp only [slots_mk, eow_mk]

/-- C10: inserting the empty string sets only the root's node-terminal flag
(`trie_insert` with the empty word just sets `is_end_of_word` on the node),
and no later phase reads the root's flag: for every word set the packed
image built with the empty string additionally inserted is identical to the
one built without it. -/
theorem C10_empty_word_invisible (t : Trie) (W : List (List Nat)) :
    trie_insert t [] = Trie.mk t.slots true ∧
    dawg_flatten (buildDawg (W ++ [[]])) = dawg_flatten (buildDawg W) := by
  refine ⟨by rw [trie_insert], ?_⟩
  have hb : buildTrie (W ++ [[]]) = Trie.mk (buildTrie W).slots true := by
    rw [buildTrie, List.foldl_append]
    rfl
  have h1 : buildDawg (W ++ [[]]) =
      Trie.mk (compressSlots (moveSlots (buildTrie W).slots) []).1 true := by
    rw [buildDawg, hb, trie_move_eow_to_edges_mk, dawg_compress_fst]
  have h2 : buildDawg W =
      Trie.mk (compressSlots (moveSlots (buildTrie W).slots) []).1 (buildTrie W).eow := by
    rw [buildDawg]
    conv_lhs => rw [← Trie.eta (buildTrie W)]
    rw [trie_move_eow_to_edges_mk, dawg_compress_fst]
  rw [h1, h2]
  exact dawg_flatten_eow_irrelevant _ true (buildTrie W).eow

/-! ### Right languages: membership characterisation of `dawg_words` -/

theorem nil_not_mem_wordsSlots : ∀ (s : List (Option Trie × Bool)) (k : Nat),
    [] ∉ wordsSlots s k
  | [], k => by rw [wordsSlots]; exact List.not_mem_nil _
  | (none, b) :: rest, k => by
    rw [wordsSlots]
    exact nil_not_mem_wordsSlots rest (k + 1)
  | (some c, b) :: rest, k => by
    rw [wordsSlots]
    intro h
    rcases List.mem_append.mp h with h1 | h1
    · rcases List.mem_append.mp h1 with h2 | h2
      · cases b with
        | true => simp at h2
        | false => simp at h2
      · rcases List.mem_map.mp h2 with ⟨w, _, hw⟩
        cases hw
    · exact nil_not_mem_wordsSlots rest (k + 1) h1

theorem nil_not_mem_dawg_words (t : Trie) : [] ∉ dawg_words t := by
  rw [dawg_words_eq_wordsSlots]
  exact nil_not_mem_wordsSlots t.slots 0

theorem mem_wordsSlots_iff : ∀ (s : List (Option Trie × Bool)) (k : Nat) (x : List Nat),
    x ∈ wordsSlots s k ↔ ∃ j c b, s.get? j = some (some c, b) ∧
      ∃ w, x = (k + j) :: w ∧ ((w = [] ∧ b = true) ∨ w ∈ dawg_words c)
  | [], k, x => by
    rw [wordsSlots]
    simp
  | (none, b0) :: rest, k, x => by
    rw [wordsSlots, mem_wordsSlots_iff rest (k + 1) x]
    constructor
    · rintro ⟨j, c, b, hget, w, hx, hw⟩
      exact ⟨j + 1, c, b, by simpa using hget, w, by rw [hx]; congr 1; omega, hw⟩
    · rintro ⟨j, c, b, hget, w, hx, hw⟩
      cases j with
      | zero => simp at hget
      | succ j =>
        exact ⟨j, c, b, by simpa using hget, w, by rw [hx]; congr 1; omega, hw⟩
  | (some c0, b0) :: rest, k, x => by
    rw [wordsSlots]
    constructor
    · intro h
      rcases List.mem_append.mp h with h1 | h1
      · rcases List.mem_append.mp h1 with h2 | h2
        · cases b0 with
          | false => simp at h2
          | true =>
            have hx : x = [k] := by simpa using h2
            exact ⟨0, c0, true, by simp, [], by rw [hx]; simp, Or.inl ⟨rfl, rfl⟩⟩
        · rcases List.mem_map.mp h2 with ⟨w, hwmem, hw⟩
          exact ⟨0, c0, b0, by simp, w, by rw [← hw]; simp, Or.inr hwmem⟩
      · rcases (mem_wordsSlots_iff rest (k + 1) x).mp h1 with ⟨j, c, b, hget, w, hx, hw⟩
        exact ⟨j + 1, c, b, by simpa using hget, w, by rw [hx]; congr 1; omega, hw⟩
    · rintro ⟨j, c, b, hget, w, hx, hw⟩
      cases j with
      | zero =>
        have hcb : c0 = c ∧ b0 = b := by
          have := Option.some.inj hget
          rw [Prod.mk.injEq] at this
          exact ⟨Option.some.inj this.1, this.2⟩
        obtain ⟨rfl, rfl⟩ := hcb
        rcases hw with ⟨rfl, rfl⟩ | hw
        · refine List.mem_append.mpr (Or.inl (List.mem_append.mpr (Or.inl ?_)))
          rw [hx]
          simp
        · refine List.mem_append.mpr (Or.inl (List.mem_append.mpr (Or.inr ?_)))
          refine List.mem_map.mpr ⟨w, hw, ?_⟩
          rw [hx]
          simp
      | succ j =>
        refine List.mem_append.mpr (Or.inr ?_)
        refine (mem_wordsSlots_iff rest (k + 1) x).mpr ⟨j, c, b, by simpa using hget, w, ?_, hw⟩
        rw [hx]
        congr 1
        omega

theorem mem_dawg_words_iff (t : Trie) (x : List Nat) :
    x ∈ dawg_words t ↔ ∃ j c b, t.slots.get? j = some (some c, b) ∧
      ∃ w, x = j :: w ∧ ((w = [] ∧ b = true) ∨ w ∈ dawg_words c) := by
  rw [dawg_words_eq_wordsSlots, mem_wordsSlots_iff]
  simp

/-- Words starting with letter `i`, characterised by the slot at `i`. -/
theorem cons_mem_dawg_words (t : Trie) (i : Nat) (w : List Nat) :
    (i :: w) ∈ dawg_words t ↔ ∃ c b, t.slots.get? i = some (some c, b) ∧
      ((w = [] ∧ b = true) ∨ w ∈ dawg_words c) := by
  rw [mem_dawg_words_iff]
  constructor
  · rintro ⟨j, c, b, hget, w', hx, hw⟩
    rw [List.cons.injEq] at hx
    obtain ⟨rfl, rfl⟩ := hx
    exact ⟨c, b, hget, hw⟩
  · rintro ⟨c, b, hget, hw⟩
    exact ⟨i, c, b, hget, w, rfl, hw⟩

theorem GoodT_child {t c : Trie} {b : Bool} (hg : GoodT t) (h : (some c, b) ∈ t.slots) :
    GoodT c := fun u hu p hp =>
  hg u (subNodes_trans t c u (mem_subNodes_of_child h) hu) p hp

theorem GoodT_self_slots {t : Trie} (hg : GoodT t) : ∀ p ∈ t.slots, edgeOk p :=
  hg t (mem_subNodes_self t)

/-- Under `edgeOk`, a node with children encodes at least one word. -/
theorem words_ne_nil : ∀ (t : Trie), GoodT t → 0 < count_children t →
    dawg_words t ≠ []
  | t => fun hg hcc => by
    rw [count_children] at hcc
    obtain ⟨p, hp, hps⟩ := List.countP_pos.mp hcc
    obtain ⟨c, b, rfl⟩ : ∃ c b, p = (some c, b) := by
      obtain ⟨oc, b⟩ := p
      cases oc with
      | none => simp at hps
      | some c => exact ⟨c, b, rfl⟩
    obtain ⟨j, hget⟩ := List.get?_of_mem hp
    cases b with
    | true =>
      have hmem : (j :: []) ∈ dawg_words t :=
        (cons_mem_dawg_words t j []).mpr ⟨c, true, hget, Or.inl ⟨rfl, rfl⟩⟩
      exact List.ne_nil_of_mem hmem
    | false =>
      have hcok : edgeOk (some c, false) := GoodT_self_slots hg _ hp
      have hccc : 0 < count_children c := by
        by_contra h0
        have := hcok (by omega)
        cases this
      have hwc : dawg_words c ≠ [] := words_ne_nil c (GoodT_child hg hp) hccc
      obtain ⟨w, hwmem⟩ := List.exists_mem_of_ne_nil _ hwc
      have hmem : (j :: w) ∈ dawg_words t :=
        (cons_mem_dawg_words t j w).mpr ⟨c, false, hget, Or.inr hwmem⟩
      exact List.ne_nil_of_mem hmem
termination_by t => sizeOf t
decreasing_by
  simp_wf
  have := sizeOf_lt_of_mem_slots hp
  rw [trie_sizeOf_eq t]
  omega

/-- Distinct signatures: the table is a function from signature to node. -/
theorem sig_unique : ∀ {m : SigMap}, (m.map Prod.fst).Nodup →
    ∀ {s : List (Option Trie × Bool)} {c c' : Trie},
    (s, c) ∈ m → (s, c') ∈ m → c = c' := by
  intro m
  induction m with
  | nil => intro _ s c c' h1; cases h1
  | cons p m ih =>
    intro hk s c c' h1 h2
    rw [List.map_cons, List.nodup_cons] at hk
    rcases List.mem_cons.mp h1 with e1 | e1 <;> rcases List.mem_cons.mp h2 with e2 | e2
    · rw [← e1] at e2
      rw [Prod.mk.injEq] at e2
      exact e2.2.symm
    · exfalso
      rw [← e1] at hk
      exact hk.1 (List.mem_map.mpr ⟨(s, c'), e2, rfl⟩)
    · exfalso
      rw [← e2] at hk
      exact hk.1 (List.mem_map.mpr ⟨(s, c), e1, rfl⟩)
    · exact ih hk.2 e1 e2

theorem subNodes_eq_cons (t : Trie) : subNodes t = t :: subNodesSlots t.slots := by
  cases t with
  | mk s e => simp [subNodes_mk]

/-- Reachability from a canonical node stays canonical. -/
theorem canonical_subNodes {m : SigMap} (hm : MapInv m) :
    ∀ (c : Trie), (c.slots, c) ∈ m → ∀ d ∈ subNodes c, (d.slots, d) ∈ m
  | c => fun hc d hd => by
    rw [subNodes_eq_cons] at hd
    rcases List.mem_cons.mp hd with rfl | hd2
    · exact hc
    · rw [mem_subNodesSlots_iff] at hd2
      obtain ⟨ch, b, hchm, hdch⟩ := hd2
      have hch : (ch.slots, ch) ∈ m := hm.closed _ hc ch b (by simpa using hchm)
      exact canonical_subNodes hm ch hch d hdch
termination_by c => sizeOf c
decreasing_by
  simp_wf
  have := sizeOf_lt_of_mem_slots hchm
  have h2 := trie_sizeOf_eq c
  omega

theorem GoodT_canonical {m : SigMap} (hm : MapInv m) {c : Trie}
    (hc : (c.slots, c) ∈ m) : GoodT c := fun u hu p hp =>
  hm.edges _ (canonical_subNodes hm c hc u hu) p hp

theorem slot_some_iff_words (t : Trie) (hg : GoodT t) (i : Nat) :
    (∃ c b, t.slots.get? i = some (some c, b)) ↔ ∃ w, (i :: w) ∈ dawg_words t := by
  constructor
  · rintro ⟨c, b, hget⟩
    have hmem : (some c, b) ∈ t.slots := List.get?_mem hget
    cases b with
    | true => exact ⟨[], (cons_mem_dawg_words t i []).mpr ⟨c, true, hget, Or.inl ⟨rfl, rfl⟩⟩⟩
    | false =>
      have hcok : edgeOk (some c, false) := GoodT_self_slots hg _ hmem
      have hccc : 0 < count_children c := by
        by_contra h0
        have := hcok (by omega)
        cases this
      have hwc := words_ne_nil c (GoodT_child hg hmem) hccc
      obtain ⟨w, hwmem⟩ := List.exists_mem_of_ne_nil _ hwc
      exact ⟨w, (cons_mem_dawg_words t i w).mpr ⟨c, false, hget, Or.inr hwmem⟩⟩
  · rintro ⟨w, hw⟩
    obtain ⟨c, b, hget, _⟩ := (cons_mem_dawg_words t i w).mp hw
    exact ⟨c, b, hget⟩

theorem flag_iff_single (t : Trie) {c : Trie} {b : Bool} {i : Nat}
    (hget : t.slots.get? i = some (some c, b)) : [i] ∈ dawg_words t ↔ b = true := by
  rw [cons_mem_dawg_words]
  constructor
  · rintro ⟨c', b', hget', h⟩
    rw [hget] at hget'
    have h2 := Option.some.inj hget'
    rw [Prod.mk.injEq] at h2
    obtain ⟨h3, rfl⟩ := h2
    have h4 : c = c' := Option.some.inj h3
    subst h4
    rcases h with ⟨_, hb⟩ | h
    · exact hb
    · exact absurd h (nil_not_mem_dawg_words c)
  · intro hb
    exact ⟨c, b, hget, Or.inl ⟨rfl, hb⟩⟩

theorem cons_mem_words_of_slot (t : Trie) {c : Trie} {b : Bool} {i : Nat} {w : List Nat}
    (hget : t.slots.get? i = some (some c, b)) (hw : w ≠ []) :
    (i :: w) ∈ dawg_words t ↔ w ∈ dawg_words c := by
  rw [cons_mem_dawg_words]
  constructor
  · rintro ⟨c', b', hget', h⟩
    rw [hget] at hget'
    have h2 := Option.some.inj hget'
    rw [Prod.mk.injEq] at h2
    obtain ⟨h3, rfl⟩ := h2
    have h4 : c = c' := Option.some.inj h3
    subst h4
    rcases h with ⟨hnil, _⟩ | h
    · exact absurd hnil hw
    · exact h
  · intro h
    exact ⟨c, b, hget, Or.inr h⟩

/-- Language determinism: two canonical nodes accepting the same suffix set
are the same node. -/
theorem words_inj {m : SigMap} (hm : MapInv m) :
    ∀ (n : Nat) (u v : Trie), sizeOf u + sizeOf v ≤ n →
    (u.slots, u) ∈ m → (v.slots, v) ∈ m →
    (∀ w, w ∈ dawg_words u ↔ w ∈ dawg_words v) → u = v := by
  intro n
  induction n using Nat.strong_induction_on with
  | _ n ih =>
    intro u v hn hu hv hW
    have hgu : GoodT u := GoodT_canonical hm hu
    have hgv : GoodT v := GoodT_canonical hm hv
    have hwfu : wfT u := (hm.good _ hu).2
    have hwfv : wfT v := (hm.good _ hv).2
    have hlu : u.slots.length = 26 := wfT_slots_length hwfu
    have hlv : v.slots.length = 26 := wfT_slots_length hwfv
    have hslots : u.slots = v.slots := by
      apply List.ext
      intro i
      by_cases hi : i < 26
      · obtain ⟨pu, hgu2⟩ : ∃ p, u.slots.get? i = some p :=
          ⟨u.slots.get ⟨i, by omega⟩, List.get?_eq_get (by omega)⟩
        obtain ⟨pv, hgv2⟩ : ∃ p, v.slots.get? i = some p :=
          ⟨v.slots.get ⟨i, by omega⟩, List.get?_eq_get (by omega)⟩
        rw [hgu2, hgv2]
        have hpres : (∃ c b, u.slots.get? i = some (some c, b)) ↔
            (∃ c b, v.slots.get? i = some (some c, b)) := by
          rw [slot_some_iff_words u hgu i, slot_some_iff_words v hgv i]
          constructor
          · rintro ⟨w, hw⟩; exact ⟨w, (hW _).mp hw⟩
          · rintro ⟨w, hw⟩; exact ⟨w, (hW _).mpr hw⟩
        obtain ⟨ocu, bu⟩ := pu
        obtain ⟨ocv, bv⟩ := pv
        cases ocu with
        | none =>
          cases ocv with
          | some cv =>
            exfalso
            obtain ⟨c, b, hgx⟩ := hpres.mpr ⟨cv, bv, hgv2⟩
            rw [hgu2] at hgx
            have h2 := Option.some.inj hgx
            rw [Prod.mk.injEq] at h2
            cases h2.1
          | none =>
            have h1 : edgeOk (none, bu) := GoodT_self_slots hgu _ (List.get?_mem hgu2)
            have h2 : edgeOk (none, bv) := GoodT_self_slots hgv _ (List.get?_mem hgv2)
            have hb1 : bu = false := h1
            have hb2 : bv = false := h2
            rw [hb1, hb2]
        | some cu =>
          cases ocv with
          | none =>
            exfalso
            obtain ⟨c, b, hgx⟩ := hpres.mp ⟨cu, bu, hgu2⟩
            rw [hgv2] at hgx
            have h2 := Option.some.inj hgx
            rw [Prod.mk.injEq] at h2
            cases h2.1
          | some cv =>
            have hbu : [i] ∈ dawg_words u ↔ bu = true := flag_iff_single u hgu2
            have hbv : [i] ∈ dawg_words v ↔ bv = true := flag_iff_single v hgv2
            have hbeq : (bu = true) ↔ (bv = true) := by
              rw [← hbu, ← hbv]
              exact hW [i]
            have hb : bu = bv := by
              cases bu <;> cases bv <;> simp at hbeq ⊢
            have hcw : ∀ w, w ∈ dawg_words cu ↔ w ∈ dawg_words cv := by
              intro w
              by_cases hwn : w = []
              · subst hwn
                constructor <;> intro h <;> exact absurd h (nil_not_mem_dawg_words _)
              · rw [← cons_mem_words_of_slot u hgu2 hwn, ← cons_mem_words_of_slot v hgv2 hwn]
                exact hW (i :: w)
            have hcanu : (cu.slots, cu) ∈ m := hm.closed _ hu cu bu (List.get?_mem hgu2)
            have hcanv : (cv.slots, cv) ∈ m := hm.closed _ hv cv bv (List.get?_mem hgv2)
            have hszu : sizeOf cu < sizeOf u := sizeOf_child_lt (List.get?_mem hgu2)
            have hszv : sizeOf cv < sizeOf v := sizeOf_child_lt (List.get?_mem hgv2)
            have hcc : cu = cv :=
              ih (sizeOf cu + sizeOf cv) (by omega) cu cv (Nat.le_refl _) hcanu hcanv hcw
            rw [hb, hcc]
      · have h1 : u.slots.get? i = none := List.get?_eq_none.mpr (by omega)
        have h2 : v.slots.get? i = none := List.get?_eq_none.mpr (by omega)
        rw [h1, h2]
    have hv2 : (u.slots, v) ∈ m := by rw [hslots]; exact hv
    exact sig_unique hm.keys hu hv2

/-! ### Invariants of the built trie and the edge-rewritten trie -/

theorem mem_subNodes_of_sub {t u : Trie} (h : u ∈ subNodesSlots t.slots) :
    u ∈ subNodes t := by
  rw [subNodes_eq_cons]
  exact List.mem_cons_of_mem _ h

theorem flags_emptyNode : FlagsFalse emptyNode := by
  intro u hu p hp
  rw [subNodes_eq_cons] at hu
  have hsub : subNodesSlots emptyNode.slots = [] := by decide
  rw [hsub] at hu
  rcases List.mem_cons.mp hu with rfl | h
  · have : p ∈ List.replicate 26 ((none : Option Trie), false) := hp
    have := List.eq_of_mem_replicate this
    rw [this]
  · cases h

theorem FlagsFalse_child {t c : Trie} {b : Bool} (ht : FlagsFalse t)
    (h : (some c, b) ∈ t.slots) : FlagsFalse c := fun u hu p hp =>
  ht u (subNodes_trans t c u (mem_subNodes_of_child h) hu) p hp

theorem flags_insert : ∀ (w : List Nat) (t : Trie), FlagsFalse t →
    FlagsFalse (trie_insert t w)
  | [], t => fun ht u hu p hp => by
    rw [trie_insert_nil, subNodes_eq_cons, slots_mk] at hu
    rcases List.mem_cons.mp hu with rfl | h
    · exact ht t (mem_subNodes_self t) p hp
    · exact ht u (mem_subNodes_of_sub h) p hp
  | i :: rest, t => fun ht u hu p hp => by
    rw [trie_insert_cons, subNodes_eq_cons, slots_mk] at hu
    have hgetDmem : i < t.slots.length → t.slots.getD i (none, false) ∈ t.slots := by
      intro hi
      rw [List.getD_eq_get _ _ hi]
      exact List.get_mem t.slots i hi
    have hflag : (t.slots.getD i (none, false)).2 = false := by
      by_cases hi : i < t.slots.length
      · exact ht t (mem_subNodes_self t) _ (hgetDmem hi)
      · rw [List.getD_eq_default _ _ (by omega)]
    have hchild : FlagsFalse ((t.slots.getD i (none, false)).1.getD emptyNode) := by
      cases hoc : (t.slots.getD i (none, false)).1 with
      | none => simpa using flags_emptyNode
      | some c0 =>
        by_cases hi : i < t.slots.length
        · have hmem : t.slots.getD i (none, false) ∈ t.slots := hgetDmem hi
          have he : t.slots.getD i (none, false) =
              (some c0, (t.slots.getD i (none, false)).2) := by
            rw [← hoc]
          rw [he] at hmem
          simpa using FlagsFalse_child ht hmem
        · rw [List.getD_eq_default _ _ (by omega)] at hoc
          cases hoc
    rcases List.mem_cons.mp hu with rfl | h
    · rw [slots_mk] at hp
      rcases List.mem_or_eq_of_mem_set hp with h1 | h1
      · exact ht t (mem_subNodes_self t) p h1
      · rw [h1, hflag]
    · rw [mem_subNodesSlots_iff] at h
      obtain ⟨c, b, hcm, hus⟩ := h
      rcases List.mem_or_eq_of_mem_set hcm with h1 | h1
      · exact ht u (subNodes_trans t c u (mem_subNodes_of_child h1) hus) p hp
      · rw [Prod.mk.injEq] at h1
        have hc : c = trie_insert ((t.slots.getD i (none, false)).1.getD emptyNode) rest :=
          Option.some.inj h1.1
        subst hc
        exact flags_insert rest _ hchild u hus p hp

theorem flags_buildTrie (W : List (List Nat)) : FlagsFalse (buildTrie W) := by
  rw [buildTrie]
  have hgen : ∀ (ws : List (List Nat)) (t : Trie), FlagsFalse t →
      FlagsFalse (ws.foldl trie_insert t) := by
    intro ws
    induction ws with
    | nil => intro t ht; exact ht
    | cons w ws ih =>
      intro t ht
      exact ih _ (flags_insert w t ht)
  exact hgen W emptyNode flags_emptyNode

theorem leafEow_insert : ∀ (w : List Nat) (t : Trie), (∀ c ∈ w, c < 26) → wfT t →
    (∀ u ∈ subNodesSlots t.slots, count_children u = 0 → u.eow = true) →
    ∀ u ∈ subNodes (trie_insert t w), count_children u = 0 → u.eow = true
  | [], t => fun _ _ ht u hu hcc => by
    rw [trie_insert_nil, subNodes_eq_cons, slots_mk] at hu
    rcases List.mem_cons.mp hu with rfl | h
    · rfl
    · exact ht u h hcc
  | i :: rest, t => fun hw hwf ht u hu hcc => by
    have hi : i < 26 := hw i (List.mem_cons_self _ _)
    have hlen : t.slots.length = 26 := wfT_slots_length hwf
    rw [trie_insert_cons, subNodes_eq_cons, slots_mk] at hu
    rcases List.mem_cons.mp hu with rfl | h
    · exfalso
      rw [count_children, slots_mk] at hcc
      have hget : (t.slots.set i
          (some (trie_insert ((t.slots.getD i (none, false)).1.getD emptyNode) rest),
            (t.slots.getD i (none, false)).2)).get? i =
          some (some (trie_insert ((t.slots.getD i (none, false)).1.getD emptyNode) rest),
            (t.slots.getD i (none, false)).2) := by
        rw [List.get?_set_eq_of_lt]
        omega
      have hmem := List.get?_mem hget
      have hps : ((some (trie_insert ((t.slots.getD i (none, false)).1.getD emptyNode) rest),
          (t.slots.getD i (none, false)).2) : Option Trie × Bool).1.isSome = true := rfl
      have hpos : 0 < List.countP (fun s => s.1.isSome) (t.slots.set i
          (some (trie_insert ((t.slots.getD i (none, false)).1.getD emptyNode) rest),
            (t.slots.getD i (none, false)).2)) :=
        List.countP_pos.mpr ⟨_, hmem, hps⟩
      omega
    · rw [mem_subNodesSlots_iff] at h
      obtain ⟨c, b, hcm, hus⟩ := h
      rcases List.mem_or_eq_of_mem_set hcm with h1 | h1
      · have hcsub : u ∈ subNodesSlots t.slots :=
          subNodesSlots_trans t.slots c u
            ((mem_subNodesSlots_iff t.slots c).mpr ⟨c, b, h1, mem_subNodes_self c⟩) hus
        exact ht u hcsub hcc
      · rw [Prod.mk.injEq] at h1
        have hc : c = trie_insert ((t.slots.getD i (none, false)).1.getD emptyNode) rest :=
          Option.some.inj h1.1
        subst hc
        have hwrest : ∀ c2 ∈ rest, c2 < 26 := fun c2 hc2 => hw c2 (List.mem_cons_of_mem _ hc2)
        have hwfchild : wfT ((t.slots.getD i (none, false)).1.getD emptyNode) := by
          cases hoc : (t.slots.getD i (none, false)).1 with
          | none => simpa using wfT_emptyNode
          | some c0 =>
            have hmem : t.slots.getD i (none, false) ∈ t.slots := by
              rw [List.getD_eq_get _ _ (by omega)]
              exact List.get_mem t.slots i (by omega)
            have he : t.slots.getD i (none, false) =
                (some c0, (t.slots.getD i (none, false)).2) := by
              rw [← hoc]
            rw [he] at hmem
            simpa using wfT_child hwf hmem
        have htchild : ∀ v ∈ subNodesSlots ((t.slots.getD i (none, false)).1.getD
            emptyNode).slots, count_children v = 0 → v.eow = true := by
          cases hoc : (t.slots.getD i (none, false)).1 with
          | none =>
            intro v hv
            have hempty : subNodesSlots (emptyNode.slots) = [] := by decide
            have hv2 : v ∈ subNodesSlots emptyNode.slots := hv
            rw [hempty] at hv2
            cases hv2
          | some c0 =>
            intro v hv
            have hmem : t.slots.getD i (none, false) ∈ t.slots := by
              rw [List.getD_eq_get _ _ (by omega)]
              exact List.get_mem t.slots i (by omega)
            have he : t.slots.getD i (none, false) =
                (some c0, (t.slots.getD i (none, false)).2) := by
              rw [← hoc]
            rw [he] at hmem
            have hv0 : v ∈ subNodesSlots c0.slots := by
              simpa using hv
            have hvt : v ∈ subNodesSlots t.slots :=
              subNodesSlots_trans t.slots c0 v
                ((mem_subNodesSlots_iff t.slots c0).mpr
                  ⟨c0, _, hmem, mem_subNodes_self c0⟩)
                (mem_subNodes_of_sub hv0)
            exact ht v hvt
        exact leafEow_insert rest _ hwrest hwfchild htchild u hus hcc

theorem leafEow_buildTrie {W : List (List Nat)} (hW : CleanWords W) :
    ∀ u ∈ subNodesSlots (buildTrie W).slots, count_children u = 0 → u.eow = true := by
  rw [buildTrie]
  have hgen : ∀ (ws : List (List Nat)) (t : Trie), (∀ w ∈ ws, ∀ c ∈ w, c < 26) → wfT t →
      (∀ u ∈ subNodesSlots t.slots, count_children u = 0 → u.eow = true) →
      ∀ u ∈ subNodesSlots (ws.foldl trie_insert t).slots, count_children u = 0 →
        u.eow = true := by
    intro ws
    induction ws with
    | nil => intro t _ _ ht; exact ht
    | cons w ws ih =>
      intro t hlw hwf ht
      have hfull := leafEow_insert w t (hlw w (List.mem_cons_self _ _)) hwf ht
      exact ih (trie_insert t w)
        (fun w2 hw2 => hlw w2 (List.mem_cons_of_mem _ hw2))
        (wfT_trie_insert hwf w)
        (fun u hu hcc => hfull u (mem_subNodes_of_sub hu) hcc)
  refine hgen W emptyNode ?_ wfT_emptyNode ?_
  · intro w hw c hc
    exact (hW w hw).2 c hc
  · intro u hu
    have : subNodesSlots (emptyNode.slots) = [] := by decide
    rw [this] at hu
    cases hu

theorem move_slots (t : Trie) :
    (trie_move_eow_to_edges t).slots = moveSlots t.slots := by
  cases t with
  | mk s e => rw [trie_move_eow_to_edges_mk, slots_mk, slots_mk]

theorem mem_moveSlots_none : ∀ {s : List (Option Trie × Bool)} {b : Bool},
    ((none : Option Trie), b) ∈ moveSlots s → ((none : Option Trie), b) ∈ s := by
  intro s
  induction s with
  | nil => intro b h; rw [moveSlots] at h; cases h
  | cons hd rest ih =>
    intro b h
    match hd with
    | (none, b0) =>
      rw [moveSlots_cons_none] at h
      rcases List.mem_cons.mp h with h1 | h1
      · rw [h1]
        exact List.mem_cons_self _ _
      · exact List.mem_cons_of_mem _ (ih h1)
    | (some c0, b0) =>
      rw [moveSlots_cons_some] at h
      rcases List.mem_cons.mp h with h1 | h1
      · rw [Prod.mk.injEq] at h1
        cases h1.1
      · exact List.mem_cons_of_mem _ (ih h1)

theorem mem_moveSlots_some : ∀ {s : List (Option Trie × Bool)} {c' : Trie} {b' : Bool},
    (some c', b') ∈ moveSlots s →
    ∃ c b, (some c, b) ∈ s ∧ c' = trie_move_eow_to_edges c ∧ b' = c.eow := by
  intro s
  induction s with
  | nil => intro c' b' h; rw [moveSlots] at h; cases h
  | cons hd rest ih =>
    intro c' b' h
    match hd with
    | (none, b0) =>
      rw [moveSlots_cons_none] at h
      rcases List.mem_cons.mp h with h1 | h1
      · rw [Prod.mk.injEq] at h1
        cases h1.1
      · obtain ⟨c, b, hm, hc, hb⟩ := ih h1
        exact ⟨c, b, List.mem_cons_of_mem _ hm, hc, hb⟩
    | (some c0, b0) =>
      rw [moveSlots_cons_some] at h
      rcases List.mem_cons.mp h with h1 | h1
      · rw [Prod.mk.injEq] at h1
        exact ⟨c0, b0, List.mem_cons_self _ _, Option.some.inj h1.1, h1.2⟩
      · obtain ⟨c, b, hm, hc, hb⟩ := ih h1
        exact ⟨c, b, List.mem_cons_of_mem _ hm, hc, hb⟩

theorem countP_moveSlots : ∀ s : List (Option Trie × Bool),
    List.countP (fun p => p.1.isSome) (moveSlots s) =
      List.countP (fun p => p.1.isSome) s
  | [] => by rw [moveSlots]
  | (none, b) :: rest => by
    rw [moveSlots_cons_none, List.countP_cons, List.countP_cons, countP_moveSlots rest]
  | (some c, b) :: rest => by
    rw [moveSlots_cons_some, List.countP_cons, List.countP_cons, countP_moveSlots rest]
    simp

theorem cc_move (t : Trie) :
    count_children (trie_move_eow_to_edges t) = count_children t := by
  rw [count_children, count_children, move_slots]
  exact countP_moveSlots t.slots

mutual
theorem mem_subNodes_move : ∀ (t u' : Trie), u' ∈ subNodes (trie_move_eow_to_edges t) →
    ∃ u, u ∈ subNodes t ∧ u' = trie_move_eow_to_edges u
  | .mk s e, u' => fun h => by
    rw [trie_move_eow_to_edges_mk, subNodes_eq_cons, slots_mk] at h
    rcases List.mem_cons.mp h with rfl | h1
    · exact ⟨.mk s e, mem_subNodes_self _, (trie_move_eow_to_edges_mk s e).symm⟩
    · obtain ⟨u, hu, hu'⟩ := mem_subNodesSlots_move s u' h1
      exact ⟨u, mem_subNodes_of_sub (by simpa using hu), hu'⟩
theorem mem_subNodesSlots_move : ∀ (s : List (Option Trie × Bool)) (u' : Trie),
    u' ∈ subNodesSlots (moveSlots s) →
    ∃ u, u ∈ subNodesSlots s ∧ u' = trie_move_eow_to_edges u
  | [], u' => fun h => by rw [moveSlots, subNodesSlots] at h; cases h
  | (none, b) :: rest, u' => fun h => by
    rw [moveSlots_cons_none, subNodesSlots] at h
    obtain ⟨u, hu, hu'⟩ := mem_subNodesSlots_move rest u' h
    rw [subNodesSlots]
    exact ⟨u, hu, hu'⟩
  | (some c, b) :: rest, u' => fun h => by
    rw [moveSlots_cons_some, subNodesSlots] at h
    rw [subNodesSlots]
    rcases List.mem_append.mp h with h1 | h1
    · obtain ⟨u, hu, hu'⟩ := mem_subNodes_move c u' h1
      exact ⟨u, List.mem_append.mpr (Or.inl hu), hu'⟩
    · obtain ⟨u, hu, hu'⟩ := mem_subNodesSlots_move rest u' h1
      exact ⟨u, List.mem_append.mpr (Or.inr hu), hu'⟩
end

/-- The edge-rewritten built trie satisfies the slot invariant `edgeOk`. -/
theorem GoodT_moved {W : List (List Nat)} (hW : CleanWords W) :
    GoodT (trie_move_eow_to_edges (buildTrie W)) := by
  intro u' hu' p hp
  obtain ⟨u, hu, rfl⟩ := mem_subNodes_move (buildTrie W) u' hu'
  rw [move_slots] at hp
  obtain ⟨oc, b'⟩ := p
  cases oc with
  | none =>
    have h1 : ((none : Option Trie), b') ∈ u.slots := mem_moveSlots_none hp
    have h2 : b' = false := flags_buildTrie W u hu _ h1
    rw [h2]
    rfl
  | some c' =>
    obtain ⟨c, b, hcm, rfl, rfl⟩ := mem_moveSlots_some hp
    intro hcc
    have hccc : count_children c = 0 := by rw [← cc_move c]; exact hcc
    have hcsub : c ∈ subNodesSlots (buildTrie W).slots := by
      rw [subNodes_eq_cons] at hu
      rcases List.mem_cons.mp hu with rfl | h2
      · exact (mem_subNodesSlots_iff _ c).mpr ⟨c, b, hcm, mem_subNodes_self c⟩
      · exact subNodesSlots_trans _ u c h2 (mem_subNodes_of_child hcm)
    exact leafEow_buildTrie hW c hcsub hccc

/-! ### The signature table through compression: monotonicity, canonical
outputs, invariant preservation, origin and completeness of languages -/

mutual
theorem compressNode_mono : ∀ (t : Trie) (m : SigMap)
    (p : List (Option Trie × Bool) × Trie), p ∈ m → p ∈ (dawg_compress_node t m).2
  | .mk s e => fun m p hp => by
    rw [dawg_compress_node_eq]
    unfold hashmap_find_or_insert
    simp only [slots_mk]
    cases hlk : lookupSig (compressSlots s m).2 (compressSlots s m).1 with
    | some c0 => exact compressSlots_mono s m p hp
    | none => exact List.mem_cons_of_mem _ (compressSlots_mono s m p hp)
theorem compressSlots_mono : ∀ (s : List (Option Trie × Bool)) (m : SigMap)
    (p : List (Option Trie × Bool) × Trie), p ∈ m → p ∈ (compressSlots s m).2
  | [], m => fun p hp => by rw [compressSlots_nil]; exact hp
  | (none, b) :: rest, m => fun p hp => by
    rw [compressSlots_cons_none]
    exact compressSlots_mono rest m p hp
  | (some c, b) :: rest, m => fun p hp => by
    rw [compressSlots_cons_some]
    exact compressSlots_mono rest _ p (compressNode_mono c m p hp)
end

theorem countP_corr : ∀ {s s' : List (Option Trie × Bool)}, List.Forall₂ SlotCorr s s' →
    List.countP (fun p => p.1.isSome) s' = List.countP (fun p => p.1.isSome) s := by
  intro s s' h
  induction h with
  | nil => rfl
  | cons hpq _ ih =>
    rw [List.countP_cons, List.countP_cons, ih]
    rcases hpq.2 with ⟨h1, h2⟩ | ⟨c, c', h1, h2, _, _⟩
    · rw [h1, h2]
    · rw [h1, h2]
      simp

theorem lookupSig_none : ∀ {m : SigMap} {sig : List (Option Trie × Bool)},
    lookupSig m sig = none → ∀ p ∈ m, p.1 ≠ sig := by
  intro m
  induction m with
  | nil => intro sig _ p hp; cases hp
  | cons q m ih =>
    intro sig hlk p hp
    obtain ⟨s0, c0⟩ := q
    rw [lookupSig] at hlk
    by_cases he : s0 = sig
    · rw [if_pos he] at hlk; cases hlk
    · rw [if_neg he] at hlk
      rcases List.mem_cons.mp hp with rfl | hp2
      · exact he
      · exact ih hlk p hp2

theorem MapInv_nil : MapInv [] :=
  ⟨fun p hp => absurd hp (List.not_mem_nil p), List.nodup_nil,
    fun p hp => absurd hp (List.not_mem_nil p), fun p hp => absurd hp (List.not_mem_nil p)⟩

mutual
/-- Compressing a node preserves the table invariant, returns a canonical
node with the same child count and the same word list. -/
theorem compressNode_inv : ∀ (t : Trie) (m : SigMap), MapInv m → wfT t → GoodT t →
    MapInv (dawg_compress_node t m).2 ∧
    (((dawg_compress_node t m).1).slots, (dawg_compress_node t m).1) ∈
      (dawg_compress_node t m).2 ∧
    count_children (dawg_compress_node t m).1 = count_children t ∧
    dawg_words (dawg_compress_node t m).1 = dawg_words t
  | .mk s e => fun m hm hwf hgood => by
    have hch : ∀ c b, (some c, b) ∈ s → wfT c := fun c b hmem =>
      wfT_child hwf (by simpa using hmem)
    have hgch : ∀ c b, (some c, b) ∈ s → GoodT c := fun c b hmem =>
      GoodT_child hgood (by simpa using hmem)
    have hedgeS : ∀ p ∈ s, edgeOk p := fun p hp =>
      GoodT_self_slots hgood p (by simpa using hp)
    obtain ⟨hm1, hcorr, hcanon, hedge'⟩ := compressSlots_inv s m hm hch hgch hedgeS
    obtain ⟨hm1', hmap, hch', hwords⟩ := compressSlots_spec s m hm.good hch
    have hccpre : List.countP (fun p => p.1.isSome) (compressSlots s m).1 =
        List.countP (fun p => p.1.isSome) s := countP_corr hcorr
    rw [dawg_compress_node_eq]
    unfold hashmap_find_or_insert
    simp only [slots_mk]
    cases hlk : lookupSig (compressSlots s m).2 (compressSlots s m).1 with
    | some c0 =>
      have hc0 : ((compressSlots s m).1, c0) ∈ (compressSlots s m).2 := lookupSig_mem hlk
      have hc0s : c0.slots = (compressSlots s m).1 := (hm1.good _ hc0).1
      refine ⟨hm1, ?_, ?_, ?_⟩
      · rw [hc0s]
        exact hc0
      · rw [count_children, count_children, slots_mk, hc0s]
        exact hccpre
      · rw [dawg_words_eq_wordsSlots, hc0s, dawg_words_eq_wordsSlots, slots_mk]
        exact hwords 0
    | none =>
      have hnotin : ∀ p ∈ (compressSlots s m).2, p.1 ≠ (compressSlots s m).1 :=
        lookupSig_none hlk
      have hwfnode : wfT (Trie.mk (compressSlots s m).1 e) := by
        rw [wfT_mk_iff]
        constructor
        · have hl := List.Forall₂.length_eq hcorr
          have := wfT_slots_length hwf
          simp only [slots_mk] at this
          omega
        · exact hch'
      refine ⟨?_, ?_, ?_, ?_⟩
      · refine ⟨?_, ?_, ?_, ?_⟩
        · intro p hp
          rcases List.mem_cons.mp hp with rfl | hp2
          · exact ⟨rfl, hwfnode⟩
          · exact hm1.good p hp2
        · rw [List.map_cons]
          refine List.nodup_cons.mpr ⟨?_, hm1.keys⟩
          intro hmem
          obtain ⟨p, hp, hp1⟩ := List.mem_map.mp hmem
          exact hnotin p hp hp1
        · intro p hp c b hcb
          rcases List.mem_cons.mp hp with rfl | hp2
          · simp only [slots_mk] at hcb
            exact List.mem_cons_of_mem _ (hcanon c b hcb)
          · exact List.mem_cons_of_mem _ (hm1.closed p hp2 c b hcb)
        · intro p hp q hq
          rcases List.mem_cons.mp hp with rfl | hp2
          · simp only [slots_mk] at hq
            exact hedge' q hq
          · exact hm1.edges p hp2 q hq
      · exact List.mem_cons_self _ _
      · rw [count_children, count_children, slots_mk, slots_mk]
        exact hccpre
      · rw [dawg_words_eq_wordsSlots, dawg_words_eq_wordsSlots, slots_mk, slots_mk]
        exact hwords 0

/-- Compressing a slot list preserves the table invariant; the produced
slots correspond pointwise, their children are canonical, and `edgeOk`
carries over. -/
theorem compressSlots_inv : ∀ (s : List (Option Trie × Bool)) (m : SigMap), MapInv m →
    (∀ c b, (some c, b) ∈ s → wfT c) → (∀ c b, (some c, b) ∈ s → GoodT c) →
    (∀ p ∈ s, edgeOk p) →
    MapInv (compressSlots s m).2 ∧
    List.Forall₂ SlotCorr s (compressSlots s m).1 ∧
    (∀ c' b, (some c', b) ∈ (compressSlots s m).1 →
      ((c' : Trie).slots, c') ∈ (compressSlots s m).2) ∧
    (∀ p ∈ (compressSlots s m).1, edgeOk p)
  | [], m => fun hm _ _ _ => by
    rw [compressSlots_nil]
    exact ⟨hm, List.Forall₂.nil, fun c' b h => absurd h (List.not_mem_nil _),
      fun p hp => absurd hp (List.not_mem_nil p)⟩
  | (none, b) :: rest, m => fun hm hch hgch hedge => by
    rw [compressSlots_cons_none]
    obtain ⟨hm1, hcorr, hcanon, hedge'⟩ := compressSlots_inv rest m hm
      (fun c b2 hmem => hch c b2 (List.mem_cons_of_mem _ hmem))
      (fun c b2 hmem => hgch c b2 (List.mem_cons_of_mem _ hmem))
      (fun p hp => hedge p (List.mem_cons_of_mem _ hp))
    refine ⟨hm1, List.Forall₂.cons ⟨rfl, Or.inl ⟨rfl, rfl⟩⟩ hcorr, ?_, ?_⟩
    · intro c' b2 hcb
      rcases List.mem_cons.mp hcb with h1 | h1
      · rw [Prod.mk.injEq] at h1
        cases h1.1
      · exact hcanon c' b2 h1
    · intro p hp
      rcases List.mem_cons.mp hp with rfl | h1
      · exact hedge _ (List.mem_cons_self _ _)
      · exact hedge' p h1
  | (some c, b) :: rest, m => fun hm hch hgch hedge => by
    rw [compressSlots_cons_some]
    have hwfc : wfT c := hch c b (List.mem_cons_self _ _)
    have hgc : GoodT c := hgch c b (List.mem_cons_self _ _)
    obtain ⟨hmA, hcanonA, hccA, hwordsA⟩ := compressNode_inv c m hm hwfc hgc
    obtain ⟨hm1, hcorr, hcanon, hedge'⟩ := compressSlots_inv rest (dawg_compress_node c m).2
      hmA
      (fun c2 b2 hmem => hch c2 b2 (List.mem_cons_of_mem _ hmem))
      (fun c2 b2 hmem => hgch c2 b2 (List.mem_cons_of_mem _ hmem))
      (fun p hp => hedge p (List.mem_cons_of_mem _ hp))
    refine ⟨hm1, ?_, ?_, ?_⟩
    · refine List.Forall₂.cons ⟨rfl, Or.inr ⟨c, (dawg_compress_node c m).1, rfl, rfl,
        hccA, hwordsA⟩⟩ hcorr
    · intro c' b2 hcb
      rcases List.mem_cons.mp hcb with h1 | h1
      · rw [Prod.mk.injEq] at h1
        have hc' : c' = (dawg_compress_node c m).1 := Option.some.inj h1.1
        subst hc'
        exact compressSlots_mono rest _ _ hcanonA
      · exact hcanon c' b2 h1
    · intro p hp
      rcases List.mem_cons.mp hp with rfl | h1
      · have hin : edgeOk (some c, b) := hedge _ (List.mem_cons_self _ _)
        intro hcc0
        exact hin (by omega)
      · exact hedge' p h1
end

mutual
/-- Every table entry after compressing a node is an old entry or shares its
word list with a subtree of the node. -/
theorem compressNode_origin : ∀ (t : Trie) (m : SigMap), MapInv m → wfT t → GoodT t →
    ∀ p ∈ (dawg_compress_node t m).2,
      p ∈ m ∨ ∃ u ∈ subNodes t, dawg_words p.2 = dawg_words u
  | .mk s e => fun m hm hwf hgood p hp => by
    have hch : ∀ c b, (some c, b) ∈ s → wfT c := fun c b hmem =>
      wfT_child hwf (by simpa using hmem)
    have hgch : ∀ c b, (some c, b) ∈ s → GoodT c := fun c b hmem =>
      GoodT_child hgood (by simpa using hmem)
    obtain ⟨hm1', hmap, hch', hwords⟩ := compressSlots_spec s m hm.good hch
    have hsub : ∀ u ∈ subNodesSlots s, u ∈ subNodes (Trie.mk s e) := by
      intro u hu
      rw [subNodes_eq_cons, slots_mk]
      exact List.mem_cons_of_mem _ hu
    rw [dawg_compress_node_eq] at hp
    unfold hashmap_find_or_insert at hp
    simp only [slots_mk] at hp
    cases hlk : lookupSig (compressSlots s m).2 (compressSlots s m).1 with
    | some c0 =>
      rw [hlk] at hp
      simp only at hp
      rcases compressSlots_origin s m hm hch hgch p hp with h | ⟨u, hu, hw⟩
      · exact Or.inl h
      · exact Or.inr ⟨u, hsub u hu, hw⟩
    | none =>
      rw [hlk] at hp
      simp only at hp
      rcases List.mem_cons.mp hp with h1 | h1
      · refine Or.inr ⟨Trie.mk s e, mem_subNodes_self _, ?_⟩
        rw [h1]
        simp only
        rw [dawg_words_eq_wordsSlots, dawg_words_eq_wordsSlots, slots_mk, slots_mk]
        exact hwords 0
      · rcases compressSlots_origin s m hm hch hgch p h1 with h | ⟨u, hu, hw⟩
        · exact Or.inl h
        · exact Or.inr ⟨u, hsub u hu, hw⟩

theorem compressSlots_origin : ∀ (s : List (Option Trie × Bool)) (m : SigMap), MapInv m →
    (∀ c b, (some c, b) ∈ s → wfT c) → (∀ c b, (some c, b) ∈ s → GoodT c) →
    ∀ p ∈ (compressSlots s m).2,
      p ∈ m ∨ ∃ u ∈ subNodesSlots s, dawg_words p.2 = dawg_words u
  | [], m => fun _ _ _ p hp => by
    rw [compressSlots_nil] at hp
    exact Or.inl hp
  | (none, b) :: rest, m => fun hm hch hgch p hp => by
    rw [compressSlots_cons_none] at hp
    rcases compressSlots_origin rest m hm
      (fun c b2 hmem => hch c b2 (List.mem_cons_of_mem _ hmem))
      (fun c b2 hmem => hgch c b2 (List.mem_cons_of_mem _ hmem)) p hp with h | ⟨u, hu, hw⟩
    · exact Or.inl h
    · refine Or.inr ⟨u, ?_, hw⟩
      rw [subNodesSlots]
      exact hu
  | (some c, b) :: rest, m => fun hm hch hgch p hp => by
    rw [compressSlots_cons_some] at hp
    have hwfc : wfT c := hch c b (List.mem_cons_self _ _)
    have hgc : GoodT c := hgch c b (List.mem_cons_self _ _)
    have hmA : MapInv (dawg_compress_node c m).2 := (compressNode_inv c m hm hwfc hgc).1
    rcases compressSlots_origin rest (dawg_compress_node c m).2 hmA
      (fun c2 b2 hmem => hch c2 b2 (List.mem_cons_of_mem _ hmem))
      (fun c2 b2 hmem => hgch c2 b2 (List.mem_cons_of_mem _ hmem)) p hp with h | ⟨u, hu, hw⟩
    · rcases compressNode_origin c m hm hwfc hgc p h with h2 | ⟨u, hu, hw⟩
      · exact Or.inl h2
      · refine Or.inr ⟨u, ?_, hw⟩
        rw [subNodesSlots]
        exact List.mem_append.mpr (Or.inl hu)
    · refine Or.inr ⟨u, ?_, hw⟩
      rw [subNodesSlots]
      exact List.mem_append.mpr (Or.inr hu)
end

mutual
/-- Every subtree's word list is represented by some table entry after
compression. -/
theorem compressNode_complete : ∀ (t : Trie) (m : SigMap), MapInv m → wfT t → GoodT t →
    ∀ u ∈ subNodes t, ∃ p ∈ (dawg_compress_node t m).2, dawg_words p.2 = dawg_words u
  | .mk s e => fun m hm hwf hgood u hu => by
    have hch : ∀ c b, (some c, b) ∈ s → wfT c := fun c b hmem =>
      wfT_child hwf (by simpa using hmem)
    have hgch : ∀ c b, (some c, b) ∈ s → GoodT c := fun c b hmem =>
      GoodT_child hgood (by simpa using hmem)
    rw [subNodes_eq_cons, slots_mk] at hu
    rcases List.mem_cons.mp hu with rfl | h1
    · obtain ⟨_, hcanon, _, hwordseq⟩ := compressNode_inv (Trie.mk s e) m hm hwf hgood
      exact ⟨_, hcanon, hwordseq⟩
    · obtain ⟨p, hp, hw⟩ := compressSlots_complete s m hm hch hgch u h1
      refine ⟨p, ?_, hw⟩
      rw [dawg_compress_node_eq]
      unfold hashmap_find_or_insert
      simp only [slots_mk]
      cases hlk : lookupSig (compressSlots s m).2 (compressSlots s m).1 with
      | some c0 => exact hp
      | none => exact List.mem_cons_of_mem _ hp

theorem compressSlots_complete : ∀ (s : List (Option Trie × Bool)) (m : SigMap), MapInv m →
    (∀ c b, (some c, b) ∈ s → wfT c) → (∀ c b, (some c, b) ∈ s → GoodT c) →
    ∀ u ∈ subNodesSlots s, ∃ p ∈ (compressSlots s m).2, dawg_words p.2 = dawg_words u
  | [], m => fun _ _ _ u hu => by
    rw [subNodesSlots] at hu
    cases hu
  | (none, b) :: rest, m => fun hm hch hgch u hu => by
    rw [subNodesSlots] at hu
    obtain ⟨p, hp, hw⟩ := compressSlots_complete rest m hm
      (fun c b2 hmem => hch c b2 (List.mem_cons_of_mem _ hmem))
      (fun c b2 hmem => hgch c b2 (List.mem_cons_of_mem _ hmem)) u hu
    refine ⟨p, ?_, hw⟩
    rw [compressSlots_cons_none]
    exact hp
  | (some c, b) :: rest, m => fun hm hch hgch u hu => by
    rw [subNodesSlots] at hu
    have hwfc : wfT c := hch c b (List.mem_cons_self _ _)
    have hgc : GoodT c := hgch c b (List.mem_cons_self _ _)
    have hmA : MapInv (dawg_compress_node c m).2 := (compressNode_inv c m hm hwfc hgc).1
    rcases List.mem_append.mp hu with h1 | h1
    · obtain ⟨p, hp, hw⟩ := compressNode_complete c m hm hwfc hgc u h1
      refine ⟨p, ?_, hw⟩
      rw [compressSlots_cons_some]
      exact compressSlots_mono rest _ p hp
    · obtain ⟨p, hp, hw⟩ := compressSlots_complete rest (dawg_compress_node c m).2 hmA
        (fun c2 b2 hmem => hch c2 b2 (List.mem_cons_of_mem _ hmem))
        (fun c2 b2 hmem => hgch c2 b2 (List.mem_cons_of_mem _ hmem)) u h1
      refine ⟨p, ?_, hw⟩
      rw [compressSlots_cons_some]
      exact hp
end

mutual
/-- Every table entry after compression is an old entry or reachable from
the compressed output. -/
theorem compressNode_reach : ∀ (t : Trie) (m : SigMap), MapInv m → wfT t → GoodT t →
    ∀ p ∈ (dawg_compress_node t m).2,
      p ∈ m ∨ p.2 ∈ subNodes (dawg_compress_node t m).1
  | .mk s e => fun m hm hwf hgood p hp => by
    have hch : ∀ c b, (some c, b) ∈ s → wfT c := fun c b hmem =>
      wfT_child hwf (by simpa using hmem)
    have hgch : ∀ c b, (some c, b) ∈ s → GoodT c := fun c b hmem =>
      GoodT_child hgood (by simpa using hmem)
    rw [dawg_compress_node_eq] at hp ⊢
    unfold hashmap_find_or_insert at hp ⊢
    simp only [slots_mk] at hp ⊢
    cases hlk : lookupSig (compressSlots s m).2 (compressSlots s m).1 with
    | some c0 =>
      rw [hlk] at hp
      simp only at hp ⊢
      have hc0 : ((compressSlots s m).1, c0) ∈ (compressSlots s m).2 := lookupSig_mem hlk
      have hc0s : c0.slots = (compressSlots s m).1 :=
        ((compressSlots_inv s m hm hch hgch
          (fun q hq => GoodT_self_slots hgood q (by simpa using hq))).1.good _ hc0).1
      rcases compressSlots_reach s m hm hch hgch p hp with h | h
      · exact Or.inl h
      · refine Or.inr ?_
        rw [subNodes_eq_cons, hc0s]
        exact List.mem_cons_of_mem _ h
    | none =>
      rw [hlk] at hp
      simp only at hp ⊢
      rcases List.mem_cons.mp hp with h1 | h1
      · refine Or.inr ?_
        rw [h1]
        exact mem_subNodes_self _
      · rcases compressSlots_reach s m hm hch hgch p h1 with h | h
        · exact Or.inl h
        · refine Or.inr ?_
          rw [subNodes_eq_cons, slots_mk]
          exact List.mem_cons_of_mem _ h

theorem compressSlots_reach : ∀ (s : List (Option Trie × Bool)) (m : SigMap), MapInv m →
    (∀ c b, (some c, b) ∈ s → wfT c) → (∀ c b, (some c, b) ∈ s → GoodT c) →
    ∀ p ∈ (compressSlots s m).2,
      p ∈ m ∨ p.2 ∈ subNodesSlots (compressSlots s m).1
  | [], m => fun _ _ _ p hp => by
    rw [compressSlots_nil] at hp
    exact Or.inl hp
  | (none, b) :: rest, m => fun hm hch hgch p hp => by
    rw [compressSlots_cons_none] at hp
    rcases compressSlots_reach rest m hm
      (fun c b2 hmem => hch c b2 (List.mem_cons_of_mem _ hmem))
      (fun c b2 hmem => hgch c b2 (List.mem_cons_of_mem _ hmem)) p hp with h | h
    · exact Or.inl h
    · refine Or.inr ?_
      rw [compressSlots_cons_none, subNodesSlots]
      exact h
  | (some c, b) :: rest, m => fun hm hch hgch p hp => by
    rw [compressSlots_cons_some] at hp
    have hwfc : wfT c := hch c b (List.mem_cons_self _ _)
    have hgc : GoodT c := hgch c b (List.mem_cons_self _ _)
    have hmA : MapInv (dawg_compress_node c m).2 := (compressNode_inv c m hm hwfc hgc).1
    rcases compressSlots_reach rest (dawg_compress_node c m).2 hmA
      (fun c2 b2 hmem => hch c2 b2 (List.mem_cons_of_mem _ hmem))
      (fun c2 b2 hmem => hgch c2 b2 (List.mem_cons_of_mem _ hmem)) p hp with h | h
    · rcases compressNode_reach c m hm hwfc hgc p h with h2 | h2
      · exact Or.inl h2
      · refine Or.inr ?_
        rw [compressSlots_cons_some, subNodesSlots]
        exact List.mem_append.mpr (Or.inl h2)
    · refine Or.inr ?_
      rw [compressSlots_cons_some, subNodesSlots]
      exact List.mem_append.mpr (Or.inr h)
end

/-- Every non-root reachable node of the compressed DAWG is canonical. -/
theorem subNodesSlots_canonical {m : SigMap} (hm : MapInv m)
    {S : List (Option Trie × Bool)}
    (hS : ∀ c' b, (some c', b) ∈ S → ((c' : Trie).slots, c') ∈ m) :
    ∀ d ∈ subNodesSlots S, (d.slots, d) ∈ m := by
  intro d hd
  rw [mem_subNodesSlots_iff] at hd
  obtain ⟨c', b, hc', hdc⟩ := hd
  exact canonical_subNodes hm c' (hS c' b hc') d hdc

/-- C6: after compression the number of distinct reachable non-root DAWG
nodes equals the number of distinct right languages among the rewritten
trie's non-root nodes; all childless reachable nodes are one canonical
sink, and any two reachable non-root nodes accepting the same suffix set
are the same node. -/
theorem C6_minimality (W : List (List Nat)) (hW : CleanWords W) :
    (subNodesSlots (buildDawg W).slots).dedup.length =
      ((subNodesSlots (trie_move_eow_to_edges (buildTrie W)).slots).map
        (fun u => (dawg_words u).toFinset)).dedup.length ∧
    (∀ u ∈ subNodesSlots (buildDawg W).slots, ∀ v ∈ subNodesSlots (buildDawg W).slots,
      count_children u = 0 → count_children v = 0 → u = v) ∧
    (∀ u ∈ subNodesSlots (buildDawg W).slots, ∀ v ∈ subNodesSlots (buildDawg W).slots,
      (∀ w, w ∈ dawg_words u ↔ w ∈ dawg_words v) → u = v) := by
  have hwfR : wfT (trie_move_eow_to_edges (buildTrie W)) :=
    wfT_moveEow _ (wfT_buildTrie W)
  have hgR : GoodT (trie_move_eow_to_edges (buildTrie W)) := GoodT_moved hW
  have hchR : ∀ c b, (some c, b) ∈ (trie_move_eow_to_edges (buildTrie W)).slots → wfT c :=
    fun c b h => wfT_child hwfR h
  have hgchR : ∀ c b, (some c, b) ∈ (trie_move_eow_to_edges (buildTrie W)).slots →
      GoodT c := fun c b h => GoodT_child hgR h
  have hedgeR : ∀ p ∈ (trie_move_eow_to_edges (buildTrie W)).slots, edgeOk p :=
    GoodT_self_slots hgR
  obtain ⟨hmfin, hcorr, hcanonS, hedgeS⟩ :=
    compressSlots_inv (trie_move_eow_to_edges (buildTrie W)).slots [] MapInv_nil
      hchR hgchR hedgeR
  have hD : buildDawg W = Trie.mk
      ((compressSlots (trie_move_eow_to_edges (buildTrie W)).slots []).1)
      (trie_move_eow_to_edges (buildTrie W)).eow := by
    rw [buildDawg]
    conv_lhs => rw [← Trie.eta (trie_move_eow_to_edges (buildTrie W))]
    rw [dawg_compress_fst]
  rw [hD, slots_mk]
  have hcanond : ∀ d ∈ subNodesSlots
      ((compressSlots (trie_move_eow_to_edges (buildTrie W)).slots []).1),
      (d.slots, d) ∈ (compressSlots (trie_move_eow_to_edges (buildTrie W)).slots []).2 :=
    subNodesSlots_canonical hmfin hcanonS
  have hinj : ∀ u ∈ subNodesSlots
      ((compressSlots (trie_move_eow_to_edges (buildTrie W)).slots []).1),
      ∀ v ∈ subNodesSlots
        ((compressSlots (trie_move_eow_to_edges (buildTrie W)).slots []).1),
      (∀ w, w ∈ dawg_words u ↔ w ∈ dawg_words v) → u = v := by
    intro u hu v hv hww
    exact words_inj hmfin (sizeOf u + sizeOf v) u v (Nat.le_refl _)
      (hcanond u hu) (hcanond v hv) hww
  refine ⟨?_, ?_, hinj⟩
  · have hsub : ∀ d ∈ subNodesSlots
        ((compressSlots (trie_move_eow_to_edges (buildTrie W)).slots []).1),
        ∃ u ∈ subNodesSlots (trie_move_eow_to_edges (buildTrie W)).slots,
          dawg_words d = dawg_words u := by
      intro d hd
      rcases compressSlots_origin (trie_move_eow_to_edges (buildTrie W)).slots []
          MapInv_nil hchR hgchR (d.slots, d) (hcanond d hd) with h | ⟨u, hu, hw⟩
      · exact absurd h (List.not_mem_nil _)
      · exact ⟨u, hu, hw⟩
    have hsup : ∀ u ∈ subNodesSlots (trie_move_eow_to_edges (buildTrie W)).slots,
        ∃ d ∈ subNodesSlots
          ((compressSlots (trie_move_eow_to_edges (buildTrie W)).slots []).1),
          dawg_words d = dawg_words u := by
      intro u hu
      obtain ⟨p, hp, hw⟩ := compressSlots_complete
        (trie_move_eow_to_edges (buildTrie W)).slots [] MapInv_nil hchR hgchR u hu
      rcases compressSlots_reach (trie_move_eow_to_edges (buildTrie W)).slots []
          MapInv_nil hchR hgchR p hp with h | h
      · exact absurd h (List.not_mem_nil _)
      · exact ⟨p.2, h, hw⟩
    have himg : ((subNodesSlots
          ((compressSlots (trie_move_eow_to_edges (buildTrie W)).slots []).1)).toFinset.image
            (fun u => (dawg_words u).toFinset)) =
        ((subNodesSlots (trie_move_eow_to_edges (buildTrie W)).slots).toFinset.image
          (fun u => (dawg_words u).toFinset)) := by
      apply Finset.ext
      intro x
      rw [Finset.mem_image, Finset.mem_image]
      constructor
      · rintro ⟨d, hd, rfl⟩
        rw [List.mem_toFinset] at hd
        obtain ⟨u, hu, hw⟩ := hsub d hd
        exact ⟨u, List.mem_toFinset.mpr hu, by rw [hw]⟩
      · rintro ⟨u, hu, rfl⟩
        rw [List.mem_toFinset] at hu
        obtain ⟨d, hd, hw⟩ := hsup u hu
        exact ⟨d, List.mem_toFinset.mpr hd, by rw [hw]⟩
    have hinjOn : Set.InjOn (fun u => (dawg_words u).toFinset)
        ((subNodesSlots
          ((compressSlots (trie_move_eow_to_edges (buildTrie W)).slots []).1)).toFinset :
            Finset Trie) := by
      intro u hu v hv he
      rw [Finset.mem_coe, List.mem_toFinset] at hu hv
      refine hinj u hu v hv ?_
      intro w
      rw [← List.mem_toFinset, ← List.mem_toFinset (l := dawg_words v)]
      simp only at he
      rw [he]
    calc (subNodesSlots
          ((compressSlots (trie_move_eow_to_edges (buildTrie W)).slots []).1)).dedup.length
        = (subNodesSlots
            ((compressSlots (trie_move_eow_to_edges (buildTrie W)).slots []).1)).toFinset.card
          := (List.card_toFinset _).symm
      _ = ((subNodesSlots
            ((compressSlots (trie_move_eow_to_edges (buildTrie W)).slots []).1)).toFinset.image
              (fun u => (dawg_words u).toFinset)).card :=
          (Finset.card_image_of_injOn hinjOn).symm
      _ = ((subNodesSlots (trie_move_eow_to_edges (buildTrie W)).slots).toFinset.image
            (fun u => (dawg_words u).toFinset)).card := by rw [himg]
      _ = ((subNodesSlots (trie_move_eow_to_edges (buildTrie W)).slots).map
            (fun u => (dawg_words u).toFinset)).toFinset.card := by
          congr 1
          apply Finset.ext
          intro x
          rw [Finset.mem_image, List.mem_toFinset, List.mem_map]
          constructor
          · rintro ⟨u, hu, he⟩
            exact ⟨u, List.mem_toFinset.mp hu, he⟩
          · rintro ⟨u, hu, he⟩
            exact ⟨u, List.mem_toFinset.mpr hu, he⟩
      _ = ((subNodesSlots (trie_move_eow_to_edges (buildTrie W)).slots).map
            (fun u => (dawg_words u).toFinset)).dedup.length := List.card_toFinset _
  · intro u hu v hv hcu hcv
    refine hinj u hu v hv ?_
    intro w
    rw [dawg_words_of_no_children hcu, dawg_words_of_no_children hcv]

/-- Witness for C6 at the concrete word set {ab, ac}. -/
theorem C6_minimality_witness :
    (subNodesSlots (buildDawg [[0, 1], [0, 2]]).slots).dedup.length =
      ((subNodesSlots (trie_move_eow_to_edges (buildTrie [[0, 1], [0, 2]])).slots).map
        (fun u => (dawg_words u).toFinset)).dedup.length ∧
    (∀ u ∈ subNodesSlots (buildDawg [[0, 1], [0, 2]]).slots,
      ∀ v ∈ subNodesSlots (buildDawg [[0, 1], [0, 2]]).slots,
      count_children u = 0 → count_children v = 0 → u = v) ∧
    (∀ u ∈ subNodesSlots (buildDawg [[0, 1], [0, 2]]).slots,
      ∀ v ∈ subNodesSlots (buildDawg [[0, 1], [0, 2]]).slots,
      (∀ w, w ∈ dawg_words u ↔ w ∈ dawg_words v) → u = v) :=
  C6_minimality [[0, 1], [0, 2]] (by unfold CleanWords; decide)
